import Mathlib

/- Verification development for the 2D RGB convolution core of the Rust crate
`simd_playground` (file `src/lib.rs`): a kernel type `ConvKernel<K>` and a
processor `ConvProcessor<K>` with five application strategies (`naive1`,
`naive2`, `simd1`, `simd2`, `simd3`).

Modelling conventions used throughout this file:

* `usize` values are `Nat`.  Rust runtime failures (overflow-checked
  subtraction, as in debug builds, and out-of-range slice indexing) are
  modelled by `Option`: a strategy returns `none` exactly when the
  corresponding Rust call would fail at runtime.
* The `f32` values flowing through the convolution are modelled by exact
  rational arithmetic (`ℚ`).  All five strategies accumulate the kernel taps
  of one output sample in the same row-major (i outer, j inner) order, so
  this abstraction introduces no reassociation of the floating-point sums;
  `vfmaq_f32` (fused multiply-add) is exact in this model, as is `mul`
  followed by `add`.
* The `f32` arithmetic performed by kernel *construction* is modelled by
  `FP32`, which also carries a NaN value, because the `sum == 0.` check in
  `ConvKernel::new` has NaN-sensitive behaviour.  Infinities, signed zero
  (which the sum can never produce starting from `+0.0`) and rounding are
  not modelled.
* NEON vector values (`float32x4_t`) are modelled as `Fin 4 → ℚ`; the
  intrinsics used by the source (`vdupq_n_f32`, `vfmaq_f32`, `vextq_f32`,
  `vld1q_f32`, the widening u8→u16→u32→f32 conversion chains of `vld3q_u8`
  loads, and the saturating f32→u32→u16→u8 narrowing chain of `vec4_cvt`)
  are given their documented lane-wise semantics on this model.
* Rust `for a..b` loops over `usize` are the fold combinators `foldR`
  (pure body) and `foldRM` (body that can fail); `(a..b).step_by(s)` is
  `foldS`/`foldSM`.
-/

namespace SimdPlayground

/- Number of channels: `const C: usize = 3;`. -/
def C : ℕ := 3

/- Checked `usize` subtraction: Rust `a - b`, which fails (overflow) when
`b > a`. -/
def csub (a b : ℕ) : Option ℕ := if b ≤ a then some (a - b) else none

/- Pure `for i in a..a+n { s = body(i, s) }` loop. -/
def foldR (f : ℕ → σ → σ) : ℕ → ℕ → σ → σ
  | _, 0, s => s
  | a, n + 1, s => foldR f (a + 1) n (f a s)

/- Fallible `for i in a..a+n` loop; `none` models a Rust panic inside the
body. -/
def foldRM (f : ℕ → σ → Option σ) : ℕ → ℕ → σ → Option σ
  | _, 0, s => some s
  | a, n + 1, s => (f a s).bind (foldRM f (a + 1) n)

/- Fallible `for i in (a..b).step_by(st)` loop with `n` iterations:
visits `a, a+st, ..., a+(n-1)*st`. -/
def foldSM (f : ℕ → σ → Option σ) (st : ℕ) : ℕ → ℕ → σ → Option σ
  | _, 0, s => some s
  | a, n + 1, s => (f a s).bind (foldSM f st (a + st) n)

/- The `f32` model used for kernel construction: exact rationals extended
with NaN. -/
inductive FP32 where
  | nan : FP32
  | num : ℚ → FP32
deriving DecidableEq

/- IEEE addition on the model: NaN is absorbing; finite addition is exact
(rounding and overflow to infinity are not modelled). -/
def fpAdd : FP32 → FP32 → FP32
  | FP32.nan, _ => FP32.nan
  | _, FP32.nan => FP32.nan
  | FP32.num a, FP32.num b => FP32.num (a + b)

/- IEEE `==` on the model: any comparison involving NaN is false. -/
def fpBeq : FP32 → FP32 → Bool
  | FP32.num a, FP32.num b => a == b
  | _, _ => false

/- `filter.iter().sum()` for `f32`: fold of `+` starting from `0.0`. -/
def fpSum (l : List FP32) : FP32 := l.foldl fpAdd (FP32.num 0)

/- The three construction failures of `ConvKernel::new`, in the order the
source checks them.  The source surfaces each as a panic with a distinct
message; the spec names them `InvalidKernelShape`, `InvalidKernelSize`,
`ZeroNormalizer`.  A Rust panic in a constructor is modelled as `Except.error`
with the corresponding variant. -/
inductive KernelErr where
  | invalidShape : KernelErr
  | invalidSize : KernelErr
  | zeroNormalizer : KernelErr
deriving DecidableEq

/- `ConvKernel<K>` as built by `ConvKernel::new` (construction-level model,
weights kept in the NaN-aware `f32` model). -/
structure ConvKernelF (K : ℕ) where
  inner : List FP32
  div : Option FP32
deriving DecidableEq

/- `ConvKernel::<K>::new(filter, avg)`:

```rust
if filter.len() != K * K { panic!("inconsistent filter size ...") }
if K % 2 == 0 || K < 3 { panic!("only odd number >= 3 ...") }
let div = if avg {
    let sum = filter.iter().sum();
    if sum == 0. { panic!("cannot calculate average ...") }
    Some(sum)
} else { None };
Self { inner: filter.iter().map(|c| *c).collect(), div }
``` -/
def ConvKernelF.new (K : ℕ) (filter : List FP32) (avg : Bool) :
    Except KernelErr (ConvKernelF K) :=
  if filter.length ≠ K * K then Except.error KernelErr.invalidShape
  else if K % 2 = 0 ∨ K < 3 then Except.error KernelErr.invalidSize
  else if avg then
    if fpBeq (fpSum filter) (FP32.num 0) then Except.error KernelErr.zeroNormalizer
    else Except.ok ⟨filter, some (fpSum filter)⟩
  else Except.ok ⟨filter, none⟩

/- Kernel with finite weights, as used by the processor strategies: the
state of a validly constructed `ConvKernel<K>` in the exact-rational `f32`
model (`inner: Vec<f32>`, `div: Option<f32>`). -/
structure ConvKernel (K : ℕ) where
  inner : List ℚ
  div : Option ℚ
deriving DecidableEq

/- `ConvKernel::at(i, j) = self.inner[i * K + j]`.  Callers always index in
range (the spec makes out-of-range access undefined); out of range the model
returns the junk value 0. -/
def ConvKernel.kAt {K : ℕ} (P : ConvKernel K) (i j : ℕ) : ℚ :=
  P.inner.getD (i * K + j) 0

/- The image collaborator: raw interleaved bytes plus dimensions.  Byte
values are `Nat`s (a well-formed image has `content.length = h * w * C`). -/
structure RgbImage where
  content : List ℕ
  height : ℕ
  width : ℕ
deriving DecidableEq

/- `RgbImage::from_raw(dst, h, w)`. -/
def RgbImage.from_raw (dst : List ℕ) (h w : ℕ) : RgbImage := ⟨dst, h, w⟩

/- `t.clamp(u8::MIN as f32, u8::MAX as f32) as u8`: clamp to `[0, 255]`,
then convert with truncation toward zero (for the clamped, nonnegative value
this is the floor). -/
def f32u8 (t : ℚ) : ℕ := (⌊max 0 (min t 255)⌋).toNat

/- `if let Some(div) = self.kernel.div { t /= div; }`. -/
def applyDiv (d : Option ℚ) (t : ℚ) : ℚ :=
  match d with
  | some dv => t / dv
  | none => t

/- Total source sample: `src.content()[idx] as f32` with junk value 0 out of
range; used by the specification images against which the strategies are
proved. -/
def srcQ (src : RgbImage) (idx : ℕ) : ℚ := (src.content.getD idx 0 : ℚ)

/- Bounds-checked slice read `src.content()[idx] as f32`; `none` models the
out-of-range panic. -/
def readB (src : RgbImage) (idx : ℕ) : Option ℚ :=
  (src.content.get? idx).map (fun v => (v : ℚ))

/- The accumulation of `naive1` for one channel of one output pixel:
`for i in 0..K { for j in 0..K { t += src[...] * kernel.at(i, j) } }`. -/
def convAcc {K : ℕ} (P : ConvKernel K) (src : RgbImage) (x y c : ℕ) :
    Option ℚ :=
  foldRM (fun i t =>
    foldRM (fun j t => do
      let v ← readB src
        ((y - K / 2 + i) * src.width * C + (x - K / 2 + j) * C + c)
      pure (t + v * P.kAt i j)) 0 K t) 0 K (0 : ℚ)

/- The per-pixel body of `naive1` (`for c in 0..C`). -/
def naive1Body {K : ℕ} (P : ConvKernel K) (src : RgbImage) (x y : ℕ)
    (dst : List ℕ) : Option (List ℕ) :=
  foldRM (fun c dst => do
    let t ← convAcc P src x y c
    let t := applyDiv P.div t
    pure (dst.set (y * src.width * C + x * C + c) (f32u8 t))) 0 C dst

/- `ConvProcessor::naive1`. -/
def naive1 {K : ℕ} (P : ConvKernel K) (src : RgbImage) : Option RgbImage := do
  let xend ← csub src.width (K / 2)
  let yend ← csub src.height (K / 2)
  let dst : List ℕ := List.replicate (src.height * src.width * C) 0
  let dst ← foldRM (fun y dst =>
    foldRM (fun x dst => naive1Body P src x y dst)
      (K / 2) (xend - K / 2) dst)
    (K / 2) (yend - K / 2) dst
  pure (RgbImage.from_raw dst src.height src.width)

/- The per-pixel scalar body shared verbatim by `naive2` and by the
`peel_loop` closures of `simd1`, `simd2` and `simd3`:

```rust
let mut rgb: [f32; 3] = [0.; C];
for i in 0..K { for j in 0..K { for c in 0..C {
    let index = (y - half + i) * w * C + (x - half + j) * C + c;
    rgb[c] += src.content()[index] as f32 * self.kernel.at(i, j);
}}}
let base_index = y * w * C + x * C;
for c in 0..C {
    let mut t = rgb[c];
    if let Some(div) = self.kernel.div { t /= div; }
    dst[base_index + c] = t.clamp(...) as u8;
}
``` -/
def peelAcc {K : ℕ} (P : ConvKernel K) (src : RgbImage) (x y : ℕ) :
    Option (List ℚ) :=
  foldRM (fun i rgb =>
    foldRM (fun j rgb =>
      foldRM (fun c rgb => do
        let v ← readB src
          ((y - K / 2 + i) * src.width * C + (x - K / 2 + j) * C + c)
        pure (rgb.set c (rgb.getD c 0 + v * P.kAt i j)))
        0 C rgb) 0 K rgb) 0 K ([0, 0, 0] : List ℚ)

def peelLoop {K : ℕ} (P : ConvKernel K) (src : RgbImage) (x y : ℕ)
    (dst : List ℕ) : Option (List ℕ) := do
  let rgb ← peelAcc P src x y
  pure (foldR (fun c dst =>
    dst.set (y * src.width * C + x * C + c)
      (f32u8 (applyDiv P.div (rgb.getD c 0)))) 0 C dst)

/- `ConvProcessor::naive2` (its body is exactly the shared scalar body). -/
def naive2 {K : ℕ} (P : ConvKernel K) (src : RgbImage) : Option RgbImage := do
  let xend ← csub src.width (K / 2)
  let yend ← csub src.height (K / 2)
  let dst : List ℕ := List.replicate (src.height * src.width * C) 0
  let dst ← foldRM (fun y dst =>
    foldRM (fun x dst => peelLoop P src x y dst)
      (K / 2) (xend - K / 2) dst)
    (K / 2) (yend - K / 2) dst
  pure (RgbImage.from_raw dst src.height src.width)

/- `float32x4_t` in the exact model. -/
def V4 : Type := Fin 4 → ℚ

/- Lane access with a `Nat` index (callers stay below 4). -/
def laneN (v : V4) (z : ℕ) : ℚ := if h : z < 4 then v ⟨z, h⟩ else 0

/- `vdupq_n_f32`. -/
def vdupN (q : ℚ) : V4 := fun _ => q

/- `vfmaq_f32(vt, vs, kern)`: lane-wise `vt + vs * kern` (the fusion makes
this exact, as it is in this model). -/
def vfma (vt vs kern : V4) : V4 := fun l => vt l + vs l * kern l

/- `vld1q_f32` of four prepared scalars. -/
def mkV4 (a b c d : ℚ) : V4 := fun l => [a, b, c, d].getD l.val 0

/- `s4[z] = v`. -/
def setLane (s4 : V4) (z : ℕ) (v : ℚ) : V4 :=
  fun l => if l.val = z then v else s4 l

/- `vextq_f32::<off>(a, b)`: lane `l` of the result is lane `off + l` of the
8-lane concatenation of `a` and `b` (the source selects `off = j % 4` by a
`match`, so `off` is always below 4). -/
def vextN (off : ℕ) (a b : V4) : V4 :=
  fun l => if h : off % 4 + l.val < 4 then a ⟨off % 4 + l.val, h⟩
    else b ⟨off % 4 + l.val - 4, by have := l.isLt; omega⟩

/- `float32x4x3_t`. -/
structure V4x3 where
  t0 : V4
  t1 : V4
  t2 : V4

/- Channel projection (`vt.0`, `vt.1`, `vt.2`). -/
def chanGet (t : V4x3) (c : ℕ) : V4 :=
  match c with
  | 0 => t.t0
  | 1 => t.t1
  | _ => t.t2

def v4zero : V4 := fun _ => 0

/- `mem::zeroed::<float32x4x3_t>()`, also `init_float32x4x3(0.)`. -/
def v4x3zero : V4x3 := ⟨v4zero, v4zero, v4zero⟩

/- Lane-wise fused multiply-add on a channel triple. -/
def fmaT (vt vs : V4x3) (kern : V4) : V4x3 :=
  ⟨vfma vt.t0 vs.t0 kern, vfma vt.t1 vs.t1 kern, vfma vt.t2 vs.t2 kern⟩

/- The `vext`-derived window of two adjacent bank registers used by `simd2`
and `simd3` (`off ≠ 0` case), or the register itself (`off = 0` case). -/
def extWindow (shared : List V4x3) (regi off : ℕ) : V4x3 :=
  if off ≠ 0 then
    ⟨vextN off (chanGet (shared.getD regi v4x3zero) 0)
        (chanGet (shared.getD (regi + 1) v4x3zero) 0),
     vextN off (chanGet (shared.getD regi v4x3zero) 1)
        (chanGet (shared.getD (regi + 1) v4x3zero) 1),
     vextN off (chanGet (shared.getD regi v4x3zero) 2)
        (chanGet (shared.getD (regi + 1) v4x3zero) 2)⟩
  else shared.getD regi v4x3zero

/- The result store executed by `simd1`/`simd2` inside their `for i` loop
(the two code blocks are identical):

```rust
let base_index = y * w * C + x * C;
for (c, &v) in [vt.0, vt.1, vt.2].iter().enumerate() {
    vst1q_f32(t4.as_mut_ptr(), v);
    for z in 0..4 {
        let mut t = t4[z];
        if let Some(div) = self.kernel.div { t /= div; }
        dst[base_index + z * C + c] = t.clamp(...) as u8;
    }
}
```

All stores land in range whenever the driver's size subtractions succeed
(proved below), so the unchecked-write model (`List.set`) is faithful. -/
def store4 (dv : Option ℚ) (vt : V4x3) (base : ℕ) (dst : List ℕ) : List ℕ :=
  foldR (fun c dst =>
    foldR (fun z dst =>
      dst.set (base + z * C + c) (f32u8 (applyDiv dv (laneN (chanGet vt c) z))))
      0 4 dst) 0 C dst

/- `simd1`'s `prepare` closure: gather four strided samples of channel
`c` starting at `base` and `vld1q_f32` them. -/
def prepare4 (src : RgbImage) (base c : ℕ) : Option V4 := do
  let s0 ← readB src (base + 0 * C + c)
  let s1 ← readB src (base + 1 * C + c)
  let s2 ← readB src (base + 2 * C + c)
  let s3 ← readB src (base + 3 * C + c)
  pure (mkV4 s0 s1 s2 s3)

/- One kernel-row accumulation of `simd1`'s `simd_loop` (`for j in 0..K`). -/
def simd1Row {K : ℕ} (P : ConvKernel K) (src : RgbImage) (x y i : ℕ)
    (vt : V4x3) : Option V4x3 :=
  foldRM (fun j vt => do
    let base := (y - K / 2 + i) * src.width * C + (x - K / 2 + j) * C
    let vs0 ← prepare4 src base 0
    let vs1 ← prepare4 src base 1
    let vs2 ← prepare4 src base 2
    pure (fmaT vt ⟨vs0, vs1, vs2⟩ (vdupN (P.kAt i j)))) 0 K vt

/- The `simd_loop` closure of `simd1` (output columns `x..x+3` of row `y`).
The result store sits *inside* the `for i` loop in the source; every
iteration overwrites the same 12 destination bytes, the last one with the
fully accumulated sums. -/
def simdLoop1 {K : ℕ} (P : ConvKernel K) (src : RgbImage) (x y : ℕ)
    (dst : List ℕ) : Option (List ℕ) := do
  let s ← foldRM (fun i (s : V4x3 × List ℕ) => do
    let vt ← simd1Row P src x y i s.1
    pure (vt, store4 P.div vt (y * src.width * C + x * C) s.2))
    0 K (v4x3zero, dst)
  pure s.2

/- `ConvProcessor::simd1`. -/
def simd1 {K : ℕ} (P : ConvKernel K) (src : RgbImage) : Option RgbImage := do
  let xend ← csub src.width (K / 2)
  let yend ← csub src.height (K / 2)
  let dst : List ℕ := List.replicate (src.height * src.width * C) 0
  let wm2h ← csub src.width (2 * (K / 2))
  let simdEnd ← csub xend (wm2h % 4)
  let dst ← foldRM (fun y dst => do
    let dst ← foldSM (fun x dst => simdLoop1 P src x y dst) 4
      (K / 2) ((simdEnd - K / 2 + 3) / 4) dst
    foldRM (fun x dst => peelLoop P src x y dst)
      simdEnd (xend - simdEnd) dst)
    (K / 2) (yend - K / 2) dst
  pure (RgbImage.from_raw dst src.height src.width)

/- `simd2`'s shared-register count `(K / 2 + 1) / 2 + 1`. -/
def s2len (K : ℕ) : ℕ := (K / 2 + 1) / 2 + 1

/- `simd2`'s `load` closure: lane `z < ft` of the reused buffer `s4` becomes
`src[base + k*4*C + z*C + c]`; the remaining lanes keep their previous
(stale) contents. -/
def loadS2 (src : RgbImage) (base k c ft : ℕ) (s4 : V4) : Option V4 :=
  foldRM (fun z s4 => do
    let v ← readB src (base + k * 4 * C + z * C + c)
    pure (setLane s4 z v)) 0 ft s4

/- `simd2`'s `make` closure: fill bank register `k` from the three channels,
threading the stale `s4` buffer through the three loads. -/
def makeS2 (src : RgbImage) (base k ft : ℕ) (st : V4 × List V4x3) :
    Option (V4 × List V4x3) := do
  let a ← loadS2 src base k 0 ft st.1
  let b ← loadS2 src base k 1 ft a
  let c ← loadS2 src base k 2 ft b
  pure (c, st.2.set k ⟨a, b, c⟩)

/- The whole bank build of one `simd2` kernel row: `len - 1` full registers,
then the tail register with `ft` fresh lanes. -/
def bank2load (src : RgbImage) (base len ft : ℕ) : Option (V4 × List V4x3) := do
  let st ← foldRM (fun k st => makeS2 src base k 4 st) 0 (len - 1)
    (v4zero, List.replicate len v4x3zero)
  makeS2 src base (len - 1) ft st

/- The tap sweep of one `simd2` kernel row (`for j in 0..K`), deriving each
window by `vextq_f32` from the bank. -/
def simd2Row {K : ℕ} (P : ConvKernel K) (shared : List V4x3) (i : ℕ)
    (vt : V4x3) : V4x3 :=
  foldR (fun j vt =>
    fmaT vt (extWindow shared (j / 4) (j % 4)) (vdupN (P.kAt i j))) 0 K vt

/- The `simd_loop` closure of `simd2`.  Per kernel row it loads a bank of
`s2len K` registers covering `2*half + 4` source pixels (the last register
only half-filled when `half` is odd) and derives each tap's 4-lane window by
`vextq_f32`; the result store again sits inside the `for i` loop. -/
def simdLoop2 {K : ℕ} (P : ConvKernel K) (src : RgbImage) (x y : ℕ)
    (dst : List ℕ) : Option (List ℕ) := do
  let s ← foldRM (fun i (s : V4x3 × List ℕ) => do
    let st ← bank2load src
      ((y - K / 2 + i) * src.width * C + (x - K / 2) * C) (s2len K)
      (if K / 2 % 2 = 1 then 2 else 4)
    let vt := simd2Row P st.2 i s.1
    pure (vt, store4 P.div vt (y * src.width * C + x * C) s.2))
    0 K (v4x3zero, dst)
  pure s.2

/- `ConvProcessor::simd2`. -/
def simd2 {K : ℕ} (P : ConvKernel K) (src : RgbImage) : Option RgbImage := do
  let xend ← csub src.width (K / 2)
  let yend ← csub src.height (K / 2)
  let dst : List ℕ := List.replicate (src.height * src.width * C) 0
  let wm2h ← csub src.width (2 * (K / 2))
  let simdEnd ← csub xend (wm2h % 4)
  let dst ← foldRM (fun y dst => do
    let dst ← foldSM (fun x dst => simdLoop2 P src x y dst) 4
      (K / 2) ((simdEnd - K / 2 + 3) / 4) dst
    foldRM (fun x dst => peelLoop P src x y dst)
      simdEnd (xend - simdEnd) dst)
    (K / 2) (yend - K / 2) dst
  pure (RgbImage.from_raw dst src.height src.width)

/- `simd3` bank length `(K + 1) / 4 + 4`. -/
def s3len (K : ℕ) : ℕ := (K + 1) / 4 + 4

/- `simd3`'s `load16`: `vld3q_u8` deinterleaves 48 bytes starting at
`base + b * C` into three 16-byte channel runs, widened u8→u16→u32→f32 into
bank registers `b..b+3`.  Note the source offsets the read by `b * C`, i.e.
by `b` *pixels*, although `b` counts 4-lane registers (compare `load4or2`,
which uses `b * 4 * C`). -/
def load16 (src : RgbImage) (base b : ℕ) (shared : List V4x3) :
    Option (List V4x3) :=
  foldRM (fun z shared => do
    let mk := fun (c : ℕ) => do
      let v0 ← readB src (base + b * C + (4 * z + 0) * C + c)
      let v1 ← readB src (base + b * C + (4 * z + 1) * C + c)
      let v2 ← readB src (base + b * C + (4 * z + 2) * C + c)
      let v3 ← readB src (base + b * C + (4 * z + 3) * C + c)
      pure (mkV4 v0 v1 v2 v3)
    let c0 ← mk 0
    let c1 ← mk 1
    let c2 ← mk 2
    pure (shared.set (b + z) ⟨c0, c1, c2⟩)) 0 4 shared

/- `simd3`'s `load8`: as `load16` but 24 bytes into registers `b..b+1`, with
the same `b * C` read offset. -/
def load8 (src : RgbImage) (base b : ℕ) (shared : List V4x3) :
    Option (List V4x3) :=
  foldRM (fun z shared => do
    let mk := fun (c : ℕ) => do
      let v0 ← readB src (base + b * C + (4 * z + 0) * C + c)
      let v1 ← readB src (base + b * C + (4 * z + 1) * C + c)
      let v2 ← readB src (base + b * C + (4 * z + 2) * C + c)
      let v3 ← readB src (base + b * C + (4 * z + 3) * C + c)
      pure (mkV4 v0 v1 v2 v3)
    let c0 ← mk 0
    let c1 ← mk 1
    let c2 ← mk 2
    pure (shared.set (b + z) ⟨c0, c1, c2⟩)) 0 2 shared

/- `simd3`'s `load4or2`: scalar strided load of `ft ∈ {2, 4}` pixels at pixel
offset `b * 4` into register `b`; the upper lanes of a 2-element load are the
zeros of the freshly initialised `s4` buffer (within one call `s4` is reused
across the three channels, but only lanes below `ft` are ever written, so the
upper lanes stay zero for every channel). -/
def load4or2 (src : RgbImage) (base b ft : ℕ) (shared : List V4x3) :
    Option (List V4x3) := do
  let ld := fun (c : ℕ) =>
    foldRM (fun z s4 => do
      let v ← readB src (base + b * 4 * C + z * C + c)
      pure (setLane s4 z v)) 0 ft v4zero
  let c0 ← ld 0
  let c1 ← ld 1
  let c2 ← ld 2
  pure (shared.set b ⟨c0, c1, c2⟩)

/- The register-bank loading loop of `simd3`:

```rust
let mut base = 0;
let mut remains = half * 2 + 16;
while remains > 0 {
    match remains {
        _r @ 16.. => { load16(&mut shared, base); remains -= 16; base += 4; }
        _r @ 8..  => { load8(&mut shared, base);  remains -= 8;  base += 2; }
        _r @ 4..  => { load4or2(&mut shared, base, 4); remains -= 4; base += 1; }
        _r @ 2..  => { load4or2(&mut shared, base, 2); remains -= 2; }
        _ => unreachable!(),
    }
    if remains < 2 { break; }
}
```

`fuel` only drives the structural recursion; any `fuel ≥ remains` computes
the loop, since `remains` strictly decreases.  The unreachable arm (and fuel
exhaustion, which cannot happen for `fuel ≥ remains`) is modelled as
failure. -/
def bank3load (src : RgbImage) (base0 : ℕ) :
    ℕ → ℕ → ℕ → List V4x3 → Option (List V4x3)
  | 0, remains, _, shared => if remains = 0 then some shared else none
  | fuel + 1, remains, b, shared =>
    if remains = 0 then some shared
    else if 16 ≤ remains then do
      let shared ← load16 src base0 b shared
      if remains - 16 < 2 then some shared
      else bank3load src base0 fuel (remains - 16) (b + 4) shared
    else if 8 ≤ remains then do
      let shared ← load8 src base0 b shared
      if remains - 8 < 2 then some shared
      else bank3load src base0 fuel (remains - 8) (b + 2) shared
    else if 4 ≤ remains then do
      let shared ← load4or2 src base0 b 4 shared
      if remains - 4 < 2 then some shared
      else bank3load src base0 fuel (remains - 4) (b + 1) shared
    else if 2 ≤ remains then do
      let shared ← load4or2 src base0 b 2 shared
      if remains - 2 < 2 then some shared
      else bank3load src base0 fuel (remains - 2) b shared
    else none

/- Saturating f32→u32 conversion `vcvtq_u32_f32`: round toward zero,
negative to 0, saturate at `u32::MAX`. -/
def cvtU32 (t : ℚ) : ℕ := if t < 0 then 0 else min (⌊t⌋).toNat (2 ^ 32 - 1)

/- The `vec4_cvt` pack: the `vqmovn_u32` / `vqmovn_u16` saturating narrowing
chain u32→u16→u8 applied to one lane. -/
def satPack (t : ℚ) : ℕ := min (min (cvtU32 t) (2 ^ 16 - 1)) (2 ^ 8 - 1)

/- The tap sweep of one `simd3` kernel row (`for j in 0..K { for z in 0..4 }`):
each of the four accumulator groups `z` takes its window at bank lane
`z * 4 + j`. -/
def simd3Taps {K : ℕ} (P : ConvKernel K) (shared : List V4x3) (i : ℕ)
    (vts : List V4x3) : List V4x3 :=
  foldR (fun j vts =>
    foldR (fun z vts =>
      vts.set z (fmaT (vts.getD z v4x3zero)
        (extWindow shared ((z * 4 + j) / 4) ((z * 4 + j) % 4))
        (vdupN (P.kAt i j)))) 0 4 vts) 0 K vts

/- The `vdivq_f32` normalisation of the four accumulator groups of
`simd3`. -/
def divStep3 (d : Option ℚ) (vts : List V4x3) : List V4x3 :=
  match d with
  | some dv => vts.map (fun (t : V4x3) =>
      (⟨fun l => t.t0 l / dv, fun l => t.t1 l / dv, fun l => t.t2 l / dv⟩ : V4x3))
  | none => vts

/- The `vst3q_u8` deinterleaved store of the packed 16 output pixels. -/
def store16 (vts : List V4x3) (base : ℕ) (dst : List ℕ) : List ℕ :=
  foldR (fun e dst =>
    foldR (fun c dst =>
      dst.set (base + e * C + c)
        (satPack (laneN (chanGet (vts.getD (e / 4) v4x3zero) c) (e % 4))))
      0 C dst) 0 16 dst

/- The `simd_loop` closure of `simd3` (output columns `x..x+15` of row `y`):
per kernel row, the bank of `s3len K` registers is filled by `bank3load`,
then each tap `(i, j)` updates the four accumulator groups through
`vext`-derived windows; normalisation and the deinterleaved saturating store
happen once after the `for i` loop. -/
def simdLoop3 {K : ℕ} (P : ConvKernel K) (src : RgbImage) (x y : ℕ)
    (dst : List ℕ) : Option (List ℕ) := do
  let vts ← foldRM (fun i (vts : List V4x3) => do
    let shared ← bank3load src
      ((y - K / 2 + i) * src.width * C + (x - K / 2) * C)
      (K / 2 * 2 + 16) (K / 2 * 2 + 16) 0 (List.replicate (s3len K) v4x3zero)
    pure (simd3Taps P shared i vts))
    0 K (List.replicate 4 v4x3zero)
  pure (store16 (divStep3 P.div vts) (y * src.width * C + x * C) dst)

/- `ConvProcessor::simd3`. -/
def simd3 {K : ℕ} (P : ConvKernel K) (src : RgbImage) : Option RgbImage := do
  let xend ← csub src.width (K / 2)
  let yend ← csub src.height (K / 2)
  let dst : List ℕ := List.replicate (src.height * src.width * C) 0
  let wm2h ← csub src.width (2 * (K / 2))
  let simdEnd ← csub xend (wm2h % 16)
  let dst ← foldRM (fun y dst => do
    let dst ← foldSM (fun x dst => simdLoop3 P src x y dst) 16
      (K / 2) ((simdEnd - K / 2 + 15) / 16) dst
    foldRM (fun x dst => peelLoop P src x y dst)
      simdEnd (xend - simdEnd) dst)
    (K / 2) (yend - K / 2) dst
  pure (RgbImage.from_raw dst src.height src.width)

/- The five strategy entry points, for claims quantifying over "every
strategy". -/
def allStrategies (K : ℕ) : List (ConvKernel K → RgbImage → Option RgbImage) :=
  [naive1, naive2, simd1, simd2, simd3]

/- ------------------------------------------------------------------ -/
/- Specification images: the per-pixel value every strategy is proved
against. -/

/- The accumulator of the shared contract, in the exact order every strategy
sums it (kernel row `i` outer, kernel column `j` inner):
`acc = Σ_i Σ_j source[y-half+i, x-half+j, c] * kernel.at(i, j)`. -/
def accPix {K : ℕ} (P : ConvKernel K) (src : RgbImage) (x y c : ℕ) : ℚ :=
  foldR (fun i t =>
    foldR (fun j t =>
      t + srcQ src ((y - K / 2 + i) * src.width * C + (x - K / 2 + j) * C + c) *
        P.kAt i j) 0 K t) 0 K 0

/- One interior output byte: accumulate, normalise, clamp, truncate. -/
def specPix {K : ℕ} (P : ConvKernel K) (src : RgbImage) (x y c : ℕ) : ℕ :=
  f32u8 (applyDiv P.div (accPix P src x y c))

/- Destination byte at flat index `idx`: the interior formula inside the
valid region, 0 on the border of thickness `half`. -/
def specAt {K : ℕ} (P : ConvKernel K) (src : RgbImage) (idx : ℕ) : ℕ :=
  let w := src.width
  let y := idx / (w * C)
  let x := idx % (w * C) / C
  let c := idx % (w * C) % C
  if K / 2 ≤ y ∧ y + K / 2 < src.height ∧ K / 2 ≤ x ∧ x + K / 2 < w then
    specPix P src x y c
  else 0

/- The image every correct strategy returns. -/
def specImage {K : ℕ} (P : ConvKernel K) (src : RgbImage) : RgbImage :=
  ⟨(List.range (src.height * src.width * C)).map (specAt P src),
    src.height, src.width⟩

/- Writing the three channels of interior pixel `(y, x)` (the effect of one
scalar per-pixel body). -/
def writePix {K : ℕ} (P : ConvKernel K) (src : RgbImage) (x y : ℕ)
    (dst : List ℕ) : List ℕ :=
  foldR (fun c dst =>
    dst.set (y * src.width * C + x * C + c) (specPix P src x y c)) 0 C dst

/- Partial tap sums used in loop invariants: the inner `j` sum of row `i`
up to `m` taps, and the outer sum of the first `m` full rows. -/
def accRowUpTo {K : ℕ} (P : ConvKernel K) (src : RgbImage)
    (x y c i m : ℕ) : ℚ :=
  foldR (fun j t =>
    t + srcQ src ((y - K / 2 + i) * src.width * C + (x - K / 2 + j) * C + c) *
      P.kAt i j) 0 m 0

def accUpTo {K : ℕ} (P : ConvKernel K) (src : RgbImage) (x y c m : ℕ) : ℚ :=
  foldR (fun i t => t + accRowUpTo P src x y c i K) 0 m 0

/- ------------------------------------------------------------------ -/
/- The value actually computed by `simd3` in its 16-wide region. -/

/- The pixel offset (relative to `x - half`) that bank lane `m` is loaded
from, mirroring `bank3load`'s chunk sequence: a 16- or 8-wide chunk at
register base `b` covers lanes `4*b .. 4*b + 15` (resp. `+ 7`) but reads
pixels starting at offset `b`, i.e. lane `m` holds pixel `b + (m - 4*b)`;
the scalar 4/2-wide chunks read pixel `4*b + z`, i.e. lane `m` holds pixel
`m`.  Out of every chunk the value is the junk `m`. -/
def lane3Pix : ℕ → ℕ → ℕ → ℕ → ℕ
  | 0, _, _, m => m
  | fuel + 1, remains, b, m =>
    if remains = 0 then m
    else if 16 ≤ remains then
      if m < 4 * b + 16 then b + (m - 4 * b)
      else if remains - 16 < 2 then m
      else lane3Pix fuel (remains - 16) (b + 4) m
    else if 8 ≤ remains then
      if m < 4 * b + 8 then b + (m - 4 * b)
      else if remains - 8 < 2 then m
      else lane3Pix fuel (remains - 8) (b + 2) m
    else if 4 ≤ remains then
      if m < 4 * b + 4 then m
      else if remains - 4 < 2 then m
      else lane3Pix fuel (remains - 4) (b + 1) m
    else if 2 ≤ remains then
      if m < 4 * b + 2 then m
      else if remains - 2 < 2 then m
      else lane3Pix fuel (remains - 2) b m
    else m

/- The accumulator `simd3` computes for output column `gx + e` (where `gx`
is the first column of the 16-wide group): group `z = e / 4`, lane
`l = e % 4`, tap `(i, j)` uses bank lane `z * 4 + j + l = e + j`. -/
def acc3 {K : ℕ} (P : ConvKernel K) (src : RgbImage) (gx y e c : ℕ) : ℚ :=
  foldR (fun i t =>
    foldR (fun j t =>
      t + srcQ src ((y - K / 2 + i) * src.width * C +
          (gx - K / 2 + lane3Pix (K / 2 * 2 + 16) (K / 2 * 2 + 16) 0 (e + j))
            * C + c) *
        P.kAt i j) 0 K t) 0 K 0

/- The byte `simd3` stores for output column `gx + e`. -/
def pix3 {K : ℕ} (P : ConvKernel K) (src : RgbImage) (gx y e c : ℕ) : ℕ :=
  satPack (applyDiv P.div (acc3 P src gx y e c))

/- The column where `simd3`'s 16-wide region of a row ends. -/
def simd3End (K w : ℕ) : ℕ := w - K / 2 - (w - 2 * (K / 2)) % 16

/- Destination byte at flat index `idx` as `simd3` computes it: inside the
valid region, the 16-wide groups use `pix3` and the peel columns the shared
scalar formula; the border stays 0. -/
def spec3At {K : ℕ} (P : ConvKernel K) (src : RgbImage) (idx : ℕ) : ℕ :=
  let w := src.width
  let y := idx / (w * C)
  let x := idx % (w * C) / C
  let c := idx % (w * C) % C
  if K / 2 ≤ y ∧ y + K / 2 < src.height ∧ K / 2 ≤ x ∧ x + K / 2 < w then
    if x < simd3End K w then
      pix3 P src (K / 2 + (x - K / 2) / 16 * 16) y ((x - K / 2) % 16) c
    else specPix P src x y c
  else 0

/- The image `simd3` returns. -/
def spec3Image {K : ℕ} (P : ConvKernel K) (src : RgbImage) : RgbImage :=
  ⟨(List.range (src.height * src.width * C)).map (spec3At P src),
    src.height, src.width⟩

/- Partial destination description used by the row sweeps: rows
`half ≤ r < y` carry the value function `A` on columns `xs ≤ col < xe`,
everything else still holds the initial 0. -/
def rowsDesc (A : ℕ → ℕ) (w half xs xe y : ℕ) (idx : ℕ) : ℕ :=
  if half ≤ idx / (w * C) ∧ idx / (w * C) < y ∧
      xs ≤ idx % (w * C) / C ∧ idx % (w * C) / C < xe then A idx else 0

/- Partial sums of `simd3`'s accumulator, mirroring `accRowUpTo`/`accUpTo`:
the row-`i` tap sum and the sum of the first `m` full kernel rows of
`acc3`. -/
def acc3Row {K : ℕ} (P : ConvKernel K) (src : RgbImage)
    (gx y e c i : ℕ) : ℚ :=
  foldR (fun j t =>
    t + srcQ src ((y - K / 2 + i) * src.width * C +
        (gx - K / 2 + lane3Pix (K / 2 * 2 + 16) (K / 2 * 2 + 16) 0 (e + j))
          * C + c) *
      P.kAt i j) 0 K 0

def acc3UpTo {K : ℕ} (P : ConvKernel K) (src : RgbImage)
    (gx y e c m : ℕ) : ℚ :=
  foldR (fun i t => t + acc3Row P src gx y e c i) 0 m 0

/- The sum of all kernel taps, in `accPix`'s nesting. -/
def kSum {K : ℕ} (P : ConvKernel K) : ℚ :=
  foldR (fun i t => foldR (fun j t => t + P.kAt i j) 0 K t) 0 K 0

/- A flat uniform image: every byte of every channel is `v`. -/
def constImage (v h w : ℕ) : RgbImage :=
  ⟨List.replicate (h * w * C) v, h, w⟩

/- ------------------------------------------------------------------ -/
/- Concrete inputs used by the claim scenarios. -/

/- The 3x3 all-ones averaging box kernel (state after
`ConvKernel::<3>::new(vec![1.0; 9], true)`). -/
def box3 : ConvKernel 3 := ⟨List.replicate 9 1, some 9⟩

/- The 3x3 Sobel horizontal-gradient kernel, no normalization. -/
def sobel3 : ConvKernel 3 := ⟨[1, 0, -1, 2, 0, -2, 1, 0, -1], none⟩

/- A 5x5 all-ones kernel, no normalization. -/
def kern5 : ConvKernel 5 := ⟨List.replicate 25 1, none⟩

/- A 9x9 all-ones kernel, no normalization (its weight sum 81 never
saturates a byte on a 0/1 image, so byte differences stay visible). -/
def kern9 : ConvKernel 9 := ⟨List.replicate 81 1, none⟩

/- One pixel per dimension. -/
def img1 : RgbImage := ⟨[200, 100, 50], 1, 1⟩

/- A uniform 3x3 image of value 7. -/
def img3 : RgbImage := ⟨List.replicate 27 7, 3, 3⟩

/- A uniform 4x4 image of value 9. -/
def img4 : RgbImage := ⟨List.replicate 48 9, 4, 4⟩

/- The uniform 10x10 image of constant color (200, 100, 50). -/
def img10 : RgbImage :=
  ⟨(List.range 300).map (fun i => [200, 100, 50].getD (i % 3) 0), 10, 10⟩

/- What the 3x3 averaging box filter must produce on `img10`: the constant
color inside, a 1-pixel black border. -/
def expected10 : RgbImage :=
  ⟨(List.range 300).map (fun idx =>
    if idx / 30 = 0 ∨ idx / 30 = 9 ∨ idx % 30 / 3 = 0 ∨ idx % 30 / 3 = 9
    then 0 else [200, 100, 50].getD (idx % 3) 0), 10, 10⟩

/- A 9x24 0/1 image whose columns 12..23 are 1: wide enough for one 16-wide
`simd3` group, and its step lies inside the group's window. -/
def imgC1 : RgbImage :=
  ⟨(List.range 648).map (fun i => if 12 ≤ i / 3 % 24 then 1 else 0), 9, 24⟩

/- ------------------------------------------------------------------ -/
/- IEEE-754 binary32 round-to-nearest-even on exact rationals, for finite
values in the normal range (every value the C6 rounding counterexample
produces lies well inside the normal range, so subnormals and overflow
never arise there). -/

/- Floor of log2 on naturals (fuel-bounded structural recursion, exact for
inputs below 2^64, far above anything the scenario reaches). -/
def log2fuel : ℕ → ℕ → ℕ
  | 0, _ => 0
  | fuel + 1, n => if n ≤ 1 then 0 else log2fuel fuel (n / 2) + 1

def log2N (n : ℕ) : ℕ := log2fuel 64 n

/- Floor of log2 of a positive rational. -/
def log2floorQ (q : ℚ) : ℤ :=
  if 1 ≤ q then log2N ⌊q⌋.toNat
  else if (1 : ℚ) / q = 2 ^ log2N ⌊1 / q⌋.toNat then
    -(log2N ⌊1 / q⌋.toNat : ℤ)
  else -(log2N ⌊1 / q⌋.toNat : ℤ) - 1

/- Round to the nearest integer, ties to even. -/
def rne (x : ℚ) : ℤ :=
  if x - ⌊x⌋ < 1 / 2 then ⌊x⌋
  else if 1 / 2 < x - ⌊x⌋ then ⌊x⌋ + 1
  else if ⌊x⌋ % 2 = 0 then ⌊x⌋ else ⌊x⌋ + 1

/- Round a rational to the nearest f32: 24-bit significand, round to
nearest, ties to even. -/
def f32round (q : ℚ) : ℚ :=
  if q = 0 then 0
  else if q < 0 then
    -((rne (-q / 2 ^ (log2floorQ (-q) - 23)) : ℚ) *
      2 ^ (log2floorQ (-q) - 23))
  else (rne (q / 2 ^ (log2floorQ q - 23)) : ℚ) * 2 ^ (log2floorQ q - 23)

/- The individually rounded f32 operations of the scalar source path:
`t += src * k` is a rounded multiply followed by a rounded add (scalar
Rust emits no FMA), and `t /= div` is a rounded divide. -/
def fadd (a b : ℚ) : ℚ := f32round (a + b)

def fmul (a b : ℚ) : ℚ := f32round (a * b)

def fdiv (a b : ℚ) : ℚ := f32round (a / b)

/- `filter.iter().sum::<f32>()`: sequential rounded adds from `0.`. -/
def fsumL (l : List ℚ) : ℚ := l.foldl fadd 0

/- `if let Some(div) = self.kernel.div { t /= div; }` in f32. -/
def applyDivF (d : Option ℚ) (t : ℚ) : ℚ :=
  match d with
  | some dv => fdiv t dv
  | none => t

/- `naive1`'s per-channel accumulation with f32-rounded arithmetic. -/
def convAccF {K : ℕ} (P : ConvKernel K) (src : RgbImage) (x y c : ℕ) :
    Option ℚ :=
  foldRM (fun i t =>
    foldRM (fun j t => do
      let v ← readB src
        ((y - K / 2 + i) * src.width * C + (x - K / 2 + j) * C + c)
      pure (fadd t (fmul v (P.kAt i j)))) 0 K t) 0 K (0 : ℚ)

def naive1BodyF {K : ℕ} (P : ConvKernel K) (src : RgbImage) (x y : ℕ)
    (dst : List ℕ) : Option (List ℕ) :=
  foldRM (fun c dst => do
    let t ← convAccF P src x y c
    let t := applyDivF P.div t
    pure (dst.set (y * src.width * C + x * C + c) (f32u8 t))) 0 C dst

/- `ConvProcessor::naive1` with every f32 operation rounded: the same
loop structure as `naive1` above, differing only in the arithmetic. -/
def naive1F {K : ℕ} (P : ConvKernel K) (src : RgbImage) :
    Option RgbImage := do
  let xend ← csub src.width (K / 2)
  let yend ← csub src.height (K / 2)
  let dst : List ℕ := List.replicate (src.height * src.width * C) 0
  let dst ← foldRM (fun y dst =>
    foldRM (fun x dst => naive1BodyF P src x y dst)
      (K / 2) (xend - K / 2) dst)
    (K / 2) (yend - K / 2) dst
  pure (RgbImage.from_raw dst src.height src.width)

/- The f32 nearest 0.1 (the C6 scaling constant): 13421773 * 2^-27. -/
def c01 : ℚ := f32round (1 / 10)

/- The 3x3 all-ones averaging kernel after scaling every weight by
`0.1f32`: the weights are the f32 products `0.1f * 1.0` and the stored
normalizer is the f32 sum of the scaled weights, exactly as
`ConvKernel::new(scaled, true)` computes it. -/
def box3s : ConvKernel 3 :=
  ⟨List.replicate 9 c01, some (fsumL (List.replicate 9 c01))⟩

/- ------------------------------------------------------------------ -/
/- Generic lemmas about the loop combinators and list operations. -/

theorem foldR_congr {σ : Type} {f g : ℕ → σ → σ} {a n : ℕ} {s : σ}
    (h : ∀ i s2, a ≤ i → i < a + n → f i s2 = g i s2) :
    foldR f a n s = foldR g a n s := by
  induction n generalizing a s with
  | zero => rfl
  | succ n ih =>
    show foldR f (a + 1) n (f a s) = foldR g (a + 1) n (g a s)
    rw [h a s le_rfl (by omega)]
    exact ih (fun i s2 h1 h2 => h i s2 (by omega) (by omega))

theorem foldR_succ_right {σ : Type} (f : ℕ → σ → σ) (a n : ℕ) (s : σ) :
    foldR f a (n + 1) s = f (a + n) (foldR f a n s) := by
  induction n generalizing a s with
  | zero => simp [foldR]
  | succ n ih =>
    show foldR f (a + 1) (n + 1) (f a s) = f (a + (n + 1)) (foldR f (a + 1) n (f a s))
    rw [ih]
    congr 1
    omega

theorem foldR_inv {σ : Type} (M : ℕ → σ → Prop) (f : ℕ → σ → σ) (a n : ℕ)
    (s : σ) (h0 : M a s)
    (hstep : ∀ i s2, a ≤ i → i < a + n → M i s2 → M (i + 1) (f i s2)) :
    M (a + n) (foldR f a n s) := by
  induction n generalizing a s with
  | zero => exact h0
  | succ n ih =>
    show M (a + (n + 1)) (foldR f (a + 1) n (f a s))
    have := ih (a + 1) (f a s) (hstep a s le_rfl (by omega) h0)
      (fun i s2 h1 h2 => hstep i s2 (by omega) (by omega))
    have e : a + 1 + n = a + (n + 1) := by omega
    rwa [e] at this

theorem foldR_hom {σ τ : Type} (g : σ → τ) (f : ℕ → σ → σ) (f2 : ℕ → τ → τ)
    (a n : ℕ) (s : σ)
    (h : ∀ i s2, a ≤ i → i < a + n → g (f i s2) = f2 i (g s2)) :
    g (foldR f a n s) = foldR f2 a n (g s) := by
  induction n generalizing a s with
  | zero => rfl
  | succ n ih =>
    show g (foldR f (a + 1) n (f a s)) = foldR f2 (a + 1) n (f2 a (g s))
    rw [← h a s le_rfl (by omega)]
    exact ih (a + 1) (f a s) (fun i s2 h1 h2 => h i s2 (by omega) (by omega))

/- Accumulating folds factor over their start value. -/
theorem foldR_acc_shift (g : ℕ → ℚ) (a n : ℕ) (t0 : ℚ) :
    foldR (fun j t => t + g j) a n t0 = t0 + foldR (fun j t => t + g j) a n 0 := by
  induction n generalizing a t0 with
  | zero => simp [foldR]
  | succ n ih =>
    rw [foldR_succ_right, foldR_succ_right, ih]
    ring

theorem foldRM_eq_pure {σ : Type} (f : ℕ → σ → Option σ) (g : ℕ → σ → σ)
    (a n : ℕ) (s : σ)
    (h : ∀ i s2, a ≤ i → i < a + n → f i s2 = some (g i s2)) :
    foldRM f a n s = some (foldR g a n s) := by
  induction n generalizing a s with
  | zero => rfl
  | succ n ih =>
    show (f a s).bind (foldRM f (a + 1) n) = some (foldR g (a + 1) n (g a s))
    rw [h a s le_rfl (by omega)]
    exact ih (a + 1) (g a s) (fun i s2 h1 h2 => h i s2 (by omega) (by omega))

theorem foldRM_inv {σ : Type} (M : ℕ → σ → Prop) (f : ℕ → σ → Option σ)
    (a n : ℕ) (s : σ) (h0 : M a s)
    (hstep : ∀ i s2, a ≤ i → i < a + n → M i s2 →
      ∃ s3, f i s2 = some s3 ∧ M (i + 1) s3) :
    ∃ s3, foldRM f a n s = some s3 ∧ M (a + n) s3 := by
  induction n generalizing a s with
  | zero => exact ⟨s, rfl, h0⟩
  | succ n ih =>
    obtain ⟨s1, he, hm⟩ := hstep a s le_rfl (by omega) h0
    show ∃ s3, (f a s).bind (foldRM f (a + 1) n) = some s3 ∧ _
    rw [he]
    have := ih (a + 1) s1 hm (fun i s2 h1 h2 => hstep i s2 (by omega) (by omega))
    have e : a + 1 + n = a + (n + 1) := by omega
    rwa [e] at this

/- Invariant lemma for the strided loop; the motive is indexed by the
iteration count. -/
theorem foldSM_inv {σ : Type} (M : ℕ → σ → Prop) (f : ℕ → σ → Option σ)
    (st a n : ℕ) (s : σ) (h0 : M 0 s)
    (hstep : ∀ k s2, k < n → M k s2 →
      ∃ s3, f (a + k * st) s2 = some s3 ∧ M (k + 1) s3) :
    ∃ s3, foldSM f st a n s = some s3 ∧ M n s3 := by
  suffices hgen : ∀ n0 k s2, k + n0 = n → M k s2 →
      ∃ s3, foldSM f st (a + k * st) n0 s2 = some s3 ∧ M n s3 by
    have := hgen n 0 s (by omega) h0
    simpa using this
  intro n0
  induction n0 with
  | zero => exact fun k s2 hk hm => ⟨s2, rfl, by rwa [← Nat.add_zero k, hk] at hm⟩
  | succ n0 ih =>
    intro k s2 hk hm
    obtain ⟨s1, he, hm1⟩ := hstep k s2 (by omega) hm
    have e : a + k * st + st = a + (k + 1) * st := by ring
    have goal : foldSM f st (a + k * st) (n0 + 1) s2 =
        (f (a + k * st) s2).bind (foldSM f st (a + k * st + st) n0) := rfl
    rw [goal, he, e]
    simpa using ih (k + 1) s1 (by omega) hm1

/- List helpers phrased with `getD`. -/

theorem getD_set_eq {α : Type} (l : List α) (i j : ℕ) (a d : α) :
    (l.set i a).getD j d = if i = j ∧ j < l.length then a else l.getD j d := by
  rw [List.getD_eq_getElem?_getD, List.getD_eq_getElem?_getD, List.getElem?_set]
  by_cases h1 : i = j
  · subst h1
    by_cases h2 : i < l.length
    · simp [h2]
    · simp [h2, List.getElem?_eq_none (show l.length ≤ i by omega)]
  · simp [h1]

theorem getD_replicate_zero (n j : ℕ) :
    (List.replicate n (0 : ℕ)).getD j 0 = 0 := by
  rw [List.getD_eq_getElem?_getD]
  rcases lt_or_ge j n with h | h
  · simp [List.getElem?_replicate, h]
  · rw [List.getElem?_eq_none (by simpa using h)]
    rfl

theorem readB_eq_srcQ (src : RgbImage) (idx : ℕ)
    (h : idx < src.content.length) :
    readB src idx = some (srcQ src idx) := by
  unfold readB srcQ
  rw [List.getD_eq_getElem?_getD, List.get?_eq_getElem?,
    List.getElem?_eq_getElem h]
  rfl

/- Flat-index arithmetic for the row-major, channel-interleaved layout. -/

theorem idx_lt_total {y x c h w : ℕ} (hy : y < h) (hx : x < w) (hc : c < C) :
    y * w * C + x * C + c < h * w * C := by
  have h1 : x * C + c < w * C := by
    calc x * C + c < x * C + C := by omega
    _ = (x + 1) * C := by ring
    _ ≤ w * C := Nat.mul_le_mul_right C hx
  calc y * w * C + x * C + c < y * w * C + w * C := by omega
  _ = (y + 1) * (w * C) := by ring
  _ ≤ h * (w * C) := Nat.mul_le_mul_right (w * C) hy
  _ = h * w * C := by ring

theorem idx_decomp {y x c w : ℕ} (hx : x < w) (hc : c < C) :
    (y * w * C + x * C + c) / (w * C) = y ∧
    (y * w * C + x * C + c) % (w * C) / C = x ∧
    (y * w * C + x * C + c) % (w * C) % C = c := by
  have hr : x * C + c < w * C := by
    calc x * C + c < x * C + C := by omega
    _ = (x + 1) * C := by ring
    _ ≤ w * C := Nat.mul_le_mul_right C hx
  have hwC : 0 < w * C := by
    have : 0 < C := by decide
    exact Nat.mul_pos (by omega) this
  have e : y * w * C + x * C + c = (x * C + c) + (w * C) * y := by ring
  refine ⟨?_, ?_, ?_⟩
  · rw [e, Nat.add_mul_div_left _ _ hwC, Nat.div_eq_of_lt hr]
    omega
  · rw [e, Nat.add_mul_mod_self_left, Nat.mod_eq_of_lt hr]
    have e2 : x * C + c = c + C * x := by ring
    rw [e2, Nat.add_mul_div_left _ _ (by decide : 0 < C), Nat.div_eq_of_lt hc]
    omega
  · rw [e, Nat.add_mul_mod_self_left, Nat.mod_eq_of_lt hr]
    have e2 : x * C + c = c + C * x := by ring
    rw [e2, Nat.add_mul_mod_self_left, Nat.mod_eq_of_lt hc]

theorem idx_rebuild {w h : ℕ} (idx : ℕ) (hidx : idx < h * w * C) :
    idx = idx / (w * C) * w * C + idx % (w * C) / C * C + idx % (w * C) % C ∧
    idx / (w * C) < h ∧ idx % (w * C) / C < w ∧ idx % (w * C) % C < C := by
  have hC : 0 < C := by decide
  have e0 : h * w * C = h * (w * C) := by ring
  have hwC : 0 < w * C := by
    by_contra hcon
    have h0 : w * C = 0 := by omega
    rw [e0, h0, Nat.mul_zero] at hidx
    omega
  have d1 := Nat.div_add_mod idx (w * C)
  have d2 := Nat.div_add_mod (idx % (w * C)) C
  have m2 : idx % (w * C) % C < C := Nat.mod_lt _ hC
  refine ⟨?_, ?_, ?_, m2⟩
  · have egoal : idx / (w * C) * w * C + idx % (w * C) / C * C + idx % (w * C) % C
        = w * C * (idx / (w * C)) + (C * (idx % (w * C) / C) + idx % (w * C) % C) := by
      ring
    rw [egoal, d2, d1]
  · rw [Nat.div_lt_iff_lt_mul hwC]
    calc idx < h * w * C := hidx
    _ = h * (w * C) := by ring
  · rw [Nat.div_lt_iff_lt_mul hC]
    exact Nat.mod_lt _ hwC

theorem get?_of_getD (l : List ℕ) (idx : ℕ) (h : idx < l.length) :
    l.get? idx = some (l.getD idx 0) := by
  rw [List.getD_eq_getElem?_getD, List.get?_eq_getElem?, List.getElem?_eq_getElem h]
  rfl

/- Interior tap reads stay inside a well-formed image. -/
theorem read_idx_lt {K : ℕ} {src : RgbImage} {x y c : ℕ} (i j : ℕ)
    (hx1 : K / 2 ≤ x) (hx2 : x + K / 2 < src.width)
    (hy1 : K / 2 ≤ y) (hy2 : y + K / 2 < src.height)
    (hi : i < K) (hj : j < K) (hc : c < C)
    (hlen : src.content.length = src.height * src.width * C) :
    (y - K / 2 + i) * src.width * C + (x - K / 2 + j) * C + c <
      src.content.length := by
  rw [hlen]
  exact idx_lt_total (by omega) (by omega) hc

theorem convAcc_eq {K : ℕ} (P : ConvKernel K) (src : RgbImage) (x y c : ℕ)
    (hx1 : K / 2 ≤ x) (hx2 : x + K / 2 < src.width)
    (hy1 : K / 2 ≤ y) (hy2 : y + K / 2 < src.height) (hc : c < C)
    (hlen : src.content.length = src.height * src.width * C) :
    convAcc P src x y c = some (accPix P src x y c) := by
  unfold convAcc accPix
  apply foldRM_eq_pure
  intro i t hi1 hi2
  apply foldRM_eq_pure
  intro j t2 hj1 hj2
  rw [readB_eq_srcQ src _ (read_idx_lt i j hx1 hx2 hy1 hy2 (by omega) (by omega) hc hlen)]
  rfl

theorem setTriple (g : ℕ → ℚ) (t0 t1 t2 : ℚ) :
    foldR (fun c rgb => rgb.set c (rgb.getD c 0 + g c)) 0 C [t0, t1, t2]
      = [t0 + g 0, t1 + g 1, t2 + g 2] := rfl

theorem accRowUpTo_succ {K : ℕ} (P : ConvKernel K) (src : RgbImage)
    (x y c i m : ℕ) :
    accRowUpTo P src x y c i (m + 1) = accRowUpTo P src x y c i m +
      srcQ src ((y - K / 2 + i) * src.width * C + (x - K / 2 + m) * C + c) *
        P.kAt i m := by
  unfold accRowUpTo
  rw [foldR_succ_right]
  simp

theorem accUpTo_succ {K : ℕ} (P : ConvKernel K) (src : RgbImage)
    (x y c m : ℕ) :
    accUpTo P src x y c (m + 1) = accUpTo P src x y c m +
      accRowUpTo P src x y c m K := by
  unfold accUpTo
  rw [foldR_succ_right]
  simp

theorem accPix_eq_upTo {K : ℕ} (P : ConvKernel K) (src : RgbImage)
    (x y c : ℕ) :
    accPix P src x y c = accUpTo P src x y c K := by
  unfold accPix accUpTo accRowUpTo
  exact foldR_congr (fun i t _ _ => foldR_acc_shift _ 0 K t)

theorem peelAcc_eq {K : ℕ} (P : ConvKernel K) (src : RgbImage) (x y : ℕ)
    (hx1 : K / 2 ≤ x) (hx2 : x + K / 2 < src.width)
    (hy1 : K / 2 ≤ y) (hy2 : y + K / 2 < src.height)
    (hlen : src.content.length = src.height * src.width * C) :
    peelAcc P src x y =
      some [accPix P src x y 0, accPix P src x y 1, accPix P src x y 2] := by
  have hpure : peelAcc P src x y
      = some (foldR (fun i rgb => foldR (fun j rgb => foldR (fun c rgb =>
          rgb.set c (rgb.getD c 0 +
            srcQ src ((y - K / 2 + i) * src.width * C + (x - K / 2 + j) * C + c) *
              P.kAt i j)) 0 C rgb) 0 K rgb) 0 K ([0, 0, 0] : List ℚ)) := by
    unfold peelAcc
    apply foldRM_eq_pure
    intro i rgb hi1 hi2
    apply foldRM_eq_pure
    intro j rgb2 hj1 hj2
    apply foldRM_eq_pure
    intro c rgb3 hc1 hc2
    rw [readB_eq_srcQ src _
      (read_idx_lt i j hx1 hx2 hy1 hy2 (by omega) (by omega) (by omega) hlen)]
    rfl
  rw [hpure]
  congr 1
  have hstep : ∀ i rgb, 0 ≤ i → i < 0 + K →
      rgb = [accUpTo P src x y 0 i, accUpTo P src x y 1 i, accUpTo P src x y 2 i] →
      foldR (fun j rgb => foldR (fun c rgb =>
          rgb.set c (rgb.getD c 0 +
            srcQ src ((y - K / 2 + i) * src.width * C + (x - K / 2 + j) * C + c) *
              P.kAt i j)) 0 C rgb) 0 K rgb
        = [accUpTo P src x y 0 (i + 1), accUpTo P src x y 1 (i + 1),
           accUpTo P src x y 2 (i + 1)] := by
    intro i rgb hi1 hi2 hMi
    subst hMi
    have hstepj : ∀ j rgb2, 0 ≤ j → j < 0 + K →
        rgb2 = [accUpTo P src x y 0 i + accRowUpTo P src x y 0 i j,
                accUpTo P src x y 1 i + accRowUpTo P src x y 1 i j,
                accUpTo P src x y 2 i + accRowUpTo P src x y 2 i j] →
        foldR (fun c rgb =>
            rgb.set c (rgb.getD c 0 +
              srcQ src ((y - K / 2 + i) * src.width * C + (x - K / 2 + j) * C + c) *
                P.kAt i j)) 0 C rgb2
          = [accUpTo P src x y 0 i + accRowUpTo P src x y 0 i (j + 1),
             accUpTo P src x y 1 i + accRowUpTo P src x y 1 i (j + 1),
             accUpTo P src x y 2 i + accRowUpTo P src x y 2 i (j + 1)] := by
      intro j rgb2 hj1 hj2 hMj
      subst hMj
      rw [setTriple (fun c =>
        srcQ src ((y - K / 2 + i) * src.width * C + (x - K / 2 + j) * C + c) *
          P.kAt i j)]
      simp only [accRowUpTo_succ]
      simp [add_assoc]
    have hMj := foldR_inv (M := fun j rgb2 => rgb2 =
        [accUpTo P src x y 0 i + accRowUpTo P src x y 0 i j,
         accUpTo P src x y 1 i + accRowUpTo P src x y 1 i j,
         accUpTo P src x y 2 i + accRowUpTo P src x y 2 i j]) _ 0 K
      [accUpTo P src x y 0 i, accUpTo P src x y 1 i, accUpTo P src x y 2 i]
      (by norm_num [accRowUpTo, foldR]) hstepj
    simp only [Nat.zero_add] at hMj
    rw [hMj]
    simp only [accUpTo_succ]
  have hM := foldR_inv (M := fun i rgb => rgb =
      [accUpTo P src x y 0 i, accUpTo P src x y 1 i, accUpTo P src x y 2 i])
    _ 0 K ([0, 0, 0] : List ℚ) rfl hstep
  simp only [Nat.zero_add] at hM
  rw [hM]
  simp only [accPix_eq_upTo]

theorem peelLoop_eq {K : ℕ} (P : ConvKernel K) (src : RgbImage) (x y : ℕ)
    (hx1 : K / 2 ≤ x) (hx2 : x + K / 2 < src.width)
    (hy1 : K / 2 ≤ y) (hy2 : y + K / 2 < src.height)
    (hlen : src.content.length = src.height * src.width * C)
    (dst : List ℕ) :
    peelLoop P src x y dst = some (writePix P src x y dst) := by
  unfold peelLoop
  rw [peelAcc_eq P src x y hx1 hx2 hy1 hy2 hlen]
  rfl

theorem naive1Body_eq {K : ℕ} (P : ConvKernel K) (src : RgbImage) (x y : ℕ)
    (hx1 : K / 2 ≤ x) (hx2 : x + K / 2 < src.width)
    (hy1 : K / 2 ≤ y) (hy2 : y + K / 2 < src.height)
    (hlen : src.content.length = src.height * src.width * C)
    (dst : List ℕ) :
    naive1Body P src x y dst = some (writePix P src x y dst) := by
  unfold naive1Body writePix
  apply foldRM_eq_pure
  intro c dst2 hc1 hc2
  rw [convAcc_eq P src x y c hx1 hx2 hy1 hy2 (by omega) hlen]
  rfl

theorem writePix_length {K : ℕ} (P : ConvKernel K) (src : RgbImage)
    (x y : ℕ) (dst : List ℕ) :
    (writePix P src x y dst).length = dst.length := by
  show (((dst.set (y * src.width * C + x * C + 0) (specPix P src x y 0)).set
      (y * src.width * C + x * C + 1) (specPix P src x y 1)).set
      (y * src.width * C + x * C + 2) (specPix P src x y 2)).length = dst.length
  simp [List.length_set]

theorem writePix_getD {K : ℕ} (P : ConvKernel K) (src : RgbImage) (x y : ℕ)
    (dst : List ℕ) (idx : ℕ) :
    (writePix P src x y dst).getD idx 0 =
      if y * src.width * C + x * C ≤ idx ∧
          idx < y * src.width * C + x * C + C ∧ idx < dst.length then
        specPix P src x y (idx - (y * src.width * C + x * C))
      else dst.getD idx 0 := by
  have e : writePix P src x y dst =
      ((dst.set (y * src.width * C + x * C + 0) (specPix P src x y 0)).set
        (y * src.width * C + x * C + 1) (specPix P src x y 1)).set
        (y * src.width * C + x * C + 2) (specPix P src x y 2) := rfl
  rw [e]
  generalize y * src.width * C + x * C = b
  rw [getD_set_eq, getD_set_eq, getD_set_eq]
  simp only [List.length_set, show (C : ℕ) = 3 from rfl]
  split_ifs <;> first
    | rfl
    | (congr 1; omega)
    | (exfalso; omega)

theorem rowcol_bound {y x w h : ℕ} (hy : y < h) (hx : x ≤ w) :
    y * w * C + x * C ≤ h * w * C := by
  have h1 : x * C ≤ w * C := Nat.mul_le_mul_right C hx
  calc y * w * C + x * C ≤ y * w * C + w * C := by omega
  _ = (y + 1) * (w * C) := by ring
  _ ≤ h * (w * C) := Nat.mul_le_mul_right (w * C) hy
  _ = h * w * C := by ring

theorem interval_row_iff {w : ℕ} (hw : 0 < w) (y xs xe idx : ℕ)
    (hxe : xe ≤ w) :
    (y * w * C + xs * C ≤ idx ∧ idx < y * w * C + xe * C) ↔
    (idx / (w * C) = y ∧ xs ≤ idx % (w * C) / C ∧ idx % (w * C) / C < xe) := by
  have hCC : (C : ℕ) = 3 := rfl
  have hC : 0 < (C : ℕ) := by decide
  have hwC : 0 < w * C := Nat.mul_pos hw hC
  constructor
  · rintro ⟨hlo, hhi⟩
    obtain ⟨r, hr⟩ : ∃ r, idx = w * C * y + r := by
      refine ⟨idx - y * w * C, ?_⟩
      have e : y * w * C = w * C * y := by ring
      have : y * w * C ≤ idx := by
        have : xs * C + y * w * C ≤ idx := by omega
        omega
      omega
    subst hr
    have e : y * w * C = w * C * y := by ring
    have hrlo : xs * C ≤ r := by omega
    have hrhi : r < xe * C := by omega
    have hrW : r < w * C := lt_of_lt_of_le hrhi (Nat.mul_le_mul_right C hxe)
    refine ⟨?_, ?_, ?_⟩
    · rw [Nat.mul_add_div hwC, Nat.div_eq_of_lt hrW]
      omega
    · rw [Nat.mul_add_mod, Nat.mod_eq_of_lt hrW, Nat.le_div_iff_mul_le hC]
      exact hrlo
    · rw [Nat.mul_add_mod, Nat.mod_eq_of_lt hrW, Nat.div_lt_iff_lt_mul hC]
      exact hrhi
  · rintro ⟨hdy, hclo, hchi⟩
    have hdm := Nat.div_add_mod idx (w * C)
    have hdm2 := Nat.div_add_mod (idx % (w * C)) C
    have hmod2 : idx % (w * C) % C < C := Nat.mod_lt _ hC
    rw [hdy] at hdm
    have h1 : xs * C ≤ idx % (w * C) := by
      have h2 : xs * C ≤ idx % (w * C) / C * C := Nat.mul_le_mul_right C hclo
      have e2 : idx % (w * C) / C * C = C * (idx % (w * C) / C) := by ring
      omega
    have h2 : idx % (w * C) < xe * C := by
      have h3 : (idx % (w * C) / C + 1) * C ≤ xe * C :=
        Nat.mul_le_mul_right C (by omega)
      have e3 : (idx % (w * C) / C + 1) * C = C * (idx % (w * C) / C) + C := by
        ring
      omega
    have e : w * C * y = y * w * C := by ring
    omega

/- Extending a written interval `[B0, B1)` by the freshly written block
`[B1, B2)`. -/
theorem desc_extend {Nn : ℕ} {A D : ℕ → ℕ} {B0 B1 B2 : ℕ}
    (h01 : B0 ≤ B1) (h12 : B1 ≤ B2) {dst dst2 : List ℕ}
    (hprev : ∀ idx, idx < Nn → dst.getD idx 0 =
      if B0 ≤ idx ∧ idx < B1 then A idx else D idx)
    (hblock : ∀ idx, idx < Nn → dst2.getD idx 0 =
      if B1 ≤ idx ∧ idx < B2 then A idx else dst.getD idx 0) :
    ∀ idx, idx < Nn → dst2.getD idx 0 =
      if B0 ≤ idx ∧ idx < B2 then A idx else D idx := by
  intro idx hidx
  rw [hblock idx hidx, hprev idx hidx]
  split_ifs <;> first | rfl | (exfalso; omega)

theorem list_eq_range_map (Nn : ℕ) (A : ℕ → ℕ) (l : List ℕ)
    (hlen : l.length = Nn) (hval : ∀ idx, idx < Nn → l.getD idx 0 = A idx) :
    l = (List.range Nn).map A := by
  apply List.ext_get?
  intro n
  rcases Nat.lt_or_ge n Nn with hn | hn
  · rw [get?_of_getD l n (by omega), hval n hn, List.get?_map,
      List.get?_range hn]
    rfl
  · rw [List.get?_eq_none.2 (by omega), List.get?_eq_none.2 (by simp; omega)]

theorem specAt_block {K : ℕ} (P : ConvKernel K) (src : RgbImage)
    {x y idx : ℕ} (hx1 : K / 2 ≤ x) (hx2 : x + K / 2 < src.width)
    (hy1 : K / 2 ≤ y) (hy2 : y + K / 2 < src.height)
    (hb1 : y * src.width * C + x * C ≤ idx)
    (hb2 : idx < y * src.width * C + x * C + C) :
    specAt P src idx = specPix P src x y (idx - (y * src.width * C + x * C)) := by
  obtain ⟨c, hc, rfl⟩ : ∃ c, c < C ∧ idx = y * src.width * C + x * C + c :=
    ⟨idx - (y * src.width * C + x * C), by omega, by omega⟩
  obtain ⟨e1, e2, e3⟩ := idx_decomp (w := src.width) (y := y)
    (show x < src.width by omega) hc
  unfold specAt
  simp only [e1, e2, e3]
  rw [if_pos ⟨hy1, hy2, hx1, hx2⟩]
  congr 1
  omega

/- Completing one row of writes turns the partial interval description into
the next row-region description. -/
theorem rowsDesc_row_step (A : ℕ → ℕ) {w : ℕ} (hwpos : 0 < w) (half y : ℕ)
    (hy1 : half ≤ y) (idx : ℕ) :
    (if y * w * C + half * C ≤ idx ∧
        idx < y * w * C + (half + (w - half - half)) * C then A idx
      else rowsDesc A w half half (w - half) y idx)
    = rowsDesc A w half half (w - half) (y + 1) idx := by
  by_cases hwh : half ≤ w
  case neg =>
    have he : half + (w - half - half) = half := by omega
    have he2 : w - half = 0 := by omega
    rw [he, if_neg (by omega)]
    unfold rowsDesc
    rw [he2, if_neg (by omega), if_neg (by omega)]
  have hiff := interval_row_iff hwpos y half (half + (w - half - half)) idx
    (by omega)
  by_cases h1 : y * w * C + half * C ≤ idx ∧
      idx < y * w * C + (half + (w - half - half)) * C
  · rw [if_pos h1]
    obtain ⟨e1, e2, e3⟩ := hiff.1 h1
    unfold rowsDesc
    rw [if_pos ⟨by omega, by omega, e2, by omega⟩]
  · rw [if_neg h1]
    unfold rowsDesc
    by_cases h2 : half ≤ idx / (w * C) ∧ idx / (w * C) < y ∧
        half ≤ idx % (w * C) / C ∧ idx % (w * C) / C < w - half
    · rw [if_pos h2, if_pos ⟨h2.1, by omega, h2.2.2⟩]
    · rw [if_neg h2, if_neg ?_]
      intro h3
      rcases Nat.lt_or_ge (idx / (w * C)) y with hr | hr
      · exact h2 ⟨h3.1, hr, h3.2.2⟩
      · have hry : idx / (w * C) = y := by omega
        exact h1 (hiff.2 ⟨hry, h3.2.2.1, by omega⟩)

/- The shape shared by `naive1` and `naive2`: a row-by-row, column-by-column
sweep whose per-pixel body writes the three bytes of the shared contract. -/
theorem scalar_driver_spec {K : ℕ} (P : ConvKernel K) (src : RgbImage)
    (body : ℕ → ℕ → List ℕ → Option (List ℕ))
    (hbody : ∀ x y dst, K / 2 ≤ x → x + K / 2 < src.width → K / 2 ≤ y →
      y + K / 2 < src.height → body x y dst = some (writePix P src x y dst))
    (hw : K / 2 ≤ src.width) (hh : K / 2 ≤ src.height)
    (hlen : src.content.length = src.height * src.width * C) :
    (do
      let xend ← csub src.width (K / 2)
      let yend ← csub src.height (K / 2)
      let dst : List ℕ := List.replicate (src.height * src.width * C) 0
      let dst ← foldRM (fun y dst =>
        foldRM (fun x dst => body x y dst) (K / 2) (xend - K / 2) dst)
        (K / 2) (yend - K / 2) dst
      pure (RgbImage.from_raw dst src.height src.width))
      = some (specImage P src) := by
  rw [show csub src.width (K / 2) = some (src.width - K / 2) from by
        simp [csub, hw],
      show csub src.height (K / 2) = some (src.height - K / 2) from by
        simp [csub, hh]]
  show (foldRM (fun y dst =>
      foldRM (fun x dst => body x y dst) (K / 2) (src.width - K / 2 - K / 2) dst)
      (K / 2) (src.height - K / 2 - K / 2)
      (List.replicate (src.height * src.width * C) 0)).bind
      (fun dst => some (RgbImage.from_raw dst src.height src.width))
    = some (specImage P src)
  have hstep : ∀ y dst, K / 2 ≤ y → y < K / 2 + (src.height - K / 2 - K / 2) →
      (dst.length = src.height * src.width * C ∧
        ∀ idx, idx < src.height * src.width * C → dst.getD idx 0 =
          rowsDesc (specAt P src) src.width (K / 2) (K / 2)
            (src.width - K / 2) y idx) →
      ∃ dst2, foldRM (fun x dst => body x y dst) (K / 2)
          (src.width - K / 2 - K / 2) dst = some dst2 ∧
        (dst2.length = src.height * src.width * C ∧
          ∀ idx, idx < src.height * src.width * C → dst2.getD idx 0 =
            rowsDesc (specAt P src) src.width (K / 2) (K / 2)
              (src.width - K / 2) (y + 1) idx) := by
    intro y dst hy1 hy2 hdst
    obtain ⟨hdlen, hdesc⟩ := hdst
    have hyh : y + K / 2 < src.height := by omega
    have hxstep : ∀ x dstx, K / 2 ≤ x →
        x < K / 2 + (src.width - K / 2 - K / 2) →
        (dstx.length = src.height * src.width * C ∧
          ∀ idx, idx < src.height * src.width * C → dstx.getD idx 0 =
            if y * src.width * C + K / 2 * C ≤ idx ∧
                idx < y * src.width * C + x * C
            then specAt P src idx
            else rowsDesc (specAt P src) src.width (K / 2) (K / 2)
              (src.width - K / 2) y idx) →
        ∃ dst2, body x y dstx = some dst2 ∧
          (dst2.length = src.height * src.width * C ∧
            ∀ idx, idx < src.height * src.width * C → dst2.getD idx 0 =
              if y * src.width * C + K / 2 * C ≤ idx ∧
                  idx < y * src.width * C + (x + 1) * C
              then specAt P src idx
              else rowsDesc (specAt P src) src.width (K / 2) (K / 2)
                (src.width - K / 2) y idx) := by
      intro x dstx hx1 hx2 hdx
      obtain ⟨hdxlen, hdxdesc⟩ := hdx
      have hxw : x + K / 2 < src.width := by omega
      refine ⟨writePix P src x y dstx, hbody x y dstx hx1 hxw hy1 hyh, ?_, ?_⟩
      · rw [writePix_length]
        exact hdxlen
      · have hblock : ∀ idx, idx < src.height * src.width * C →
            (writePix P src x y dstx).getD idx 0 =
            if y * src.width * C + x * C ≤ idx ∧
                idx < y * src.width * C + x * C + C
            then specAt P src idx else dstx.getD idx 0 := by
          intro idx hidx
          rw [writePix_getD]
          by_cases hin : y * src.width * C + x * C ≤ idx ∧
              idx < y * src.width * C + x * C + C
          · rw [if_pos ⟨hin.1, hin.2, by omega⟩, if_pos hin,
              specAt_block P src hx1 hxw hy1 hyh hin.1 hin.2]
          · rw [if_neg (by tauto), if_neg hin]
        have h01 : y * src.width * C + K / 2 * C ≤
            y * src.width * C + x * C := by
          have := Nat.mul_le_mul_right C hx1
          omega
        have hext := desc_extend h01 (by omega) hdxdesc hblock
        intro idx hidx
        rw [show y * src.width * C + (x + 1) * C =
          y * src.width * C + x * C + C from by ring]
        exact hext idx hidx
    have hx0 : dst.length = src.height * src.width * C ∧
        ∀ idx, idx < src.height * src.width * C → dst.getD idx 0 =
          if y * src.width * C + K / 2 * C ≤ idx ∧
              idx < y * src.width * C + K / 2 * C
          then specAt P src idx
          else rowsDesc (specAt P src) src.width (K / 2) (K / 2)
            (src.width - K / 2) y idx := by
      refine ⟨hdlen, fun idx hidx => ?_⟩
      rw [if_neg (by omega)]
      exact hdesc idx hidx
    obtain ⟨dst2, hfold, hlen2, hdesc2⟩ := foldRM_inv
      (M := fun x dstx => dstx.length = src.height * src.width * C ∧
        ∀ idx, idx < src.height * src.width * C → dstx.getD idx 0 =
          if y * src.width * C + K / 2 * C ≤ idx ∧
              idx < y * src.width * C + x * C
          then specAt P src idx
          else rowsDesc (specAt P src) src.width (K / 2) (K / 2)
            (src.width - K / 2) y idx)
      (fun x dstx => body x y dstx) (K / 2) (src.width - K / 2 - K / 2) dst
      hx0 hxstep
    refine ⟨dst2, hfold, hlen2, ?_⟩
    intro idx hidx
    have hw0 : 0 < src.width := by
      by_contra h0
      have hz : src.width = 0 := by omega
      rw [hz] at hidx
      simp at hidx
    rw [hdesc2 idx hidx]
    exact rowsDesc_row_step (specAt P src) hw0 (K / 2) y hy1 idx
  have hinit : (List.replicate (src.height * src.width * C) (0 : ℕ)).length =
      src.height * src.width * C ∧
      ∀ idx, idx < src.height * src.width * C →
        (List.replicate (src.height * src.width * C) (0 : ℕ)).getD idx 0 =
          rowsDesc (specAt P src) src.width (K / 2) (K / 2)
            (src.width - K / 2) (K / 2) idx := by
    refine ⟨List.length_replicate _ _, fun idx hidx => ?_⟩
    rw [getD_replicate_zero]
    unfold rowsDesc
    rw [if_neg (by omega)]
  obtain ⟨dstF, hfoldF, hlenF, hdescF⟩ := foldRM_inv
    (M := fun y dst => dst.length = src.height * src.width * C ∧
      ∀ idx, idx < src.height * src.width * C → dst.getD idx 0 =
        rowsDesc (specAt P src) src.width (K / 2) (K / 2)
          (src.width - K / 2) y idx)
    (fun y dst => foldRM (fun x dst => body x y dst) (K / 2)
      (src.width - K / 2 - K / 2) dst)
    (K / 2) (src.height - K / 2 - K / 2)
    (List.replicate (src.height * src.width * C) 0) hinit hstep
  rw [hfoldF]
  show some (RgbImage.from_raw dstF src.height src.width) =
    some (specImage P src)
  congr 1
  unfold RgbImage.from_raw specImage
  congr 1
  apply list_eq_range_map _ _ _ hlenF
  intro idx hidx
  rw [hdescF idx hidx]
  unfold rowsDesc
  by_cases hcond : K / 2 ≤ idx / (src.width * C) ∧
      idx / (src.width * C) < K / 2 + (src.height - K / 2 - K / 2) ∧
      K / 2 ≤ idx % (src.width * C) / C ∧
      idx % (src.width * C) / C < src.width - K / 2
  · rw [if_pos hcond]
  · rw [if_neg hcond]
    simp only [specAt]
    rw [if_neg (by omega)]

theorem naive1_spec {K : ℕ} (P : ConvKernel K) (src : RgbImage)
    (hw : K / 2 ≤ src.width) (hh : K / 2 ≤ src.height)
    (hlen : src.content.length = src.height * src.width * C) :
    naive1 P src = some (specImage P src) :=
  scalar_driver_spec P src (fun x y dst => naive1Body P src x y dst)
    (fun x y dst hx1 hx2 hy1 hy2 =>
      naive1Body_eq P src x y hx1 hx2 hy1 hy2 hlen dst) hw hh hlen

theorem naive2_spec {K : ℕ} (P : ConvKernel K) (src : RgbImage)
    (hw : K / 2 ≤ src.width) (hh : K / 2 ≤ src.height)
    (hlen : src.content.length = src.height * src.width * C) :
    naive2 P src = some (specImage P src) :=
  scalar_driver_spec P src (fun x y dst => peelLoop P src x y dst)
    (fun x y dst hx1 hx2 hy1 hy2 =>
      peelLoop_eq P src x y hx1 hx2 hy1 hy2 hlen dst) hw hh hlen

/- Lane-level facts about the vector model. -/

theorem laneN_vfma (a b k : V4) (z : ℕ) (hz : z < 4) :
    laneN (vfma a b k) z = laneN a z + laneN b z * laneN k z := by
  unfold laneN vfma
  rw [dif_pos hz, dif_pos hz, dif_pos hz, dif_pos hz]

theorem laneN_vdupN (q : ℚ) (z : ℕ) (hz : z < 4) : laneN (vdupN q) z = q := by
  unfold laneN vdupN
  rw [dif_pos hz]

theorem chanGet_fmaT (a b : V4x3) (k : V4) (c : ℕ) :
    chanGet (fmaT a b k) c = vfma (chanGet a c) (chanGet b c) k := by
  rcases c with _ | _ | c <;> rfl

theorem laneN_fmaT (a b : V4x3) (k : ℚ) (c z : ℕ) (hz : z < 4) :
    laneN (chanGet (fmaT a b (vdupN k)) c) z =
      laneN (chanGet a c) z + laneN (chanGet b c) z * k := by
  rw [chanGet_fmaT, laneN_vfma _ _ _ _ hz, laneN_vdupN _ _ hz]

theorem laneN_v4x3zero (c z : ℕ) : laneN (chanGet v4x3zero c) z = 0 := by
  rcases c with _ | _ | c <;>
    · unfold laneN v4x3zero v4zero
      split <;> rfl

theorem read_idx_lt4 {K : ℕ} {src : RgbImage} {x y c : ℕ} (i j z : ℕ)
    (hx1 : K / 2 ≤ x) (hx2 : x + z + K / 2 < src.width)
    (hy1 : K / 2 ≤ y) (hy2 : y + K / 2 < src.height)
    (hi : i < K) (hj : j < K) (hc : c < C)
    (hlen : src.content.length = src.height * src.width * C) :
    (y - K / 2 + i) * src.width * C + (x - K / 2 + j) * C + z * C + c <
      src.content.length := by
  have e : (x - K / 2 + j) * C + z * C = (x - K / 2 + j + z) * C := by
    rw [← Nat.add_mul]
  have e2 : (y - K / 2 + i) * src.width * C + (x - K / 2 + j) * C + z * C + c
      = (y - K / 2 + i) * src.width * C + (x - K / 2 + j + z) * C + c := by
    omega
  rw [e2, hlen]
  exact idx_lt_total (by omega) (by omega) hc

theorem prepare4_eq (src : RgbImage) (base c : ℕ)
    (h : base + 3 * C + c < src.content.length) :
    prepare4 src base c = some (mkV4
      (srcQ src (base + 0 * C + c)) (srcQ src (base + 1 * C + c))
      (srcQ src (base + 2 * C + c)) (srcQ src (base + 3 * C + c))) := by
  unfold prepare4
  rw [readB_eq_srcQ src _ (by omega), readB_eq_srcQ src _ (by omega),
    readB_eq_srcQ src _ (by omega), readB_eq_srcQ src _ (by omega)]
  rfl

theorem laneN_mkV4 (a b c d : ℚ) :
    laneN (mkV4 a b c d) 0 = a ∧ laneN (mkV4 a b c d) 1 = b ∧
    laneN (mkV4 a b c d) 2 = c ∧ laneN (mkV4 a b c d) 3 = d :=
  ⟨rfl, rfl, rfl, rfl⟩

/- One kernel row of `simd1` adds, to every lane `(c, z)`, the row-`i` tap
sum of output column `x + z`. -/
theorem simd1Row_eq {K : ℕ} (P : ConvKernel K) (src : RgbImage)
    (x y i : ℕ) (vt : V4x3)
    (hx1 : K / 2 ≤ x) (hx3 : x + 3 + K / 2 < src.width)
    (hy1 : K / 2 ≤ y) (hy2 : y + K / 2 < src.height) (hi : i < K)
    (hlen : src.content.length = src.height * src.width * C) :
    ∃ vt2, simd1Row P src x y i vt = some vt2 ∧
      ∀ c z, c < 3 → z < 4 → laneN (chanGet vt2 c) z =
        laneN (chanGet vt c) z + accRowUpTo P src (x + z) y c i K := by
  have hpure : simd1Row P src x y i vt = some (foldR (fun j vt =>
      fmaT vt
        ⟨mkV4 (srcQ src ((y - K / 2 + i) * src.width * C + (x - K / 2 + j) * C + 0 * C + 0))
            (srcQ src ((y - K / 2 + i) * src.width * C + (x - K / 2 + j) * C + 1 * C + 0))
            (srcQ src ((y - K / 2 + i) * src.width * C + (x - K / 2 + j) * C + 2 * C + 0))
            (srcQ src ((y - K / 2 + i) * src.width * C + (x - K / 2 + j) * C + 3 * C + 0)),
         mkV4 (srcQ src ((y - K / 2 + i) * src.width * C + (x - K / 2 + j) * C + 0 * C + 1))
            (srcQ src ((y - K / 2 + i) * src.width * C + (x - K / 2 + j) * C + 1 * C + 1))
            (srcQ src ((y - K / 2 + i) * src.width * C + (x - K / 2 + j) * C + 2 * C + 1))
            (srcQ src ((y - K / 2 + i) * src.width * C + (x - K / 2 + j) * C + 3 * C + 1)),
         mkV4 (srcQ src ((y - K / 2 + i) * src.width * C + (x - K / 2 + j) * C + 0 * C + 2))
            (srcQ src ((y - K / 2 + i) * src.width * C + (x - K / 2 + j) * C + 1 * C + 2))
            (srcQ src ((y - K / 2 + i) * src.width * C + (x - K / 2 + j) * C + 2 * C + 2))
            (srcQ src ((y - K / 2 + i) * src.width * C + (x - K / 2 + j) * C + 3 * C + 2))⟩
        (vdupN (P.kAt i j))) 0 K vt) := by
    unfold simd1Row
    apply foldRM_eq_pure
    intro j vt2 hj1 hj2
    have hb : ∀ cc : ℕ, cc < C →
        (y - K / 2 + i) * src.width * C + (x - K / 2 + j) * C + 3 * C + cc <
          src.content.length :=
      fun cc hcc => read_idx_lt4 i j 3 hx1 (by omega) hy1 hy2 hi (by omega)
        hcc hlen
    dsimp only
    rw [prepare4_eq src _ 0 (hb 0 (by decide)),
      prepare4_eq src _ 1 (hb 1 (by decide)),
      prepare4_eq src _ 2 (hb 2 (by decide))]
    rfl
  refine ⟨_, hpure, ?_⟩
  intro c z hc hz
  rw [foldR_hom (fun vt2 => laneN (chanGet vt2 c) z) _
      (fun j t => t + srcQ src ((y - K / 2 + i) * src.width * C +
        (x + z - K / 2 + j) * C + c) * P.kAt i j) 0 K vt ?hprem,
    foldR_acc_shift]
  · rfl
  case hprem =>
    intro j vt2 hj1 hj2
    dsimp only
    rw [laneN_fmaT _ _ _ _ _ hz]
    have e2 : (x - K / 2 + j) * C + z * C = (x + z - K / 2 + j) * C := by
      rw [← Nat.add_mul]
      congr 1
      omega
    congr 2
    interval_cases c <;> interval_cases z <;>
      · simp only [chanGet, laneN, mkV4]
        norm_num
        all_goals first | (congr 1; omega) | omega

theorem getD_oob (l : List ℕ) (idx : ℕ) (h : l.length ≤ idx) :
    l.getD idx 0 = 0 := by
  rw [List.getD_eq_getElem?_getD, List.getElem?_eq_none (by omega)]
  rfl

theorem foldR_set_length (is : ℕ → ℕ) (g : ℕ → ℕ) (n : ℕ) (dst : List ℕ) :
    (foldR (fun k dst => dst.set (is k) (g k)) 0 n dst).length = dst.length := by
  induction n with
  | zero => rfl
  | succ n ih =>
    rw [foldR_succ_right]
    simp [List.length_set, ih]

theorem foldR_set_getD_miss (is : ℕ → ℕ) (g : ℕ → ℕ) (n : ℕ) (dst : List ℕ)
    (idx : ℕ) (h : ∀ k, k < n → is k ≠ idx) :
    (foldR (fun k dst => dst.set (is k) (g k)) 0 n dst).getD idx 0 =
      dst.getD idx 0 := by
  induction n with
  | zero => rfl
  | succ n ih =>
    rw [foldR_succ_right, getD_set_eq]
    simp only [Nat.zero_add]
    rw [if_neg (by
      intro hcon
      exact h n (by omega) hcon.1)]
    exact ih (fun k hk => h k (by omega))

theorem foldR_set_getD_hit (is : ℕ → ℕ) (g : ℕ → ℕ) (n : ℕ) (dst : List ℕ)
    (idx k : ℕ) (hk : k < n) (hik : is k = idx)
    (hlater : ∀ k2, k2 < n → k < k2 → is k2 ≠ idx) :
    (foldR (fun k dst => dst.set (is k) (g k)) 0 n dst).getD idx 0 =
      if idx < dst.length then g k else dst.getD idx 0 := by
  induction n with
  | zero => omega
  | succ n ih =>
    rw [foldR_succ_right, getD_set_eq]
    simp only [Nat.zero_add, foldR_set_length]
    by_cases hkn : k = n
    · subst hkn
      by_cases hl : idx < dst.length
      · rw [if_pos ⟨hik, hl⟩, if_pos hl]
      · rw [if_neg (by tauto), if_neg hl,
          getD_oob _ idx (by rw [foldR_set_length]; omega),
          getD_oob dst idx (by omega)]
    · have hkn2 : k < n := by omega
      rw [if_neg (by
        intro hcon
        exact hlater n (by omega) (by omega) hcon.1)]
      exact ih hkn2 (fun k2 hk2 hkk2 => hlater k2 (by omega) hkk2)

/- `store4` written as a single flat sequence of its 12 writes (`k = c*4+z`
writes destination offset `z*C + c`). -/
theorem store4_flat (dv : Option ℚ) (vt : V4x3) (base : ℕ) (dst : List ℕ) :
    store4 dv vt base dst = foldR (fun k dst =>
      dst.set (base + k % 4 * C + k / 4)
        (f32u8 (applyDiv dv (laneN (chanGet vt (k / 4)) (k % 4))))) 0 12 dst :=
  rfl

theorem store4_length (dv : Option ℚ) (vt : V4x3) (base : ℕ) (dst : List ℕ) :
    (store4 dv vt base dst).length = dst.length := by
  rw [store4_flat]
  exact foldR_set_length _ _ _ _

theorem store4_getD (dv : Option ℚ) (vt : V4x3) (base : ℕ) (dst : List ℕ)
    (idx : ℕ) :
    (store4 dv vt base dst).getD idx 0 =
      if base ≤ idx ∧ idx < base + 4 * C ∧ idx < dst.length then
        f32u8 (applyDiv dv
          (laneN (chanGet vt ((idx - base) % C)) ((idx - base) / C)))
      else dst.getD idx 0 := by
  have hCC : (C : ℕ) = 3 := rfl
  rw [store4_flat]
  simp only [hCC]
  by_cases hin : base ≤ idx ∧ idx < base + 4 * 3
  · obtain ⟨h1, h2⟩ := hin
    have hisk : base + ((idx - base) % 3 * 4 + (idx - base) / 3) % 4 * 3 +
        ((idx - base) % 3 * 4 + (idx - base) / 3) / 4 = idx := by omega
    rw [foldR_set_getD_hit _ _ 12 dst idx
      ((idx - base) % 3 * 4 + (idx - base) / 3) (by omega) hisk
      (fun k2 hk2 hkk2 => by omega)]
    by_cases hl : idx < dst.length
    · rw [if_pos hl, if_pos ⟨h1, by omega, hl⟩,
        show ((idx - base) % 3 * 4 + (idx - base) / 3) / 4 = (idx - base) % 3
          from by omega,
        show ((idx - base) % 3 * 4 + (idx - base) / 3) % 4 = (idx - base) / 3
          from by omega]
    · rw [if_neg hl, if_neg (by omega)]
  · rw [foldR_set_getD_miss _ _ 12 dst idx (fun k hk => by omega),
      if_neg (by omega)]

/- The shared-contract byte at a flat index inside a 4-column block,
phrased through the block's base. -/
theorem specAt_block4 {K : ℕ} (P : ConvKernel K) (src : RgbImage)
    {x y idx : ℕ} (hx1 : K / 2 ≤ x) (hx3 : x + 3 + K / 2 < src.width)
    (hy1 : K / 2 ≤ y) (hy2 : y + K / 2 < src.height)
    (hb1 : y * src.width * C + x * C ≤ idx)
    (hb2 : idx < y * src.width * C + x * C + 4 * C) :
    specAt P src idx = f32u8 (applyDiv P.div (accUpTo P src
      (x + (idx - (y * src.width * C + x * C)) / C) y
      ((idx - (y * src.width * C + x * C)) % C) K)) := by
  obtain ⟨q, hq_def⟩ : ∃ q, (idx - (y * src.width * C + x * C)) / C = q := ⟨_, rfl⟩
  obtain ⟨r, hr_def⟩ : ∃ r, (idx - (y * src.width * C + x * C)) % C = r := ⟨_, rfl⟩
  rw [hq_def, hr_def]
  have h1 := Nat.div_add_mod (idx - (y * src.width * C + x * C)) C
  rw [hq_def, hr_def] at h1
  have hr3 : r < C := hr_def ▸ Nat.mod_lt _ (by decide)
  have hC3 : (C : ℕ) = 3 := rfl
  rw [hC3] at h1 hr3
  have hb13 : y * src.width * 3 + x * 3 ≤ idx := by rw [hC3] at hb1; exact hb1
  have hb23 : idx < y * src.width * 3 + x * 3 + 4 * 3 := by
    rw [hC3] at hb2; exact hb2
  have hq4 : q < 4 := by omega
  rw [specAt_block P src (x := x + q)
    (hx1.trans (Nat.le_add_right x q)) (by omega) hy1 hy2
    (by simp only [hC3]; omega) (by simp only [hC3]; omega)]
  have ecc : idx - (y * src.width * C + (x + q) * C) = r := by
    simp only [hC3]; omega
  rw [ecc]
  unfold specPix
  rw [accPix_eq_upTo]

/- One 4-column group of `simd1` writes the 12 bytes of output columns
`x..x+3` with the shared-contract values (the intermediate per-kernel-row
stores are overwritten by the final one). -/
theorem simdLoop1_eq {K : ℕ} (P : ConvKernel K) (src : RgbImage) (x y : ℕ)
    (dst : List ℕ) (hK : 1 ≤ K)
    (hx1 : K / 2 ≤ x) (hx3 : x + 3 + K / 2 < src.width)
    (hy1 : K / 2 ≤ y) (hy2 : y + K / 2 < src.height)
    (hlen : src.content.length = src.height * src.width * C) :
    ∃ dst2, simdLoop1 P src x y dst = some dst2 ∧ dst2.length = dst.length ∧
      ∀ idx, dst2.getD idx 0 =
        if y * src.width * C + x * C ≤ idx ∧
            idx < y * src.width * C + (x + 4) * C ∧ idx < dst.length then
          specAt P src idx
        else dst.getD idx 0 := by
  have hCC : (C : ℕ) = 3 := rfl
  obtain ⟨sF, hfold, hlaneF, hlenF, hdescF⟩ := foldRM_inv
    (M := fun i (s : V4x3 × List ℕ) =>
      (∀ c z, c < 3 → z < 4 →
        laneN (chanGet s.1 c) z = accUpTo P src (x + z) y c i) ∧
      s.2.length = dst.length ∧
      ∀ idx, s.2.getD idx 0 =
        if 1 ≤ i ∧ y * src.width * C + x * C ≤ idx ∧
            idx < y * src.width * C + x * C + 4 * C ∧ idx < dst.length then
          f32u8 (applyDiv P.div (accUpTo P src
            (x + (idx - (y * src.width * C + x * C)) / C) y
            ((idx - (y * src.width * C + x * C)) % C) i))
        else dst.getD idx 0)
    (fun i (s : V4x3 × List ℕ) => do
      let vt ← simd1Row P src x y i s.1
      pure (vt, store4 P.div vt (y * src.width * C + x * C) s.2))
    0 K (v4x3zero, dst)
    ⟨fun c z hc hz => by rw [laneN_v4x3zero]; rfl,
     rfl,
     fun idx => by rw [if_neg (by omega)]⟩
    (fun i s hi1 hi2 hM => by
      obtain ⟨hlane, hslen, hsdesc⟩ := hM
      obtain ⟨vt2, hrow, hlane2⟩ := simd1Row_eq P src x y i s.1 hx1 hx3 hy1
        hy2 (by omega) hlen
      refine ⟨(vt2, store4 P.div vt2 (y * src.width * C + x * C) s.2),
        ?_, ?_, ?_, ?_⟩
      · show (simd1Row P src x y i s.1).bind _ = _
        rw [hrow]
        rfl
      · intro c z hc hz
        rw [hlane2 c z hc hz, hlane c z hc hz, ← accUpTo_succ]
      · rw [store4_length]
        exact hslen
      · intro idx
        rw [store4_getD]
        by_cases hin : y * src.width * C + x * C ≤ idx ∧
            idx < y * src.width * C + x * C + 4 * C ∧ idx < s.2.length
        · have hz4 : (idx - (y * src.width * C + x * C)) / C < 4 := by
            rw [Nat.div_lt_iff_lt_mul (by decide : 0 < (C : ℕ))]
            omega
          have hc3 : (idx - (y * src.width * C + x * C)) % C < 3 := by
            have := Nat.mod_lt (idx - (y * src.width * C + x * C))
              (show 0 < (C : ℕ) by decide)
            omega
          rw [if_pos hin, if_pos ⟨by omega, hin.1, hin.2.1, by omega⟩,
            hlane2 _ _ hc3 hz4, hlane _ _ hc3 hz4, ← accUpTo_succ]
        · rw [if_neg hin, hsdesc idx]
          by_cases h1i : 1 ≤ i
          · rw [if_neg (by omega), if_neg (by omega)]
          · rw [if_neg (by omega), if_neg (by omega)])
  refine ⟨sF.2, ?_, hlenF, ?_⟩
  · unfold simdLoop1
    rw [hfold]
    rfl
  · intro idx
    rw [hdescF idx]
    have hax : y * src.width * C + (x + 4) * C =
        y * src.width * C + x * C + 4 * C := by ring
    by_cases hin : y * src.width * C + x * C ≤ idx ∧
        idx < y * src.width * C + (x + 4) * C ∧ idx < dst.length
    · rw [if_pos ⟨by omega, hin.1, by omega, hin.2.2⟩, if_pos hin,
        specAt_block4 P src hx1 hx3 hy1 hy2 hin.1 (by omega), Nat.zero_add]
    · rw [if_neg (by omega), if_neg hin]

/- The sweep shared by the three simd strategies: per output row, `nb`
aligned blocks of `B` output columns starting at `half`, then a scalar peel
up to `w - half`.  `A` is the per-byte value both bodies write. -/
theorem vec_driver_spec (A : ℕ → ℕ) (w h half B nb : ℕ)
    (blockBody peelBody : ℕ → ℕ → List ℕ → Option (List ℕ))
    (hw : 2 * half ≤ w) (hh : half ≤ h)
    (hnb : B * nb = w - 2 * half - (w - 2 * half) % B)
    (hblock : ∀ k y dst, k < nb → half ≤ y → y + half < h →
      half + B * k + B + half ≤ w → dst.length = h * w * C →
      ∃ dst2, blockBody (half + B * k) y dst = some dst2 ∧
        dst2.length = dst.length ∧
        ∀ idx, dst2.getD idx 0 =
          if y * w * C + (half + B * k) * C ≤ idx ∧
              idx < y * w * C + (half + B * k + B) * C ∧
              idx < dst.length then A idx
          else dst.getD idx 0)
    (hpeel : ∀ x y dst, half ≤ y → y + half < h →
      w - half - (w - 2 * half) % B ≤ x → x + half < w →
      dst.length = h * w * C →
      ∃ dst2, peelBody x y dst = some dst2 ∧ dst2.length = dst.length ∧
        ∀ idx, dst2.getD idx 0 =
          if y * w * C + x * C ≤ idx ∧ idx < y * w * C + x * C + C ∧
              idx < dst.length then A idx
          else dst.getD idx 0)
    (hA0 : ∀ idx, idx < h * w * C →
      ¬ (half ≤ idx / (w * C) ∧ idx / (w * C) < h - half ∧
        half ≤ idx % (w * C) / C ∧ idx % (w * C) / C < w - half) →
      A idx = 0) :
    foldRM (fun y dst => do
      let dst ← foldSM (fun x dst => blockBody x y dst) B half nb dst
      foldRM (fun x dst => peelBody x y dst)
        (w - half - (w - 2 * half) % B)
        (w - half - (w - half - (w - 2 * half) % B)) dst)
      half (h - half - half) (List.replicate (h * w * C) 0)
    = some ((List.range (h * w * C)).map A) := by
  have hmle2 : (w - 2 * half) % B ≤ w - 2 * half := Nat.mod_le _ _
  have hstep : ∀ y dst, half ≤ y → y < half + (h - half - half) →
      (dst.length = h * w * C ∧
        ∀ idx, idx < h * w * C → dst.getD idx 0 =
          rowsDesc A w half half (w - half) y idx) →
      ∃ dst2, (do
          let dstb ← foldSM (fun x dst => blockBody x y dst) B half nb dst
          foldRM (fun x dst => peelBody x y dst)
            (w - half - (w - 2 * half) % B)
            (w - half - (w - half - (w - 2 * half) % B)) dstb) = some dst2 ∧
        (dst2.length = h * w * C ∧
          ∀ idx, idx < h * w * C → dst2.getD idx 0 =
            rowsDesc A w half half (w - half) (y + 1) idx) := by
    intro y dst hy1 hy2 hdst
    obtain ⟨hdlen, hdesc⟩ := hdst
    have hyh : y + half < h := by omega
    have hblkstep : ∀ k dstx, k < nb →
        (dstx.length = h * w * C ∧
          ∀ idx, idx < h * w * C → dstx.getD idx 0 =
            if y * w * C + half * C ≤ idx ∧
                idx < y * w * C + (half + B * k) * C then A idx
            else rowsDesc A w half half (w - half) y idx) →
        ∃ dst2, blockBody (half + k * B) y dstx = some dst2 ∧
          (dst2.length = h * w * C ∧
            ∀ idx, idx < h * w * C → dst2.getD idx 0 =
              if y * w * C + half * C ≤ idx ∧
                  idx < y * w * C + (half + B * (k + 1)) * C then A idx
              else rowsDesc A w half half (w - half) y idx) := by
      intro k dstx hk hdx
      obtain ⟨hdxlen, hdxdesc⟩ := hdx
      have hms : B * (k + 1) = B * k + B := Nat.mul_succ B k
      have hmle : B * (k + 1) ≤ B * nb := Nat.mul_le_mul_left B (by omega)
      have hxw : half + B * k + B + half ≤ w := by omega
      obtain ⟨dst2, hbody, hblen, hbdesc⟩ :=
        hblock k y dstx hk hy1 hyh hxw hdxlen
      have ekB : half + k * B = half + B * k := by rw [Nat.mul_comm]
      refine ⟨dst2, by rw [ekB]; exact hbody,
        by rw [hblen]; exact hdxlen, ?_⟩
      have hblock2 : ∀ idx, idx < h * w * C → dst2.getD idx 0 =
          if y * w * C + (half + B * k) * C ≤ idx ∧
              idx < y * w * C + (half + B * k + B) * C then A idx
          else dstx.getD idx 0 := by
        intro idx hidx
        rw [hbdesc idx, hdxlen]
        by_cases hc : y * w * C + (half + B * k) * C ≤ idx ∧
            idx < y * w * C + (half + B * k + B) * C
        · rw [if_pos ⟨hc.1, hc.2, hidx⟩, if_pos hc]
        · rw [if_neg (by tauto), if_neg hc]
      have h01 : y * w * C + half * C ≤
          y * w * C + (half + B * k) * C := by
        have := Nat.mul_le_mul_right C (Nat.le_add_right half (B * k))
        omega
      have h12 : y * w * C + (half + B * k) * C ≤
          y * w * C + (half + B * k + B) * C := by
        have := Nat.mul_le_mul_right C (Nat.le_add_right (half + B * k) B)
        omega
      have hext := desc_extend h01 h12 hdxdesc hblock2
      intro idx hidx
      rw [show half + B * (k + 1) = half + B * k + B from by omega]
      exact hext idx hidx
    have hblk0 : dst.length = h * w * C ∧
        ∀ idx, idx < h * w * C → dst.getD idx 0 =
          if y * w * C + half * C ≤ idx ∧
              idx < y * w * C + (half + B * 0) * C then A idx
          else rowsDesc A w half half (w - half) y idx := by
      refine ⟨hdlen, fun idx hidx => ?_⟩
      rw [if_neg ?_]
      · exact hdesc idx hidx
      · rintro ⟨hc1, hc2⟩
        rw [Nat.mul_zero, Nat.add_zero] at hc2
        omega
    obtain ⟨dstb, hfoldb, hblen, hbdesc⟩ := foldSM_inv
      (M := fun k dstx => dstx.length = h * w * C ∧
        ∀ idx, idx < h * w * C → dstx.getD idx 0 =
          if y * w * C + half * C ≤ idx ∧
              idx < y * w * C + (half + B * k) * C then A idx
          else rowsDesc A w half half (w - half) y idx)
      (fun x dst => blockBody x y dst) B half nb dst hblk0
      (fun k s2 hk hM => hblkstep k s2 hk hM)
    have hse : half + B * nb = w - half - (w - 2 * half) % B := by omega
    rw [hse] at hbdesc
    have hpstep : ∀ x dstx, w - half - (w - 2 * half) % B ≤ x →
        x < (w - half - (w - 2 * half) % B) +
          (w - half - (w - half - (w - 2 * half) % B)) →
        (dstx.length = h * w * C ∧
          ∀ idx, idx < h * w * C → dstx.getD idx 0 =
            if y * w * C + half * C ≤ idx ∧ idx < y * w * C + x * C
            then A idx
            else rowsDesc A w half half (w - half) y idx) →
        ∃ dst2, peelBody x y dstx = some dst2 ∧
          (dst2.length = h * w * C ∧
            ∀ idx, idx < h * w * C → dst2.getD idx 0 =
              if y * w * C + half * C ≤ idx ∧
                  idx < y * w * C + (x + 1) * C then A idx
              else rowsDesc A w half half (w - half) y idx) := by
      intro x dstx hx1 hx2 hdx
      obtain ⟨hdxlen, hdxdesc⟩ := hdx
      have hxh : half ≤ x := by omega
      have hxw : x + half < w := by omega
      obtain ⟨dst2, hbody, hblen2, hbdesc2⟩ :=
        hpeel x y dstx hy1 hyh hx1 hxw hdxlen
      refine ⟨dst2, hbody, by rw [hblen2]; exact hdxlen, ?_⟩
      have hblock2 : ∀ idx, idx < h * w * C → dst2.getD idx 0 =
          if y * w * C + x * C ≤ idx ∧ idx < y * w * C + x * C + C
          then A idx
          else dstx.getD idx 0 := by
        intro idx hidx
        rw [hbdesc2 idx, hdxlen]
        by_cases hc : y * w * C + x * C ≤ idx ∧
            idx < y * w * C + x * C + C
        · rw [if_pos ⟨hc.1, hc.2, hidx⟩, if_pos hc]
        · rw [if_neg (by tauto), if_neg hc]
      have h01 : y * w * C + half * C ≤ y * w * C + x * C := by
        have := Nat.mul_le_mul_right C hxh
        omega
      have hext := desc_extend h01 (by omega) hdxdesc hblock2
      intro idx hidx
      rw [show y * w * C + (x + 1) * C = y * w * C + x * C + C from by ring]
      exact hext idx hidx
    obtain ⟨dstp, hfoldp, hplen, hpdesc⟩ := foldRM_inv
      (M := fun x dstx => dstx.length = h * w * C ∧
        ∀ idx, idx < h * w * C → dstx.getD idx 0 =
          if y * w * C + half * C ≤ idx ∧ idx < y * w * C + x * C
          then A idx
          else rowsDesc A w half half (w - half) y idx)
      (fun x dst => peelBody x y dst)
      (w - half - (w - 2 * half) % B)
      (w - half - (w - half - (w - 2 * half) % B)) dstb
      ⟨hblen, hbdesc⟩ hpstep
    refine ⟨dstp, ?_, hplen, ?_⟩
    · show (foldSM (fun x dst => blockBody x y dst) B half nb dst).bind _ = _
      rw [hfoldb]
      exact hfoldp
    · intro idx hidx
      have hw0 : 0 < w := by
        by_contra h0
        have hz : w = 0 := by omega
        rw [hz] at hidx
        simp at hidx
      have hfin : (w - half - (w - 2 * half) % B) +
          (w - half - (w - half - (w - 2 * half) % B)) = w - half := by
        omega
      have e2 : half + (w - half - half) = w - half := by omega
      have hrs := rowsDesc_row_step A hw0 half y hy1 idx
      rw [e2] at hrs
      rw [hpdesc idx hidx, hfin]
      exact hrs
  have hinit : (List.replicate (h * w * C) (0 : ℕ)).length = h * w * C ∧
      ∀ idx, idx < h * w * C →
        (List.replicate (h * w * C) (0 : ℕ)).getD idx 0 =
          rowsDesc A w half half (w - half) half idx := by
    refine ⟨List.length_replicate _ _, fun idx hidx => ?_⟩
    rw [getD_replicate_zero]
    unfold rowsDesc
    rw [if_neg (by omega)]
  obtain ⟨dstF, hfoldF, hlenF, hdescF⟩ := foldRM_inv
    (M := fun y dst => dst.length = h * w * C ∧
      ∀ idx, idx < h * w * C → dst.getD idx 0 =
        rowsDesc A w half half (w - half) y idx)
    (fun y dst => do
      let dstb ← foldSM (fun x dst => blockBody x y dst) B half nb dst
      foldRM (fun x dst => peelBody x y dst)
        (w - half - (w - 2 * half) % B)
        (w - half - (w - half - (w - 2 * half) % B)) dstb)
    half (h - half - half) (List.replicate (h * w * C) 0) hinit hstep
  rw [hfoldF]
  congr 1
  apply list_eq_range_map _ _ _ hlenF
  intro idx hidx
  rw [hdescF idx hidx]
  unfold rowsDesc
  by_cases hcond : half ≤ idx / (w * C) ∧
      idx / (w * C) < half + (h - half - half) ∧
      half ≤ idx % (w * C) / C ∧ idx % (w * C) / C < w - half
  · rw [if_pos hcond]
  · rw [if_neg hcond]
    refine (hA0 idx hidx ?_).symm
    intro hreg
    obtain ⟨hr1, hr2, hr3, hr4⟩ := hreg
    exact hcond ⟨hr1, by omega, hr3, hr4⟩

/- `simd1` computes the shared-contract image: the aligned 4-wide groups via
`simdLoop1_eq` and the peel columns via `peelLoop_eq`, glued by the generic
vector-sweep driver. -/
theorem simd1_spec {K : ℕ} (P : ConvKernel K) (src : RgbImage) (hK : 1 ≤ K)
    (hw : 2 * (K / 2) ≤ src.width) (hh : K / 2 ≤ src.height)
    (hlen : src.content.length = src.height * src.width * C) :
    simd1 P src = some (specImage P src) := by
  have hwh : K / 2 ≤ src.width := by omega
  have hmle : (src.width - 2 * (K / 2)) % 4 ≤ src.width - 2 * (K / 2) :=
    Nat.mod_le _ _
  unfold simd1
  rw [show csub src.width (K / 2) = some (src.width - K / 2) from by
        unfold csub; rw [if_pos hwh],
      show csub src.height (K / 2) = some (src.height - K / 2) from by
        unfold csub; rw [if_pos hh],
      show csub src.width (2 * (K / 2)) =
          some (src.width - 2 * (K / 2)) from by
        unfold csub; rw [if_pos hw]]
  show (csub (src.width - K / 2) ((src.width - 2 * (K / 2)) % 4)).bind
      (fun simdEnd =>
        (foldRM (fun y dst => do
            let dst ← foldSM (fun x dst => simdLoop1 P src x y dst) 4
              (K / 2) ((simdEnd - K / 2 + 3) / 4) dst
            foldRM (fun x dst => peelLoop P src x y dst)
              simdEnd ((src.width - K / 2) - simdEnd) dst)
          (K / 2) ((src.height - K / 2) - K / 2)
          (List.replicate (src.height * src.width * C) 0)).bind
          (fun dst => some (RgbImage.from_raw dst src.height src.width)))
    = some (specImage P src)
  rw [show csub (src.width - K / 2) ((src.width - 2 * (K / 2)) % 4) =
      some (src.width - K / 2 - (src.width - 2 * (K / 2)) % 4) from by
    unfold csub; rw [if_pos (by omega)]]
  show (foldRM (fun y dst => do
      let dst ← foldSM (fun x dst => simdLoop1 P src x y dst) 4
        (K / 2) ((src.width - K / 2 - (src.width - 2 * (K / 2)) % 4 -
          K / 2 + 3) / 4) dst
      foldRM (fun x dst => peelLoop P src x y dst)
        (src.width - K / 2 - (src.width - 2 * (K / 2)) % 4)
        ((src.width - K / 2) -
          (src.width - K / 2 - (src.width - 2 * (K / 2)) % 4)) dst)
      (K / 2) ((src.height - K / 2) - K / 2)
      (List.replicate (src.height * src.width * C) 0)).bind
      (fun dst => some (RgbImage.from_raw dst src.height src.width))
    = some (specImage P src)
  rw [vec_driver_spec (specAt P src) src.width src.height (K / 2) 4
    ((src.width - K / 2 - (src.width - 2 * (K / 2)) % 4 - K / 2 + 3) / 4)
    (fun x y dst => simdLoop1 P src x y dst)
    (fun x y dst => peelLoop P src x y dst)
    hw hh (by omega)
    (fun k y dst hkn hy1 hy2 hxw hdlen => by
      obtain ⟨dst2, h1, h2, h3⟩ := simdLoop1_eq P src (K / 2 + 4 * k) y dst
        hK (by omega) (by omega) hy1 hy2 hlen
      exact ⟨dst2, h1, h2, h3⟩)
    (fun x y dst hy1 hy2 hxs hxw hdlen => by
      have hx1 : K / 2 ≤ x := by omega
      refine ⟨writePix P src x y dst,
        peelLoop_eq P src x y hx1 hxw hy1 hy2 hlen dst,
        writePix_length P src x y dst, fun idx => ?_⟩
      rw [writePix_getD]
      by_cases hc : y * src.width * C + x * C ≤ idx ∧
          idx < y * src.width * C + x * C + C ∧ idx < dst.length
      · rw [if_pos hc, if_pos hc,
          specAt_block P src hx1 hxw hy1 hy2 hc.1 hc.2.1]
      · rw [if_neg hc, if_neg hc])
    (fun idx hidx hreg => by
      simp only [specAt]
      rw [if_neg (by omega)])]
  rfl

theorem laneN_setLane (s4 : V4) (z : ℕ) (v : ℚ) (l : ℕ) (hl : l < 4) :
    laneN (setLane s4 z v) l = if l = z then v else laneN s4 l := by
  unfold laneN setLane
  rw [dif_pos hl]
  by_cases h : l = z
  · rw [if_pos h, if_pos h]
  · rw [if_neg h, if_neg h]
    rw [dif_pos hl]

/- `simd2`'s `load` fills lanes `0..ft` of the buffer and keeps the stale
upper lanes. -/
theorem loadS2_eq (src : RgbImage) (base k c ft : ℕ) (s4 : V4)
    (hb : ∀ z, z < ft → base + k * 4 * C + z * C + c < src.content.length) :
    ∃ s4f, loadS2 src base k c ft s4 = some s4f ∧
      ∀ l, l < 4 → laneN s4f l =
        if l < ft then srcQ src (base + k * 4 * C + l * C + c)
        else laneN s4 l := by
  unfold loadS2
  obtain ⟨s4f, hfold, hprop⟩ := foldRM_inv
    (M := fun z s4x => ∀ l, l < 4 → laneN s4x l =
      if l < z then srcQ src (base + k * 4 * C + l * C + c) else laneN s4 l)
    (fun z s4x => do
      let v ← readB src (base + k * 4 * C + z * C + c)
      pure (setLane s4x z v)) 0 ft s4
    (fun l hl => by rw [if_neg (by omega)])
    (fun z s4x hz1 hz2 hM => by
      refine ⟨setLane s4x z (srcQ src (base + k * 4 * C + z * C + c)), ?_, ?_⟩
      · show (readB src (base + k * 4 * C + z * C + c)).bind _ = _
        rw [readB_eq_srcQ src _ (hb z (by omega))]
        rfl
      · intro l hl
        rw [laneN_setLane _ _ _ _ hl]
        by_cases hlz : l = z
        · rw [if_pos hlz, if_pos (by omega), hlz]
        · rw [if_neg hlz, hM l hl]
          by_cases hlz2 : l < z
          · rw [if_pos hlz2, if_pos (by omega)]
          · rw [if_neg hlz2, if_neg (by omega)])
  refine ⟨s4f, hfold, fun l hl => ?_⟩
  have h2 := hprop l hl
  rwa [Nat.zero_add] at h2

/- Lane `l` of a `vext` window is bank lane `off % 4 + l`, read across the
two adjacent registers. -/
theorem extWindow_lane (shared : List V4x3) (regi off c l : ℕ) (hc : c < 3)
    (hl : l < 4) :
    laneN (chanGet (extWindow shared regi off) c) l =
      if off % 4 + l < 4 then
        laneN (chanGet (shared.getD regi v4x3zero) c) (off % 4 + l)
      else laneN (chanGet (shared.getD (regi + 1) v4x3zero) c) (off % 4 + l - 4) := by
  unfold extWindow
  by_cases hoff : off ≠ 0
  · rw [if_pos hoff]
    by_cases hol : off % 4 + l < 4
    · rw [if_pos hol]
      interval_cases c <;>
        · show laneN (vextN off _ _) l = _
          unfold laneN vextN
          rw [dif_pos hl, dif_pos hol, dif_pos hol]
    · rw [if_neg hol]
      have hol4 : off % 4 + l - 4 < 4 := by
        have := Nat.mod_lt off (show 0 < 4 by decide)
        omega
      interval_cases c <;>
        · show laneN (vextN off _ _) l = _
          unfold laneN vextN
          rw [dif_pos hl, dif_neg hol, dif_pos hol4]
  · rw [if_neg hoff]
    have h0 : off = 0 := by omega
    subst h0
    rw [if_pos (by omega)]
    norm_num

/- One `make` call of `simd2`: register `k` of the bank now carries source
pixels `4*k .. 4*k + ft - 1`, the other registers are untouched. -/
theorem makeS2_eq (src : RgbImage) (base k ft : ℕ) (st : V4 × List V4x3)
    (hk : k < st.2.length) (hft : ft ≤ 4)
    (hb : ∀ z c, z < ft → c < 3 →
      base + k * 4 * C + z * C + c < src.content.length) :
    ∃ st2, makeS2 src base k ft st = some st2 ∧
      st2.2.length = st.2.length ∧
      (∀ j, j ≠ k → st2.2.getD j v4x3zero = st.2.getD j v4x3zero) ∧
      ∀ c l, c < 3 → l < ft →
        laneN (chanGet (st2.2.getD k v4x3zero) c) l =
          srcQ src (base + k * 4 * C + l * C + c) := by
  obtain ⟨a, ha, hpa⟩ := loadS2_eq src base k 0 ft st.1
    (fun z hz => hb z 0 hz (by decide))
  obtain ⟨b, hbb, hpb⟩ := loadS2_eq src base k 1 ft a
    (fun z hz => hb z 1 hz (by decide))
  obtain ⟨c2, hc2, hpc⟩ := loadS2_eq src base k 2 ft b
    (fun z hz => hb z 2 hz (by decide))
  refine ⟨(c2, st.2.set k ⟨a, b, c2⟩), ?_, List.length_set _ _ _, ?_, ?_⟩
  · show (loadS2 src base k 0 ft st.1).bind _ = _
    rw [ha]
    show (loadS2 src base k 1 ft a).bind _ = _
    rw [hbb]
    show (loadS2 src base k 2 ft b).bind _ = _
    rw [hc2]
    rfl
  · intro j hj
    show (st.2.set k ⟨a, b, c2⟩).getD j v4x3zero = _
    rw [getD_set_eq, if_neg (fun hcon => hj hcon.1.symm)]
  · intro c l hc hl
    show laneN (chanGet ((st.2.set k ⟨a, b, c2⟩).getD k v4x3zero) c) l = _
    rw [getD_set_eq, if_pos ⟨rfl, hk⟩]
    interval_cases c
    · show laneN a l = _
      rw [hpa l (by omega), if_pos hl]
    · show laneN b l = _
      rw [hpb l (by omega), if_pos hl]
    · show laneN c2 l = _
      rw [hpc l (by omega), if_pos hl]

/- The whole `simd2` bank: lane `m` (register `m / 4`, lane `m % 4`) holds
source pixel `m` of the kernel row, for every lane below `4*(len-1)+ft`. -/
theorem bank2load_eq (src : RgbImage) (base len ft : ℕ)
    (hlen1 : 1 ≤ len) (hft : ft ≤ 4)
    (hb : ∀ m c, m < 4 * (len - 1) + ft → c < 3 →
      base + m * C + c < src.content.length) :
    ∃ st, bank2load src base len ft = some st ∧
      ∀ c m, c < 3 → m < 4 * (len - 1) + ft →
        laneN (chanGet (st.2.getD (m / 4) v4x3zero) c) (m % 4) =
          srcQ src (base + m * C + c) := by
  have hidx : ∀ k z c, 4 * k + z < 4 * (len - 1) + ft → z < 4 → c < 3 →
      base + k * 4 * C + z * C + c < src.content.length := by
    intro k z c hm hz hc
    have h1 := Nat.add_mul (4 * k) z C
    have h2 : k * 4 * C = 4 * k * C := by ring
    have e : base + k * 4 * C + z * C + c = base + (4 * k + z) * C + c := by
      omega
    rw [e]
    exact hb (4 * k + z) c hm hc
  obtain ⟨st1, hfold, hp1⟩ := foldRM_inv
    (M := fun k (stx : V4 × List V4x3) => stx.2.length = len ∧
      ∀ c m, c < 3 → m < 4 * k →
        laneN (chanGet (stx.2.getD (m / 4) v4x3zero) c) (m % 4) =
          srcQ src (base + m * C + c))
    (fun k st => makeS2 src base k 4 st) 0 (len - 1)
    (v4zero, List.replicate len v4x3zero)
    ⟨List.length_replicate _ _, fun c m hc hm => by omega⟩
    (fun k stx hk1 hk2 hM => by
      obtain ⟨hlen2, hprev⟩ := hM
      obtain ⟨st2, hmk, hl2, hother, hnew⟩ := makeS2_eq src base k 4 stx
        (by omega) (by omega)
        (fun z c hz hc => hidx k z c (by omega) hz hc)
      refine ⟨st2, hmk, by omega, ?_⟩
      intro c m hc hm
      by_cases hreg : m / 4 = k
      · have hnewi := hnew c (m % 4) hc (by omega)
        have h1 := Nat.add_mul (4 * k) (m % 4) C
        have h2 : k * 4 * C = 4 * k * C := by ring
        have h3 : m * C = (4 * k + m % 4) * C := by
          congr 1
          omega
        have e2 : base + k * 4 * C + m % 4 * C + c = base + m * C + c := by
          omega
        rw [hreg, ← e2]
        exact hnewi
      · rw [hother (m / 4) hreg]
        exact hprev c m hc (by omega))
  obtain ⟨hlen2, hprev⟩ := hp1
  obtain ⟨st2, hmk, hl2, hother, hnew⟩ := makeS2_eq src base (len - 1) ft st1
    (by omega) hft
    (fun z c hz hc => hidx (len - 1) z c (by omega) (by omega) hc)
  refine ⟨st2, ?_, ?_⟩
  · show (foldRM _ 0 (len - 1) _).bind _ = _
    rw [hfold]
    exact hmk
  · intro c m hc hm
    by_cases hreg : m / 4 = len - 1
    · have hnewi := hnew c (m % 4) hc (by omega)
      have h1 := Nat.add_mul (4 * (len - 1)) (m % 4) C
      have h2 : (len - 1) * 4 * C = 4 * (len - 1) * C := by ring
      have h3 : m * C = (4 * (len - 1) + m % 4) * C := by
        congr 1
        omega
      have e2 : base + (len - 1) * 4 * C + m % 4 * C + c =
          base + m * C + c := by
        omega
      rw [hreg, ← e2]
      exact hnewi
    · rw [hother (m / 4) hreg]
      exact hprev c m hc (by omega)

/- One kernel row of `simd2` adds, to every lane `(c, z)`, the row-`i` tap
sum of output column `x + z`, provided the bank holds the row's source
pixels. -/
theorem simd2Row_eq {K : ℕ} (P : ConvKernel K) (src : RgbImage)
    (x y i : ℕ) (shared : List V4x3) (vt : V4x3) (hx1 : K / 2 ≤ x)
    (hbk : ∀ c m, c < 3 → m < 2 * (K / 2) + 4 →
      laneN (chanGet (shared.getD (m / 4) v4x3zero) c) (m % 4) =
        srcQ src ((y - K / 2 + i) * src.width * C +
          (x - K / 2 + m) * C + c)) :
    ∀ c z, c < 3 → z < 4 → laneN (chanGet (simd2Row P shared i vt) c) z =
      laneN (chanGet vt c) z + accRowUpTo P src (x + z) y c i K := by
  intro c z hc hz
  unfold simd2Row
  rw [foldR_hom (fun vt2 => laneN (chanGet vt2 c) z) _
      (fun j t => t + srcQ src ((y - K / 2 + i) * src.width * C +
        (x + z - K / 2 + j) * C + c) * P.kAt i j) 0 K vt ?hprem,
    foldR_acc_shift]
  · rfl
  case hprem =>
    intro j vt2 hj1 hj2
    dsimp only
    rw [laneN_fmaT _ _ _ _ _ hz,
      extWindow_lane shared (j / 4) (j % 4) c z hc hz]
    have hkle : K ≤ 2 * (K / 2) + 1 := by omega
    have hw := hbk c (j + z) hc (by omega)
    have e : x - K / 2 + (j + z) = x + z - K / 2 + j := by omega
    rw [e] at hw
    by_cases hjz : j % 4 % 4 + z < 4
    · rw [if_pos hjz,
        show j % 4 % 4 + z = (j + z) % 4 from by omega,
        show j / 4 = (j + z) / 4 from by omega, hw]
    · rw [if_neg hjz,
        show j % 4 % 4 + z - 4 = (j + z) % 4 from by omega,
        show j / 4 + 1 = (j + z) / 4 from by omega, hw]

/- The bank build plus tap sweep of one `simd2` kernel row, packaged like
`simd1Row_eq`. -/
theorem simd2Row_full {K : ℕ} (P : ConvKernel K) (src : RgbImage)
    (x y i : ℕ) (vt : V4x3)
    (hx1 : K / 2 ≤ x) (hx3 : x + 3 + K / 2 < src.width)
    (hy1 : K / 2 ≤ y) (hy2 : y + K / 2 < src.height) (hi : i < K)
    (hlen : src.content.length = src.height * src.width * C) :
    ∃ st, bank2load src ((y - K / 2 + i) * src.width * C + (x - K / 2) * C)
        (s2len K) (if K / 2 % 2 = 1 then 2 else 4) = some st ∧
      ∀ c z, c < 3 → z < 4 →
        laneN (chanGet (simd2Row P st.2 i vt) c) z =
          laneN (chanGet vt c) z + accRowUpTo P src (x + z) y c i K := by
  have hcnt : 4 * (s2len K - 1) + (if K / 2 % 2 = 1 then 2 else 4) =
      2 * (K / 2) + 4 := by
    unfold s2len
    by_cases hpar : K / 2 % 2 = 1
    · rw [if_pos hpar]
      omega
    · rw [if_neg hpar]
      omega
  have hft : (if K / 2 % 2 = 1 then 2 else 4) ≤ 4 := by
    by_cases hpar : K / 2 % 2 = 1
    · rw [if_pos hpar]
      omega
    · rw [if_neg hpar]
  obtain ⟨st, hbank, hprop⟩ := bank2load_eq src
    ((y - K / 2 + i) * src.width * C + (x - K / 2) * C) (s2len K)
    (if K / 2 % 2 = 1 then 2 else 4) (by unfold s2len; omega) hft
    (fun m c hm hc => by
      have h1 := Nat.add_mul (x - K / 2) m C
      have e : (y - K / 2 + i) * src.width * C + (x - K / 2) * C + m * C + c
          = (y - K / 2 + i) * src.width * C + (x - K / 2 + m) * C + c := by
        omega
      rw [e, hlen]
      rw [hcnt] at hm
      exact idx_lt_total (by omega) (by omega) hc)
  refine ⟨st, hbank, ?_⟩
  refine simd2Row_eq P src x y i st.2 vt hx1 (fun c m hc hm => ?_)
  have h1 := Nat.add_mul (x - K / 2) m C
  have e : (y - K / 2 + i) * src.width * C + (x - K / 2) * C + m * C + c
      = (y - K / 2 + i) * src.width * C + (x - K / 2 + m) * C + c := by
    omega
  rw [← e]
  exact hprop c m hc (by omega)

/- One 4-column group of `simd2` writes the 12 bytes of output columns
`x..x+3` with the shared-contract values. -/
theorem simdLoop2_eq {K : ℕ} (P : ConvKernel K) (src : RgbImage) (x y : ℕ)
    (dst : List ℕ) (hK : 1 ≤ K)
    (hx1 : K / 2 ≤ x) (hx3 : x + 3 + K / 2 < src.width)
    (hy1 : K / 2 ≤ y) (hy2 : y + K / 2 < src.height)
    (hlen : src.content.length = src.height * src.width * C) :
    ∃ dst2, simdLoop2 P src x y dst = some dst2 ∧ dst2.length = dst.length ∧
      ∀ idx, dst2.getD idx 0 =
        if y * src.width * C + x * C ≤ idx ∧
            idx < y * src.width * C + (x + 4) * C ∧ idx < dst.length then
          specAt P src idx
        else dst.getD idx 0 := by
  have hCC : (C : ℕ) = 3 := rfl
  obtain ⟨sF, hfold, hlaneF, hlenF, hdescF⟩ := foldRM_inv
    (M := fun i (s : V4x3 × List ℕ) =>
      (∀ c z, c < 3 → z < 4 →
        laneN (chanGet s.1 c) z = accUpTo P src (x + z) y c i) ∧
      s.2.length = dst.length ∧
      ∀ idx, s.2.getD idx 0 =
        if 1 ≤ i ∧ y * src.width * C + x * C ≤ idx ∧
            idx < y * src.width * C + x * C + 4 * C ∧ idx < dst.length then
          f32u8 (applyDiv P.div (accUpTo P src
            (x + (idx - (y * src.width * C + x * C)) / C) y
            ((idx - (y * src.width * C + x * C)) % C) i))
        else dst.getD idx 0)
    (fun i (s : V4x3 × List ℕ) => do
      let st ← bank2load src
        ((y - K / 2 + i) * src.width * C + (x - K / 2) * C) (s2len K)
        (if K / 2 % 2 = 1 then 2 else 4)
      let vt := simd2Row P st.2 i s.1
      pure (vt, store4 P.div vt (y * src.width * C + x * C) s.2))
    0 K (v4x3zero, dst)
    ⟨fun c z hc hz => by rw [laneN_v4x3zero]; rfl,
     rfl,
     fun idx => by rw [if_neg (by omega)]⟩
    (fun i s hi1 hi2 hM => by
      obtain ⟨hlane, hslen, hsdesc⟩ := hM
      obtain ⟨st, hbank, hlane2⟩ := simd2Row_full P src x y i s.1 hx1 hx3 hy1
        hy2 (by omega) hlen
      refine ⟨(simd2Row P st.2 i s.1,
        store4 P.div (simd2Row P st.2 i s.1)
          (y * src.width * C + x * C) s.2), ?_, ?_, ?_, ?_⟩
      · show (bank2load src _ _ _).bind _ = _
        rw [hbank]
        rfl
      · intro c z hc hz
        rw [hlane2 c z hc hz, hlane c z hc hz, ← accUpTo_succ]
      · rw [store4_length]
        exact hslen
      · intro idx
        rw [store4_getD]
        by_cases hin : y * src.width * C + x * C ≤ idx ∧
            idx < y * src.width * C + x * C + 4 * C ∧ idx < s.2.length
        · have hz4 : (idx - (y * src.width * C + x * C)) / C < 4 := by
            rw [Nat.div_lt_iff_lt_mul (by decide : 0 < (C : ℕ))]
            omega
          have hc3 : (idx - (y * src.width * C + x * C)) % C < 3 := by
            have := Nat.mod_lt (idx - (y * src.width * C + x * C))
              (show 0 < (C : ℕ) by decide)
            omega
          rw [if_pos hin, if_pos ⟨by omega, hin.1, hin.2.1, by omega⟩,
            hlane2 _ _ hc3 hz4, hlane _ _ hc3 hz4, ← accUpTo_succ]
        · rw [if_neg hin, hsdesc idx]
          by_cases h1i : 1 ≤ i
          · rw [if_neg (by omega), if_neg (by omega)]
          · rw [if_neg (by omega), if_neg (by omega)])
  refine ⟨sF.2, ?_, hlenF, ?_⟩
  · unfold simdLoop2
    rw [hfold]
    rfl
  · intro idx
    rw [hdescF idx]
    have hax : y * src.width * C + (x + 4) * C =
        y * src.width * C + x * C + 4 * C := by ring
    by_cases hin : y * src.width * C + x * C ≤ idx ∧
        idx < y * src.width * C + (x + 4) * C ∧ idx < dst.length
    · rw [if_pos ⟨by omega, hin.1, by omega, hin.2.2⟩, if_pos hin,
        specAt_block4 P src hx1 hx3 hy1 hy2 hin.1 (by omega), Nat.zero_add]
    · rw [if_neg (by omega), if_neg hin]

/- `simd2` computes the shared-contract image. -/
theorem simd2_spec {K : ℕ} (P : ConvKernel K) (src : RgbImage) (hK : 1 ≤ K)
    (hw : 2 * (K / 2) ≤ src.width) (hh : K / 2 ≤ src.height)
    (hlen : src.content.length = src.height * src.width * C) :
    simd2 P src = some (specImage P src) := by
  have hwh : K / 2 ≤ src.width := by omega
  have hmle : (src.width - 2 * (K / 2)) % 4 ≤ src.width - 2 * (K / 2) :=
    Nat.mod_le _ _
  unfold simd2
  rw [show csub src.width (K / 2) = some (src.width - K / 2) from by
        unfold csub; rw [if_pos hwh],
      show csub src.height (K / 2) = some (src.height - K / 2) from by
        unfold csub; rw [if_pos hh],
      show csub src.width (2 * (K / 2)) =
          some (src.width - 2 * (K / 2)) from by
        unfold csub; rw [if_pos hw]]
  show (csub (src.width - K / 2) ((src.width - 2 * (K / 2)) % 4)).bind
      (fun simdEnd =>
        (foldRM (fun y dst => do
            let dst ← foldSM (fun x dst => simdLoop2 P src x y dst) 4
              (K / 2) ((simdEnd - K / 2 + 3) / 4) dst
            foldRM (fun x dst => peelLoop P src x y dst)
              simdEnd ((src.width - K / 2) - simdEnd) dst)
          (K / 2) ((src.height - K / 2) - K / 2)
          (List.replicate (src.height * src.width * C) 0)).bind
          (fun dst => some (RgbImage.from_raw dst src.height src.width)))
    = some (specImage P src)
  rw [show csub (src.width - K / 2) ((src.width - 2 * (K / 2)) % 4) =
      some (src.width - K / 2 - (src.width - 2 * (K / 2)) % 4) from by
    unfold csub; rw [if_pos (by omega)]]
  show (foldRM (fun y dst => do
      let dst ← foldSM (fun x dst => simdLoop2 P src x y dst) 4
        (K / 2) ((src.width - K / 2 - (src.width - 2 * (K / 2)) % 4 -
          K / 2 + 3) / 4) dst
      foldRM (fun x dst => peelLoop P src x y dst)
        (src.width - K / 2 - (src.width - 2 * (K / 2)) % 4)
        ((src.width - K / 2) -
          (src.width - K / 2 - (src.width - 2 * (K / 2)) % 4)) dst)
      (K / 2) ((src.height - K / 2) - K / 2)
      (List.replicate (src.height * src.width * C) 0)).bind
      (fun dst => some (RgbImage.from_raw dst src.height src.width))
    = some (specImage P src)
  rw [vec_driver_spec (specAt P src) src.width src.height (K / 2) 4
    ((src.width - K / 2 - (src.width - 2 * (K / 2)) % 4 - K / 2 + 3) / 4)
    (fun x y dst => simdLoop2 P src x y dst)
    (fun x y dst => peelLoop P src x y dst)
    hw hh (by omega)
    (fun k y dst hkn hy1 hy2 hxw hdlen => by
      obtain ⟨dst2, h1, h2, h3⟩ := simdLoop2_eq P src (K / 2 + 4 * k) y dst
        hK (by omega) (by omega) hy1 hy2 hlen
      exact ⟨dst2, h1, h2, h3⟩)
    (fun x y dst hy1 hy2 hxs hxw hdlen => by
      have hx1 : K / 2 ≤ x := by omega
      refine ⟨writePix P src x y dst,
        peelLoop_eq P src x y hx1 hxw hy1 hy2 hlen dst,
        writePix_length P src x y dst, fun idx => ?_⟩
      rw [writePix_getD]
      by_cases hc : y * src.width * C + x * C ≤ idx ∧
          idx < y * src.width * C + x * C + C ∧ idx < dst.length
      · rw [if_pos hc, if_pos hc,
          specAt_block P src hx1 hxw hy1 hy2 hc.1 hc.2.1]
      · rw [if_neg hc, if_neg hc])
    (fun idx hidx hreg => by
      simp only [specAt]
      rw [if_neg (by omega)])]
  rfl

theorem acc3UpTo_succ {K : ℕ} (P : ConvKernel K) (src : RgbImage)
    (gx y e c m : ℕ) :
    acc3UpTo P src gx y e c (m + 1) = acc3UpTo P src gx y e c m +
      acc3Row P src gx y e c m := by
  unfold acc3UpTo
  rw [foldR_succ_right, Nat.zero_add]

theorem acc3_eq_upTo {K : ℕ} (P : ConvKernel K) (src : RgbImage)
    (gx y e c : ℕ) :
    acc3 P src gx y e c = acc3UpTo P src gx y e c K := by
  unfold acc3 acc3UpTo acc3Row
  exact foldR_congr (fun i t _ _ => foldR_acc_shift _ 0 K t)

/- The body shared by `load16` and `load8`: `n` registers starting at `b`,
reading pixels `b + (lane - 4*b)` (the offset bug: the read base advances by
`b` pixels, not `4*b`). -/
theorem loadWide_eq (src : RgbImage) (base b n : ℕ) (shared : List V4x3)
    (hreg : b + n ≤ shared.length)
    (hbnd : ∀ z l c, z < n → l < 4 → c < 3 →
      base + b * C + (4 * z + l) * C + c < src.content.length) :
    ∃ sh2, foldRM (fun z shared => do
        let mk := fun (c : ℕ) => do
          let v0 ← readB src (base + b * C + (4 * z + 0) * C + c)
          let v1 ← readB src (base + b * C + (4 * z + 1) * C + c)
          let v2 ← readB src (base + b * C + (4 * z + 2) * C + c)
          let v3 ← readB src (base + b * C + (4 * z + 3) * C + c)
          pure (mkV4 v0 v1 v2 v3)
        let c0 ← mk 0
        let c1 ← mk 1
        let c2 ← mk 2
        pure (shared.set (b + z) ⟨c0, c1, c2⟩)) 0 n shared = some sh2 ∧
      sh2.length = shared.length ∧
      (∀ j, ¬ (b ≤ j ∧ j < b + n) →
        sh2.getD j v4x3zero = shared.getD j v4x3zero) ∧
      ∀ c z l, c < 3 → z < n → l < 4 →
        laneN (chanGet (sh2.getD (b + z) v4x3zero) c) l =
          srcQ src (base + b * C + (4 * z + l) * C + c) := by
  obtain ⟨sh2, hfold, hprop⟩ := foldRM_inv
    (M := fun z shx => shx.length = shared.length ∧
      (∀ j, ¬ (b ≤ j ∧ j < b + z) →
        shx.getD j v4x3zero = shared.getD j v4x3zero) ∧
      ∀ c z2 l, c < 3 → z2 < z → l < 4 →
        laneN (chanGet (shx.getD (b + z2) v4x3zero) c) l =
          srcQ src (base + b * C + (4 * z2 + l) * C + c))
    (fun z shared => do
      let mk := fun (c : ℕ) => do
        let v0 ← readB src (base + b * C + (4 * z + 0) * C + c)
        let v1 ← readB src (base + b * C + (4 * z + 1) * C + c)
        let v2 ← readB src (base + b * C + (4 * z + 2) * C + c)
        let v3 ← readB src (base + b * C + (4 * z + 3) * C + c)
        pure (mkV4 v0 v1 v2 v3)
      let c0 ← mk 0
      let c1 ← mk 1
      let c2 ← mk 2
      pure (shared.set (b + z) ⟨c0, c1, c2⟩)) 0 n shared
    ⟨rfl, fun j hj => rfl, fun c z2 l hc hz2 hl => by omega⟩
    (fun z shx hz1 hz2 hM => by
      obtain ⟨hslen, hother, hdone⟩ := hM
      refine ⟨shx.set (b + z)
        ⟨mkV4 (srcQ src (base + b * C + (4 * z + 0) * C + 0))
            (srcQ src (base + b * C + (4 * z + 1) * C + 0))
            (srcQ src (base + b * C + (4 * z + 2) * C + 0))
            (srcQ src (base + b * C + (4 * z + 3) * C + 0)),
         mkV4 (srcQ src (base + b * C + (4 * z + 0) * C + 1))
            (srcQ src (base + b * C + (4 * z + 1) * C + 1))
            (srcQ src (base + b * C + (4 * z + 2) * C + 1))
            (srcQ src (base + b * C + (4 * z + 3) * C + 1)),
         mkV4 (srcQ src (base + b * C + (4 * z + 0) * C + 2))
            (srcQ src (base + b * C + (4 * z + 1) * C + 2))
            (srcQ src (base + b * C + (4 * z + 2) * C + 2))
            (srcQ src (base + b * C + (4 * z + 3) * C + 2))⟩, ?_, ?_, ?_, ?_⟩
      · dsimp only
        rw [readB_eq_srcQ src _ (hbnd z 0 0 (by omega) (by decide) (by decide)),
          readB_eq_srcQ src _ (hbnd z 1 0 (by omega) (by decide) (by decide)),
          readB_eq_srcQ src _ (hbnd z 2 0 (by omega) (by decide) (by decide)),
          readB_eq_srcQ src _ (hbnd z 3 0 (by omega) (by decide) (by decide)),
          readB_eq_srcQ src _ (hbnd z 0 1 (by omega) (by decide) (by decide)),
          readB_eq_srcQ src _ (hbnd z 1 1 (by omega) (by decide) (by decide)),
          readB_eq_srcQ src _ (hbnd z 2 1 (by omega) (by decide) (by decide)),
          readB_eq_srcQ src _ (hbnd z 3 1 (by omega) (by decide) (by decide)),
          readB_eq_srcQ src _ (hbnd z 0 2 (by omega) (by decide) (by decide)),
          readB_eq_srcQ src _ (hbnd z 1 2 (by omega) (by decide) (by decide)),
          readB_eq_srcQ src _ (hbnd z 2 2 (by omega) (by decide) (by decide)),
          readB_eq_srcQ src _ (hbnd z 3 2 (by omega) (by decide) (by decide))]
        rfl
      · rw [List.length_set]
        exact hslen
      · intro j hj
        rw [getD_set_eq, if_neg (fun hcon => by omega), hother j (by omega)]
      · intro c z2 l hc hz2 hl
        by_cases hzz : z2 = z
        · subst hzz
          rw [getD_set_eq, if_pos ⟨rfl, by omega⟩]
          interval_cases c <;> interval_cases l <;> rfl
        · rw [getD_set_eq, if_neg (fun hcon => by omega)]
          exact hdone c z2 l hc (by omega) hl)
  refine ⟨sh2, hfold, hprop.1, fun j hj => hprop.2.1 j (by omega), ?_⟩
  intro c z l hc hz hl
  exact hprop.2.2 c z l hc (by omega) hl

theorem load16_eq (src : RgbImage) (base b : ℕ) (shared : List V4x3)
    (hreg : b + 4 ≤ shared.length)
    (hbnd : ∀ z l c, z < 4 → l < 4 → c < 3 →
      base + b * C + (4 * z + l) * C + c < src.content.length) :
    ∃ sh2, load16 src base b shared = some sh2 ∧
      sh2.length = shared.length ∧
      (∀ j, ¬ (b ≤ j ∧ j < b + 4) →
        sh2.getD j v4x3zero = shared.getD j v4x3zero) ∧
      ∀ c z l, c < 3 → z < 4 → l < 4 →
        laneN (chanGet (sh2.getD (b + z) v4x3zero) c) l =
          srcQ src (base + b * C + (4 * z + l) * C + c) :=
  loadWide_eq src base b 4 shared hreg hbnd

theorem load8_eq (src : RgbImage) (base b : ℕ) (shared : List V4x3)
    (hreg : b + 2 ≤ shared.length)
    (hbnd : ∀ z l c, z < 2 → l < 4 → c < 3 →
      base + b * C + (4 * z + l) * C + c < src.content.length) :
    ∃ sh2, load8 src base b shared = some sh2 ∧
      sh2.length = shared.length ∧
      (∀ j, ¬ (b ≤ j ∧ j < b + 2) →
        sh2.getD j v4x3zero = shared.getD j v4x3zero) ∧
      ∀ c z l, c < 3 → z < 2 → l < 4 →
        laneN (chanGet (sh2.getD (b + z) v4x3zero) c) l =
          srcQ src (base + b * C + (4 * z + l) * C + c) :=
  loadWide_eq src base b 2 shared hreg hbnd

/- `load4or2`: register `b` carries pixels `4*b .. 4*b + ft - 1` at the
correct offsets, its upper lanes the zeros of the fresh buffer. -/
theorem load4or2_eq (src : RgbImage) (base b ft : ℕ) (shared : List V4x3)
    (hreg : b < shared.length) (hft : ft ≤ 4)
    (hbnd : ∀ z c, z < ft → c < 3 →
      base + b * 4 * C + z * C + c < src.content.length) :
    ∃ sh2, load4or2 src base b ft shared = some sh2 ∧
      sh2.length = shared.length ∧
      (∀ j, j ≠ b → sh2.getD j v4x3zero = shared.getD j v4x3zero) ∧
      ∀ c l, c < 3 → l < 4 →
        laneN (chanGet (sh2.getD b v4x3zero) c) l =
          if l < ft then srcQ src (base + b * 4 * C + l * C + c) else 0 := by
  obtain ⟨c0, h0, hp0⟩ := loadS2_eq src base b 0 ft v4zero
    (fun z hz => hbnd z 0 hz (by decide))
  obtain ⟨c1, h1, hp1⟩ := loadS2_eq src base b 1 ft v4zero
    (fun z hz => hbnd z 1 hz (by decide))
  obtain ⟨c2, h2, hp2⟩ := loadS2_eq src base b 2 ft v4zero
    (fun z hz => hbnd z 2 hz (by decide))
  refine ⟨shared.set b ⟨c0, c1, c2⟩, ?_, ?_, ?_, ?_⟩
  · show (loadS2 src base b 0 ft v4zero).bind _ = _
    rw [h0]
    show (loadS2 src base b 1 ft v4zero).bind _ = _
    rw [h1]
    show (loadS2 src base b 2 ft v4zero).bind _ = _
    rw [h2]
    rfl
  · rw [List.length_set]
  · intro j hj
    rw [getD_set_eq, if_neg (fun hcon => hj hcon.1.symm)]
  · intro c l hc hl
    rw [getD_set_eq, if_pos ⟨rfl, hreg⟩]
    have hz0 : laneN v4zero l = 0 := by
      unfold laneN v4zero
      rw [dif_pos hl]
    interval_cases c
    · show laneN c0 l = _
      rw [hp0 l hl]
      by_cases hlf : l < ft
      · rw [if_pos hlf, if_pos hlf]
      · rw [if_neg hlf, if_neg hlf, hz0]
    · show laneN c1 l = _
      rw [hp1 l hl]
      by_cases hlf : l < ft
      · rw [if_pos hlf, if_pos hlf]
      · rw [if_neg hlf, if_neg hlf, hz0]
    · show laneN c2 l = _
      rw [hp2 l hl]
      by_cases hlf : l < ft
      · rw [if_pos hlf, if_pos hlf]
      · rw [if_neg hlf, if_neg hlf, hz0]

/- The whole `simd3` register-bank build: for even `remains` (as in every
call the driver makes), bank lane `m` with `4*b ≤ m < 4*b + remains` ends up
holding the source pixel `lane3Pix fuel remains b m`; registers below `b`
are untouched. -/
theorem bank3load_eq (src : RgbImage) (base0 : ℕ) :
    ∀ fuel remains b (shared : List V4x3), remains ≤ fuel →
    remains % 2 = 0 →
    4 * b + remains ≤ 4 * shared.length →
    (∀ p c, p < 4 * b + remains → c < 3 →
      base0 + p * C + c < src.content.length) →
    ∃ sh2, bank3load src base0 fuel remains b shared = some sh2 ∧
      sh2.length = shared.length ∧
      (∀ j, j < b → sh2.getD j v4x3zero = shared.getD j v4x3zero) ∧
      ∀ c m, c < 3 → 4 * b ≤ m → m < 4 * b + remains →
        laneN (chanGet (sh2.getD (m / 4) v4x3zero) c) (m % 4) =
          srcQ src (base0 + lane3Pix fuel remains b m * C + c) := by
  intro fuel
  induction fuel with
  | zero =>
    intro remains b shared hfu hev hreg hbnd
    have h0 : remains = 0 := by omega
    subst h0
    exact ⟨shared, rfl, rfl, fun j hj => rfl,
      fun c m hc hm1 hm2 => by omega⟩
  | succ fuel ih =>
    intro remains b shared hfu hev hreg hbnd
    by_cases h0 : remains = 0
    · subst h0
      refine ⟨shared, ?_, rfl, fun j hj => rfl,
        fun c m hc hm1 hm2 => by omega⟩
      rw [bank3load, if_pos rfl]
    by_cases h16 : 16 ≤ remains
    · obtain ⟨sh1, h16eq, h16len, h16other, h16lane⟩ :=
        load16_eq src base0 b shared (by omega)
          (fun z l c hz hl hc => by
            have h1 := Nat.add_mul b (4 * z + l) C
            have e : base0 + b * C + (4 * z + l) * C + c =
                base0 + (b + (4 * z + l)) * C + c := by omega
            rw [e]
            exact hbnd (b + (4 * z + l)) c (by omega) hc)
      have hchunk : ∀ c m, c < 3 → 4 * b ≤ m → m < 4 * b + 16 →
          laneN (chanGet (sh1.getD (m / 4) v4x3zero) c) (m % 4) =
            srcQ src (base0 + (b + (m - 4 * b)) * C + c) := by
        intro c m hc hm1 hm2
        have hli := h16lane c ((m - 4 * b) / 4) ((m - 4 * b) % 4) hc
          (by omega) (by omega)
        rw [show 4 * ((m - 4 * b) / 4) + (m - 4 * b) % 4 = m - 4 * b
          from by omega] at hli
        rw [show m / 4 = b + (m - 4 * b) / 4 from by omega,
          show m % 4 = (m - 4 * b) % 4 from by omega,
          show base0 + (b + (m - 4 * b)) * C + c =
              base0 + b * C + (m - 4 * b) * C + c
            from by have := Nat.add_mul b (m - 4 * b) C; omega]
        exact hli
      by_cases hbr : remains - 16 < 2
      · refine ⟨sh1, ?_, h16len, fun j hj => h16other j (by omega), ?_⟩
        · rw [bank3load, if_neg h0, if_pos h16, h16eq]
          show (if remains - 16 < 2 then some sh1 else _) = some sh1
          rw [if_pos hbr]
        · intro c m hc hm1 hm2
          rw [lane3Pix, if_neg h0, if_pos h16, if_pos (by omega)]
          exact hchunk c m hc hm1 (by omega)
      · obtain ⟨sh2, hrec, hrlen, hrother, hrlane⟩ :=
          ih (remains - 16) (b + 4) sh1 (by omega) (by omega)
            (by omega) (fun p c hp hc => hbnd p c (by omega) hc)
        refine ⟨sh2, ?_, by omega,
          fun j hj => by rw [hrother j (by omega), h16other j (by omega)],
          ?_⟩
        · rw [bank3load, if_neg h0, if_pos h16, h16eq]
          show (if remains - 16 < 2 then some sh1 else
            bank3load src base0 fuel (remains - 16) (b + 4) sh1) = some sh2
          rw [if_neg hbr]
          exact hrec
        · intro c m hc hm1 hm2
          by_cases hm16 : m < 4 * b + 16
          · rw [lane3Pix, if_neg h0, if_pos h16, if_pos hm16,
              show m / 4 = (m / 4) from rfl]
            rw [show sh2.getD (m / 4) v4x3zero = sh1.getD (m / 4) v4x3zero
              from hrother (m / 4) (by omega)]
            exact hchunk c m hc hm1 hm16
          · rw [lane3Pix, if_neg h0, if_pos h16, if_neg hm16,
              if_neg (by omega)]
            exact hrlane c m hc (by omega) (by omega)
    by_cases h8 : 8 ≤ remains
    · obtain ⟨sh1, h8eq, h8len, h8other, h8lane⟩ :=
        load8_eq src base0 b shared (by omega)
          (fun z l c hz hl hc => by
            have h1 := Nat.add_mul b (4 * z + l) C
            have e : base0 + b * C + (4 * z + l) * C + c =
                base0 + (b + (4 * z + l)) * C + c := by omega
            rw [e]
            exact hbnd (b + (4 * z + l)) c (by omega) hc)
      have hchunk : ∀ c m, c < 3 → 4 * b ≤ m → m < 4 * b + 8 →
          laneN (chanGet (sh1.getD (m / 4) v4x3zero) c) (m % 4) =
            srcQ src (base0 + (b + (m - 4 * b)) * C + c) := by
        intro c m hc hm1 hm2
        have hli := h8lane c ((m - 4 * b) / 4) ((m - 4 * b) % 4) hc
          (by omega) (by omega)
        rw [show 4 * ((m - 4 * b) / 4) + (m - 4 * b) % 4 = m - 4 * b
          from by omega] at hli
        rw [show m / 4 = b + (m - 4 * b) / 4 from by omega,
          show m % 4 = (m - 4 * b) % 4 from by omega,
          show base0 + (b + (m - 4 * b)) * C + c =
              base0 + b * C + (m - 4 * b) * C + c
            from by have := Nat.add_mul b (m - 4 * b) C; omega]
        exact hli
      by_cases hbr : remains - 8 < 2
      · refine ⟨sh1, ?_, h8len, fun j hj => h8other j (by omega), ?_⟩
        · rw [bank3load, if_neg h0, if_neg h16, if_pos h8, h8eq]
          show (if remains - 8 < 2 then some sh1 else _) = some sh1
          rw [if_pos hbr]
        · intro c m hc hm1 hm2
          rw [lane3Pix, if_neg h0, if_neg h16, if_pos h8, if_pos (by omega)]
          exact hchunk c m hc hm1 (by omega)
      · obtain ⟨sh2, hrec, hrlen, hrother, hrlane⟩ :=
          ih (remains - 8) (b + 2) sh1 (by omega) (by omega)
            (by omega) (fun p c hp hc => hbnd p c (by omega) hc)
        refine ⟨sh2, ?_, by omega,
          fun j hj => by rw [hrother j (by omega), h8other j (by omega)],
          ?_⟩
        · rw [bank3load, if_neg h0, if_neg h16, if_pos h8, h8eq]
          show (if remains - 8 < 2 then some sh1 else
            bank3load src base0 fuel (remains - 8) (b + 2) sh1) = some sh2
          rw [if_neg hbr]
          exact hrec
        · intro c m hc hm1 hm2
          by_cases hm8 : m < 4 * b + 8
          · rw [lane3Pix, if_neg h0, if_neg h16, if_pos h8, if_pos hm8]
            rw [show sh2.getD (m / 4) v4x3zero = sh1.getD (m / 4) v4x3zero
              from hrother (m / 4) (by omega)]
            exact hchunk c m hc hm1 hm8
          · rw [lane3Pix, if_neg h0, if_neg h16, if_pos h8, if_neg hm8,
              if_neg (by omega)]
            exact hrlane c m hc (by omega) (by omega)
    by_cases h4 : 4 ≤ remains
    · obtain ⟨sh1, h4eq, h4len, h4other, h4lane⟩ :=
        load4or2_eq src base0 b 4 shared (by omega) (by omega)
          (fun z c hz hc => by
            have h1 := Nat.add_mul (4 * b) z C
            have h2 : b * 4 * C = 4 * b * C := by ring
            have h3 : (4 * b + z) * C = 4 * b * C + z * C := Nat.add_mul _ _ _
            have e : base0 + b * 4 * C + z * C + c =
                base0 + (4 * b + z) * C + c := by omega
            rw [e]
            exact hbnd (4 * b + z) c (by omega) hc)
      have hchunk : ∀ c m, c < 3 → 4 * b ≤ m → m < 4 * b + 4 →
          laneN (chanGet (sh1.getD (m / 4) v4x3zero) c) (m % 4) =
            srcQ src (base0 + m * C + c) := by
        intro c m hc hm1 hm2
        have hli := h4lane c (m % 4) hc (by omega)
        rw [if_pos (by omega)] at hli
        rw [show m / 4 = b from by omega,
          show base0 + m * C + c = base0 + b * 4 * C + m % 4 * C + c
            from by
              have h2 : b * 4 * C = 4 * b * C := by ring
              have h3 : (4 * b + m % 4) * C = 4 * b * C + m % 4 * C :=
                Nat.add_mul _ _ _
              have h4 : m * C = (4 * b + m % 4) * C := by
                congr 1
                omega
              omega]
        exact hli
      by_cases hbr : remains - 4 < 2
      · refine ⟨sh1, ?_, h4len, fun j hj => h4other j (by omega), ?_⟩
        · rw [bank3load, if_neg h0, if_neg h16, if_neg h8, if_pos h4, h4eq]
          show (if remains - 4 < 2 then some sh1 else _) = some sh1
          rw [if_pos hbr]
        · intro c m hc hm1 hm2
          rw [lane3Pix, if_neg h0, if_neg h16, if_neg h8, if_pos h4,
            if_pos (by omega)]
          exact hchunk c m hc hm1 (by omega)
      · obtain ⟨sh2, hrec, hrlen, hrother, hrlane⟩ :=
          ih (remains - 4) (b + 1) sh1 (by omega) (by omega)
            (by omega) (fun p c hp hc => hbnd p c (by omega) hc)
        refine ⟨sh2, ?_, by omega,
          fun j hj => by rw [hrother j (by omega), h4other j (by omega)],
          ?_⟩
        · rw [bank3load, if_neg h0, if_neg h16, if_neg h8, if_pos h4, h4eq]
          show (if remains - 4 < 2 then some sh1 else
            bank3load src base0 fuel (remains - 4) (b + 1) sh1) = some sh2
          rw [if_neg hbr]
          exact hrec
        · intro c m hc hm1 hm2
          by_cases hm4 : m < 4 * b + 4
          · rw [lane3Pix, if_neg h0, if_neg h16, if_neg h8, if_pos h4,
              if_pos hm4]
            rw [show sh2.getD (m / 4) v4x3zero = sh1.getD (m / 4) v4x3zero
              from hrother (m / 4) (by omega)]
            exact hchunk c m hc hm1 hm4
          · rw [lane3Pix, if_neg h0, if_neg h16, if_neg h8, if_pos h4,
              if_neg hm4, if_neg (by omega)]
            exact hrlane c m hc (by omega) (by omega)
    have h2r : remains = 2 := by omega
    subst h2r
    obtain ⟨sh1, h2eq, h2len, h2other, h2lane⟩ :=
      load4or2_eq src base0 b 2 shared (by omega) (by omega)
        (fun z c hz hc => by
          have h1 := Nat.add_mul (4 * b) z C
          have hh2 : b * 4 * C = 4 * b * C := by ring
          have h3 : (4 * b + z) * C = 4 * b * C + z * C := Nat.add_mul _ _ _
          have e : base0 + b * 4 * C + z * C + c =
              base0 + (4 * b + z) * C + c := by omega
          rw [e]
          exact hbnd (4 * b + z) c (by omega) hc)
    refine ⟨sh1, ?_, h2len, fun j hj => h2other j (by omega), ?_⟩
    · rw [bank3load, if_neg h0, if_neg h16, if_neg h8, if_neg h4, h2eq]
      show (if (2 : ℕ) - 2 < 2 then some sh1
        else bank3load src base0 fuel (2 - 2) b sh1) = some sh1
      rw [if_pos (by omega)]
    · intro c m hc hm1 hm2
      rw [lane3Pix, if_neg h0, if_neg h16, if_neg h8, if_neg h4,
        if_pos (by omega), if_pos (by omega)]
      have hli := h2lane c (m % 4) hc (by omega)
      rw [if_pos (by omega)] at hli
      rw [show m / 4 = b from by omega,
        show base0 + m * C + c = base0 + b * 4 * C + m % 4 * C + c
          from by
            have hh2 : b * 4 * C = 4 * b * C := by ring
            have h3 : (4 * b + m % 4) * C = 4 * b * C + m % 4 * C :=
              Nat.add_mul _ _ _
            have hh4 : m * C = (4 * b + m % 4) * C := by
              congr 1
              omega
            omega]
      exact hli

/- A fold that updates each register `z < n` in place through `g z`. -/
theorem foldR_set_reg (g : ℕ → V4x3 → V4x3) (n : ℕ) (vts : List V4x3) :
    (foldR (fun z vts2 => vts2.set z (g z (vts2.getD z v4x3zero))) 0 n
      vts).length = vts.length ∧
    ∀ z2, (foldR (fun z vts2 => vts2.set z (g z (vts2.getD z v4x3zero)))
        0 n vts).getD z2 v4x3zero =
      if z2 < n ∧ z2 < vts.length then g z2 (vts.getD z2 v4x3zero)
      else vts.getD z2 v4x3zero := by
  induction n with
  | zero =>
    refine ⟨rfl, fun z2 => ?_⟩
    rw [if_neg (by omega)]
    rfl
  | succ n ih =>
    obtain ⟨ihlen, ihget⟩ := ih
    constructor
    · rw [foldR_succ_right, Nat.zero_add, List.length_set, ihlen]
    · intro z2
      rw [foldR_succ_right, Nat.zero_add, getD_set_eq, ihlen, ihget n,
        if_neg (show ¬ (n < n ∧ n < vts.length) from by omega), ihget z2]
      by_cases h1 : n = z2
      · subst h1
        by_cases h2 : n < vts.length
        · rw [if_pos (show n = n ∧ n < vts.length from ⟨rfl, h2⟩),
            if_pos (show n < n + 1 ∧ n < vts.length from ⟨by omega, h2⟩)]
        · rw [if_neg (show ¬ (n = n ∧ n < vts.length) from by omega),
            if_neg (show ¬ (n < n ∧ n < vts.length) from by omega),
            if_neg (show ¬ (n < n + 1 ∧ n < vts.length) from by omega)]
      · rw [if_neg (show ¬ (n = z2 ∧ z2 < vts.length) from by omega)]
        split_ifs <;> first | rfl | omega

/- One `simd3` kernel row of taps: to lane `e % 4` of accumulator group
`e / 4` (output column `gx + e`) it adds the row's tap sum through the bank
value function `Q`. -/
theorem simd3Taps_eq {K : ℕ} (P : ConvKernel K) (shared : List V4x3)
    (i : ℕ) (vts : List V4x3) (hlen4 : vts.length = 4) (Q : ℕ → ℕ → ℚ)
    (hbk : ∀ c m, c < 3 → m < 2 * (K / 2) + 16 →
      laneN (chanGet (shared.getD (m / 4) v4x3zero) c) (m % 4) = Q c m) :
    (simd3Taps P shared i vts).length = 4 ∧
    ∀ e c, e < 16 → c < 3 →
      laneN (chanGet ((simd3Taps P shared i vts).getD (e / 4) v4x3zero) c)
          (e % 4) =
        laneN (chanGet (vts.getD (e / 4) v4x3zero) c) (e % 4) +
          foldR (fun j t => t + Q c (e + j) * P.kAt i j) 0 K 0 := by
  unfold simd3Taps
  have hres := foldR_inv
    (M := fun j vtsx => vtsx.length = 4 ∧
      ∀ e c, e < 16 → c < 3 →
        laneN (chanGet (vtsx.getD (e / 4) v4x3zero) c) (e % 4) =
          laneN (chanGet (vts.getD (e / 4) v4x3zero) c) (e % 4) +
            foldR (fun j2 t => t + Q c (e + j2) * P.kAt i j2) 0 j 0)
    (fun j vts2 =>
      foldR (fun z vts3 =>
        vts3.set z (fmaT (vts3.getD z v4x3zero)
          (extWindow shared ((z * 4 + j) / 4) ((z * 4 + j) % 4))
          (vdupN (P.kAt i j)))) 0 4 vts2)
    0 K vts
    ⟨hlen4, fun e c he hc => (add_zero _).symm⟩
    (fun j vtsx hj1 hj2 hM => by
      obtain ⟨hvlen, hvlane⟩ := hM
      obtain ⟨hslen, hsget⟩ := foldR_set_reg
        (fun z t => fmaT t
          (extWindow shared ((z * 4 + j) / 4) ((z * 4 + j) % 4))
          (vdupN (P.kAt i j))) 4 vtsx
      refine ⟨by rw [hslen, hvlen], ?_⟩
      intro e c he hc
      rw [hsget (e / 4), if_pos ⟨by omega, by rw [hvlen]; omega⟩,
        laneN_fmaT _ _ _ _ _ (by omega),
        extWindow_lane shared ((e / 4 * 4 + j) / 4) ((e / 4 * 4 + j) % 4) c
          (e % 4) hc (by omega)]
      have hbki := hbk c (e + j) hc (by omega)
      by_cases hcase : (e / 4 * 4 + j) % 4 % 4 + e % 4 < 4
      · rw [if_pos hcase,
          show (e / 4 * 4 + j) % 4 % 4 + e % 4 = (e + j) % 4 from by omega,
          show (e / 4 * 4 + j) / 4 = (e + j) / 4 from by omega,
          hbki, hvlane e c he hc, foldR_succ_right, Nat.zero_add]
        ring
      · rw [if_neg hcase,
          show (e / 4 * 4 + j) % 4 % 4 + e % 4 - 4 = (e + j) % 4
            from by omega,
          show (e / 4 * 4 + j) / 4 + 1 = (e + j) / 4 from by omega,
          hbki, hvlane e c he hc, foldR_succ_right, Nat.zero_add]
        ring)
  obtain ⟨h1, h2⟩ := hres
  refine ⟨h1, fun e c he hc => ?_⟩
  have := h2 e c he hc
  rwa [Nat.zero_add] at this

/- `vdivq_f32` on a stored accumulator lane is `applyDiv`. -/
theorem divStep3_lane (d : Option ℚ) (vts : List V4x3) (z c l : ℕ)
    (hz : z < vts.length) (hl : l < 4) :
    laneN (chanGet ((divStep3 d vts).getD z v4x3zero) c) l =
      applyDiv d (laneN (chanGet (vts.getD z v4x3zero) c) l) := by
  match d with
  | none => rfl
  | some dv =>
    show laneN (chanGet ((vts.map _).getD z v4x3zero) c) l = _
    rw [List.getD_eq_getElem?_getD, List.getElem?_map,
      List.getElem?_eq_getElem hz,
      List.getD_eq_getElem?_getD, List.getElem?_eq_getElem hz]
    rcases c with _ | _ | c <;>
      · unfold laneN applyDiv
        rw [dif_pos hl, dif_pos hl]
        rfl

theorem store16_flat (vts : List V4x3) (base : ℕ) (dst : List ℕ) :
    store16 vts base dst = foldR (fun k dst =>
      dst.set (base + k / C * C + k % C)
        (satPack (laneN (chanGet (vts.getD (k / C / 4) v4x3zero) (k % C))
          (k / C % 4)))) 0 48 dst :=
  rfl

theorem store16_length (vts : List V4x3) (base : ℕ) (dst : List ℕ) :
    (store16 vts base dst).length = dst.length := by
  rw [store16_flat]
  exact foldR_set_length _ _ _ _

theorem store16_getD (vts : List V4x3) (base : ℕ) (dst : List ℕ)
    (idx : ℕ) :
    (store16 vts base dst).getD idx 0 =
      if base ≤ idx ∧ idx < base + 16 * C ∧ idx < dst.length then
        satPack (laneN (chanGet (vts.getD ((idx - base) / C / 4) v4x3zero)
          ((idx - base) % C)) ((idx - base) / C % 4))
      else dst.getD idx 0 := by
  have hCC : (C : ℕ) = 3 := rfl
  rw [store16_flat]
  simp only [hCC]
  by_cases hin : base ≤ idx ∧ idx < base + 16 * 3
  · obtain ⟨h1, h2⟩ := hin
    have hisk : base + (idx - base) / 3 * 3 + (idx - base) % 3 = idx := by
      omega
    rw [foldR_set_getD_hit _ _ 48 dst idx (idx - base) (by omega)
      (by omega) (fun k2 hk2 hkk2 => by omega)]
    by_cases hl : idx < dst.length
    · rw [if_pos hl, if_pos ⟨h1, by omega, hl⟩]
    · rw [if_neg hl, if_neg (by omega)]
  · rw [foldR_set_getD_miss _ _ 48 dst idx (fun k hk => by omega),
      if_neg (by omega)]

/- In the peel region (at or right of `simd3End`) the `simd3` contract byte
is the shared scalar formula. -/
theorem spec3At_peel {K : ℕ} (P : ConvKernel K) (src : RgbImage)
    {x y idx : ℕ} (hx1 : K / 2 ≤ x) (hx2 : x + K / 2 < src.width)
    (hy1 : K / 2 ≤ y) (hy2 : y + K / 2 < src.height)
    (hxe : simd3End K src.width ≤ x)
    (hb1 : y * src.width * C + x * C ≤ idx)
    (hb2 : idx < y * src.width * C + x * C + C) :
    spec3At P src idx =
      specPix P src x y (idx - (y * src.width * C + x * C)) := by
  obtain ⟨c, hc, rfl⟩ : ∃ c, c < C ∧ idx = y * src.width * C + x * C + c :=
    ⟨idx - (y * src.width * C + x * C), by omega, by omega⟩
  obtain ⟨e1, e2, e3⟩ := idx_decomp (w := src.width) (y := y)
    (show x < src.width by omega) hc
  unfold spec3At
  simp only [e1, e2, e3]
  rw [if_pos ⟨hy1, hy2, hx1, hx2⟩, if_neg (by omega)]
  congr 1
  omega

/- Inside an aligned 16-wide group left of `simd3End`, the `simd3` contract
byte is the group's `pix3` value. -/
theorem spec3At_block16 {K : ℕ} (P : ConvKernel K) (src : RgbImage)
    {kb y idx : ℕ}
    (hx3 : K / 2 + 16 * kb + 15 + K / 2 < src.width)
    (hy1 : K / 2 ≤ y) (hy2 : y + K / 2 < src.height)
    (hxe : K / 2 + 16 * kb + 16 ≤ simd3End K src.width)
    (hb1 : y * src.width * C + (K / 2 + 16 * kb) * C ≤ idx)
    (hb2 : idx < y * src.width * C + (K / 2 + 16 * kb) * C + 16 * C) :
    spec3At P src idx = pix3 P src (K / 2 + 16 * kb) y
      ((idx - (y * src.width * C + (K / 2 + 16 * kb) * C)) / C)
      ((idx - (y * src.width * C + (K / 2 + 16 * kb) * C)) % C) := by
  obtain ⟨q, hq_def⟩ : ∃ q,
      (idx - (y * src.width * C + (K / 2 + 16 * kb) * C)) / C = q := ⟨_, rfl⟩
  obtain ⟨r, hr_def⟩ : ∃ r,
      (idx - (y * src.width * C + (K / 2 + 16 * kb) * C)) % C = r := ⟨_, rfl⟩
  rw [hq_def, hr_def]
  have h1 := Nat.div_add_mod
    (idx - (y * src.width * C + (K / 2 + 16 * kb) * C)) C
  rw [hq_def, hr_def] at h1
  have hr3 : r < C := hr_def ▸ Nat.mod_lt _ (by decide)
  have hC3 : (C : ℕ) = 3 := rfl
  rw [hC3] at h1 hr3
  have hb13 : y * src.width * 3 + (K / 2 + 16 * kb) * 3 ≤ idx := by
    rw [hC3] at hb1; exact hb1
  have hb23 : idx < y * src.width * 3 + (K / 2 + 16 * kb) * 3 + 16 * 3 := by
    rw [hC3] at hb2; exact hb2
  have hq16 : q < 16 := by omega
  have hidx : idx = y * src.width * C + (K / 2 + 16 * kb + q) * C + r := by
    have e : (K / 2 + 16 * kb + q) * 3 = (K / 2 + 16 * kb) * 3 + 3 * q := by
      ring
    simp only [hC3]
    omega
  rw [hidx]
  obtain ⟨e1, e2, e3⟩ := idx_decomp (w := src.width) (y := y)
    (show K / 2 + 16 * kb + q < src.width by omega) (show r < C by omega)
  unfold spec3At
  simp only [e1, e2, e3]
  rw [if_pos ⟨hy1, hy2, by omega, by omega⟩, if_pos (by omega),
    show K / 2 + (K / 2 + 16 * kb + q - K / 2) / 16 * 16 = K / 2 + 16 * kb
      from by omega,
    show (K / 2 + 16 * kb + q - K / 2) % 16 = q from by omega]

/- One 16-column group of `simd3`: the 48 bytes of output columns
`x..x+15` receive the `pix3` values (including the column-offset bug of the
wide bank loads), everything else is untouched. -/
theorem simdLoop3_eq {K : ℕ} (P : ConvKernel K) (src : RgbImage) (x y : ℕ)
    (dst : List ℕ) (hodd : K % 2 = 1)
    (hx1 : K / 2 ≤ x) (hx3 : x + 15 + K / 2 < src.width)
    (hy1 : K / 2 ≤ y) (hy2 : y + K / 2 < src.height)
    (hlen : src.content.length = src.height * src.width * C) :
    ∃ dst2, simdLoop3 P src x y dst = some dst2 ∧ dst2.length = dst.length ∧
      ∀ idx, dst2.getD idx 0 =
        if y * src.width * C + x * C ≤ idx ∧
            idx < y * src.width * C + (x + 16) * C ∧ idx < dst.length then
          pix3 P src x y ((idx - (y * src.width * C + x * C)) / C)
            ((idx - (y * src.width * C + x * C)) % C)
        else dst.getD idx 0 := by
  have hCC : (C : ℕ) = 3 := rfl
  obtain ⟨vtsF, hfold, hlenF, hlaneF⟩ := foldRM_inv
    (M := fun i (vts : List V4x3) => vts.length = 4 ∧
      ∀ e c, e < 16 → c < 3 →
        laneN (chanGet (vts.getD (e / 4) v4x3zero) c) (e % 4) =
          acc3UpTo P src x y e c i)
    (fun i (vts : List V4x3) => do
      let shared ← bank3load src
        ((y - K / 2 + i) * src.width * C + (x - K / 2) * C)
        (K / 2 * 2 + 16) (K / 2 * 2 + 16) 0
        (List.replicate (s3len K) v4x3zero)
      pure (simd3Taps P shared i vts))
    0 K (List.replicate 4 v4x3zero)
    ⟨List.length_replicate _ _, fun e c he hc => by
      rw [List.getD_eq_getElem?_getD, List.getElem?_replicate,
        if_pos (by omega)]
      show laneN (chanGet v4x3zero c) (e % 4) = _
      rw [laneN_v4x3zero]
      rfl⟩
    (fun i vts hi1 hi2 hM => by
      obtain ⟨hvlen, hvlane⟩ := hM
      obtain ⟨shared, hbank, hbklen, hbkpres, hbkprop⟩ := bank3load_eq src
        ((y - K / 2 + i) * src.width * C + (x - K / 2) * C)
        (K / 2 * 2 + 16) (K / 2 * 2 + 16) 0
        (List.replicate (s3len K) v4x3zero)
        le_rfl (by omega)
        (by rw [List.length_replicate]; unfold s3len; omega)
        (fun p c hp hc => by
          have h1 := Nat.add_mul (x - K / 2) p C
          have e : (y - K / 2 + i) * src.width * C + (x - K / 2) * C +
              p * C + c =
              (y - K / 2 + i) * src.width * C + (x - K / 2 + p) * C + c := by
            omega
          rw [e, hlen]
          exact idx_lt_total (by omega) (by omega) hc)
      obtain ⟨htlen, htlane⟩ := simd3Taps_eq P shared i vts hvlen
        (fun c m => srcQ src
          ((y - K / 2 + i) * src.width * C + (x - K / 2) * C +
            lane3Pix (K / 2 * 2 + 16) (K / 2 * 2 + 16) 0 m * C + c))
        (fun c m hc hm => hbkprop c m hc (by omega) (by omega))
      refine ⟨simd3Taps P shared i vts, ?_, htlen, ?_⟩
      · show (bank3load src _ _ _ _ _).bind _ = _
        rw [hbank]
        rfl
      · intro e c he hc
        rw [htlane e c he hc, hvlane e c he hc, acc3UpTo_succ]
        congr 1
        unfold acc3Row
        apply foldR_congr
        intro j t hj1 hj2
        dsimp only
        rw [show (y - K / 2 + i) * src.width * C + (x - K / 2) * C +
            lane3Pix (K / 2 * 2 + 16) (K / 2 * 2 + 16) 0 (e + j) * C + c =
            (y - K / 2 + i) * src.width * C +
              (x - K / 2 + lane3Pix (K / 2 * 2 + 16) (K / 2 * 2 + 16) 0
                (e + j)) * C + c from by
          have h1 := Nat.add_mul (x - K / 2)
            (lane3Pix (K / 2 * 2 + 16) (K / 2 * 2 + 16) 0 (e + j)) C
          omega])
  refine ⟨store16 (divStep3 P.div vtsF) (y * src.width * C + x * C) dst,
    ?_, ?_, ?_⟩
  · unfold simdLoop3
    rw [hfold]
    rfl
  · rw [store16_length]
  · intro idx
    rw [store16_getD]
    have hax : y * src.width * C + (x + 16) * C =
        y * src.width * C + x * C + 16 * C := by ring
    by_cases hin : y * src.width * C + x * C ≤ idx ∧
        idx < y * src.width * C + x * C + 16 * C
    · have he16 : (idx - (y * src.width * C + x * C)) / C < 16 := by
        rw [Nat.div_lt_iff_lt_mul (by decide : 0 < (C : ℕ))]
        omega
      have hc3 : (idx - (y * src.width * C + x * C)) % C < 3 := by
        have := Nat.mod_lt (idx - (y * src.width * C + x * C))
          (show 0 < (C : ℕ) by decide)
        omega
      by_cases hl : idx < dst.length
      · rw [if_pos ⟨hin.1, hin.2, hl⟩, if_pos ⟨hin.1, by omega, hl⟩,
          divStep3_lane P.div vtsF _ _ _ (by rw [hlenF]; omega) (by omega),
          hlaneF _ _ he16 hc3, Nat.zero_add, ← acc3_eq_upTo]
        rfl
      · rw [if_neg (by tauto), if_neg (by omega)]
    · rw [if_neg (by tauto), if_neg (by omega)]

/- `simd3` computes its own contract image `spec3Image`: `pix3` values in
the aligned 16-wide groups, the shared scalar formula in the peel columns,
zero on the border. -/
theorem simd3_spec {K : ℕ} (P : ConvKernel K) (src : RgbImage)
    (hodd : K % 2 = 1)
    (hw : 2 * (K / 2) ≤ src.width) (hh : K / 2 ≤ src.height)
    (hlen : src.content.length = src.height * src.width * C) :
    simd3 P src = some (spec3Image P src) := by
  have hwh : K / 2 ≤ src.width := by omega
  have hmle : (src.width - 2 * (K / 2)) % 16 ≤ src.width - 2 * (K / 2) :=
    Nat.mod_le _ _
  have hse : simd3End K src.width =
      src.width - K / 2 - (src.width - 2 * (K / 2)) % 16 := rfl
  unfold simd3
  rw [show csub src.width (K / 2) = some (src.width - K / 2) from by
        unfold csub; rw [if_pos hwh],
      show csub src.height (K / 2) = some (src.height - K / 2) from by
        unfold csub; rw [if_pos hh],
      show csub src.width (2 * (K / 2)) =
          some (src.width - 2 * (K / 2)) from by
        unfold csub; rw [if_pos hw]]
  show (csub (src.width - K / 2) ((src.width - 2 * (K / 2)) % 16)).bind
      (fun simdEnd =>
        (foldRM (fun y dst => do
            let dst ← foldSM (fun x dst => simdLoop3 P src x y dst) 16
              (K / 2) ((simdEnd - K / 2 + 15) / 16) dst
            foldRM (fun x dst => peelLoop P src x y dst)
              simdEnd ((src.width - K / 2) - simdEnd) dst)
          (K / 2) ((src.height - K / 2) - K / 2)
          (List.replicate (src.height * src.width * C) 0)).bind
          (fun dst => some (RgbImage.from_raw dst src.height src.width)))
    = some (spec3Image P src)
  rw [show csub (src.width - K / 2) ((src.width - 2 * (K / 2)) % 16) =
      some (src.width - K / 2 - (src.width - 2 * (K / 2)) % 16) from by
    unfold csub; rw [if_pos (by omega)]]
  show (foldRM (fun y dst => do
      let dst ← foldSM (fun x dst => simdLoop3 P src x y dst) 16
        (K / 2) ((src.width - K / 2 - (src.width - 2 * (K / 2)) % 16 -
          K / 2 + 15) / 16) dst
      foldRM (fun x dst => peelLoop P src x y dst)
        (src.width - K / 2 - (src.width - 2 * (K / 2)) % 16)
        ((src.width - K / 2) -
          (src.width - K / 2 - (src.width - 2 * (K / 2)) % 16)) dst)
      (K / 2) ((src.height - K / 2) - K / 2)
      (List.replicate (src.height * src.width * C) 0)).bind
      (fun dst => some (RgbImage.from_raw dst src.height src.width))
    = some (spec3Image P src)
  rw [vec_driver_spec (spec3At P src) src.width src.height (K / 2) 16
    ((src.width - K / 2 - (src.width - 2 * (K / 2)) % 16 - K / 2 + 15) / 16)
    (fun x y dst => simdLoop3 P src x y dst)
    (fun x y dst => peelLoop P src x y dst)
    hw hh (by omega)
    (fun k y dst hkn hy1 hy2 hxw hdlen => by
      obtain ⟨dst2, h1, h2, h3⟩ := simdLoop3_eq P src (K / 2 + 16 * k) y dst
        hodd (by omega) (by omega) hy1 hy2 hlen
      refine ⟨dst2, h1, h2, fun idx => ?_⟩
      rw [h3 idx]
      by_cases hc : y * src.width * C + (K / 2 + 16 * k) * C ≤ idx ∧
          idx < y * src.width * C + (K / 2 + 16 * k + 16) * C ∧
          idx < dst.length
      · rw [if_pos hc, if_pos hc,
          spec3At_block16 P src (by omega) hy1 hy2
            (by rw [hse]; omega) hc.1
            (by
              have hax : y * src.width * C + (K / 2 + 16 * k + 16) * C =
                  y * src.width * C + (K / 2 + 16 * k) * C + 16 * C := by
                ring
              omega)]
      · rw [if_neg hc, if_neg hc])
    (fun x y dst hy1 hy2 hxs hxw hdlen => by
      have hx1 : K / 2 ≤ x := by omega
      refine ⟨writePix P src x y dst,
        peelLoop_eq P src x y hx1 hxw hy1 hy2 hlen dst,
        writePix_length P src x y dst, fun idx => ?_⟩
      rw [writePix_getD]
      by_cases hc : y * src.width * C + x * C ≤ idx ∧
          idx < y * src.width * C + x * C + C ∧ idx < dst.length
      · rw [if_pos hc, if_pos hc,
          spec3At_peel P src hx1 hxw hy1 hy2 (by rw [hse]; omega)
            hc.1 hc.2.1]
      · rw [if_neg hc, if_neg hc])
    (fun idx hidx hreg => by
      simp only [spec3At]
      rw [if_neg (by omega)])]
  rfl

theorem range_map_getD (n : ℕ) (f : ℕ → ℕ) (idx : ℕ) (h : idx < n) :
    ((List.range n).map f).getD idx 0 = f idx := by
  rw [List.getD_eq_getElem?_getD, List.getElem?_map, List.getElem?_range h]
  rfl

/- ------------------------------------------------------------------ -/
/- The claims. -/

set_option maxRecDepth 100000
set_option maxHeartbeats 4000000

/-- C10: a weight list holding a NaN with averaging requested constructs
successfully: the sum is NaN, the `sum == 0.` check is false on NaN, and the
kernel carries the NaN normalizer. -/
theorem C10_nan_sum_passes_zero_check :
    ConvKernelF.new 3 (FP32.nan :: List.replicate 8 (FP32.num 0)) true =
      Except.ok ⟨FP32.nan :: List.replicate 8 (FP32.num 0), some FP32.nan⟩ ∧
    fpSum (FP32.nan :: List.replicate 8 (FP32.num 0)) = FP32.nan ∧
    fpBeq FP32.nan (FP32.num 0) = false :=
  ⟨rfl, rfl, rfl⟩

/-- C4: kernel construction fails exactly on the three conditions, in check
order, each with its own distinct error; on valid inputs it succeeds and
returns exactly the given weights with the averaging sum as normalizer. -/
theorem C4_construction_errors (K : ℕ) (ws : List FP32) (avg : Bool) :
    (ConvKernelF.new K ws avg = Except.error KernelErr.invalidShape ↔
      ws.length ≠ K * K) ∧
    (ConvKernelF.new K ws avg = Except.error KernelErr.invalidSize ↔
      ws.length = K * K ∧ (K % 2 = 0 ∨ K < 3)) ∧
    (ConvKernelF.new K ws avg = Except.error KernelErr.zeroNormalizer ↔
      ws.length = K * K ∧ ¬ (K % 2 = 0 ∨ K < 3) ∧ avg = true ∧
        fpBeq (fpSum ws) (FP32.num 0) = true) ∧
    ((∃ P, ConvKernelF.new K ws avg = Except.ok P) ↔
      ws.length = K * K ∧ ¬ (K % 2 = 0 ∨ K < 3) ∧
        (avg = true → fpBeq (fpSum ws) (FP32.num 0) = false)) ∧
    (∀ P, ConvKernelF.new K ws avg = Except.ok P →
      P.inner = ws ∧ P.div = if avg then some (fpSum ws) else none) := by
  unfold ConvKernelF.new
  by_cases h1 : ws.length ≠ K * K
  · rw [if_pos h1]
    refine ⟨⟨fun _ => h1, fun _ => rfl⟩, ?_, ?_, ?_, ?_⟩
    · constructor
      · intro h
        simp at h
      · intro h
        exact absurd h.1 h1
    · constructor
      · intro h
        simp at h
      · intro h
        exact absurd h.1 h1
    · constructor
      · rintro ⟨P, hP⟩
        simp at hP
      · intro h
        exact absurd h.1 h1
    · intro P hP
      simp at hP
  · rw [if_neg h1]
    have h1e : ws.length = K * K := by omega
    by_cases h2 : K % 2 = 0 ∨ K < 3
    · rw [if_pos h2]
      refine ⟨?_, ⟨fun _ => ⟨h1e, h2⟩, fun _ => rfl⟩, ?_, ?_, ?_⟩
      · constructor
        · intro h
          simp at h
        · intro h
          exact absurd h1e h
      · constructor
        · intro h
          simp at h
        · intro h
          exact absurd h2 h.2.1
      · constructor
        · rintro ⟨P, hP⟩
          simp at hP
        · intro h
          exact absurd h2 h.2.1
      · intro P hP
        simp at hP
    · rw [if_neg h2]
      by_cases h3 : avg = true
      · rw [if_pos h3]
        by_cases h4 : fpBeq (fpSum ws) (FP32.num 0) = true
        · rw [if_pos h4]
          refine ⟨?_, ?_, ⟨fun _ => ⟨h1e, h2, h3, h4⟩, fun _ => rfl⟩, ?_, ?_⟩
          · constructor
            · intro h
              simp at h
            · intro h
              exact absurd h1e h
          · constructor
            · intro h
              simp at h
            · intro h
              exact absurd h.2 h2
          · constructor
            · rintro ⟨P, hP⟩
              simp at hP
            · intro h
              exact absurd h4 (by simp [h.2.2 h3])
          · intro P hP
            simp at hP
        · rw [if_neg h4]
          refine ⟨?_, ?_, ?_, ?_, ?_⟩
          · constructor
            · intro h
              simp at h
            · intro h
              exact absurd h1e h
          · constructor
            · intro h
              simp at h
            · intro h
              exact absurd h.2 h2
          · constructor
            · intro h
              simp at h
            · intro h
              exact absurd h.2.2.2 (by simp [h4])
          · constructor
            · intro _
              exact ⟨h1e, h2, fun _ => by simpa using h4⟩
            · intro _
              exact ⟨⟨ws, some (fpSum ws)⟩, rfl⟩
          · intro P hP
            simp only [Except.ok.injEq] at hP
            rw [← hP, h3]
            exact ⟨rfl, rfl⟩
      · rw [if_neg h3]
        refine ⟨?_, ?_, ?_, ?_, ?_⟩
        · constructor
          · intro h
            simp at h
          · intro h
            exact absurd h1e h
        · constructor
          · intro h
            simp at h
          · intro h
            exact absurd h.2 h2
        · constructor
          · intro h
            simp at h
          · intro h
            exact absurd h.2.2.1 h3
        · constructor
          · intro _
            exact ⟨h1e, h2, fun ha => absurd ha h3⟩
          · intro _
            exact ⟨⟨ws, none⟩, rfl⟩
        · intro P hP
          simp only [Except.ok.injEq] at hP
          rw [← hP, if_neg h3]
          exact ⟨rfl, rfl⟩

/-- C2: an interior byte of `naive1`'s output is exactly the accumulated
neighborhood sum, normalised when a divisor is present, clamped to [0, 255]
and truncated toward zero (`f32u8` is floor of the clamped value). -/
theorem C2_naive1_interior {K : ℕ} (P : ConvKernel K) (src out : RgbImage)
    (x y c : ℕ)
    (hw : K / 2 ≤ src.width) (hh : K / 2 ≤ src.height)
    (hlen : src.content.length = src.height * src.width * C)
    (hx1 : K / 2 ≤ x) (hx2 : x + K / 2 < src.width)
    (hy1 : K / 2 ≤ y) (hy2 : y + K / 2 < src.height) (hc : c < 3)
    (hrun : naive1 P src = some out) :
    out.content.getD (y * src.width * C + x * C + c) 0 =
      f32u8 (applyDiv P.div (accPix P src x y c)) := by
  rw [naive1_spec P src hw hh hlen] at hrun
  have hout : specImage P src = out := Option.some.inj hrun
  subst hout
  show ((List.range _).map (specAt P src)).getD _ 0 = _
  have hcC : c < C := hc
  rw [range_map_getD _ _ _ (idx_lt_total (by omega) (by omega) hcC),
    specAt_block P src hx1 hx2 hy1 hy2 (Nat.le_add_right _ c)
      (Nat.add_lt_add_left hcC _),
    show y * src.width * C + x * C + c - (y * src.width * C + x * C) = c
      from by omega]
  rfl

/-- C2 witness: the 3x3 averaging box filter on a uniform 3x3 image, at the
single interior pixel, channel 0. -/
theorem C2_naive1_interior_witness :
    (specImage box3 img3).content.getD (1 * img3.width * C + 1 * C + 0) 0 =
      f32u8 (applyDiv box3.div (accPix box3 img3 1 1 0)) :=
  C2_naive1_interior box3 img3 (specImage box3 img3) 1 1 0 (by decide)
    (by decide) (by decide) (by decide) (by decide) (by decide) (by decide)
    (by decide) (naive1_spec box3 img3 (by decide) (by decide) (by decide))

/-- C3: for every strategy, every byte of a pixel within `half` of any edge
is 0: the border is never computed, only left at its zero initialisation. -/
theorem C3_border_zero {K : ℕ} (P : ConvKernel K) (src : RgbImage)
    (hodd : K % 2 = 1) (hK : 3 ≤ K)
    (hw : 2 * (K / 2) ≤ src.width) (hh : K / 2 ≤ src.height)
    (hlen : src.content.length = src.height * src.width * C) :
    ∀ S ∈ allStrategies K, ∃ out, S P src = some out ∧
      ∀ idx, idx < src.height * src.width * C →
        (idx / (src.width * C) < K / 2 ∨
         src.height ≤ idx / (src.width * C) + K / 2 ∨
         idx % (src.width * C) / C < K / 2 ∨
         src.width ≤ idx % (src.width * C) / C + K / 2) →
        out.content.getD idx 0 = 0 := by
  intro S hS
  have hK1 : 1 ≤ K := by omega
  have hw1 : K / 2 ≤ src.width := by omega
  have hb1 : ∀ idx, idx < src.height * src.width * C →
      (idx / (src.width * C) < K / 2 ∨
       src.height ≤ idx / (src.width * C) + K / 2 ∨
       idx % (src.width * C) / C < K / 2 ∨
       src.width ≤ idx % (src.width * C) / C + K / 2) →
      (specImage P src).content.getD idx 0 = 0 := by
    intro idx hidx hb
    show ((List.range _).map (specAt P src)).getD idx 0 = 0
    rw [range_map_getD _ _ _ hidx]
    simp only [specAt]
    rw [if_neg (by omega)]
  have hb3 : ∀ idx, idx < src.height * src.width * C →
      (idx / (src.width * C) < K / 2 ∨
       src.height ≤ idx / (src.width * C) + K / 2 ∨
       idx % (src.width * C) / C < K / 2 ∨
       src.width ≤ idx % (src.width * C) / C + K / 2) →
      (spec3Image P src).content.getD idx 0 = 0 := by
    intro idx hidx hb
    show ((List.range _).map (spec3At P src)).getD idx 0 = 0
    rw [range_map_getD _ _ _ hidx]
    simp only [spec3At]
    rw [if_neg (by omega)]
  simp only [allStrategies, List.mem_cons, List.not_mem_nil, or_false] at hS
  rcases hS with rfl | rfl | rfl | rfl | rfl
  · exact ⟨specImage P src, naive1_spec P src hw1 hh hlen, hb1⟩
  · exact ⟨specImage P src, naive2_spec P src hw1 hh hlen, hb1⟩
  · exact ⟨specImage P src, simd1_spec P src hK1 hw hh hlen, hb1⟩
  · exact ⟨specImage P src, simd2_spec P src hK1 hw hh hlen, hb1⟩
  · exact ⟨spec3Image P src, simd3_spec P src hodd hw hh hlen, hb3⟩

/-- C3 witness: `naive1` with the 3x3 box kernel on a uniform 4x4 image,
whose pixels are all border. -/
theorem C3_border_zero_witness :
    ∃ out, naive1 box3 img4 = some out ∧
      ∀ idx, idx < img4.height * img4.width * C →
        (idx / (img4.width * C) < 3 / 2 ∨
         img4.height ≤ idx / (img4.width * C) + 3 / 2 ∨
         idx % (img4.width * C) / C < 3 / 2 ∨
         img4.width ≤ idx % (img4.width * C) / C + 3 / 2) →
        out.content.getD idx 0 = 0 :=
  C3_border_zero box3 img4 (by decide) (by decide) (by decide) (by decide)
    (by decide) naive1 (by simp [allStrategies])

/-- C5 (amended): with a valid kernel, a well-formed image, width at least
`2*(K/2)` and height at least `K/2`, every strategy returns normally.  As
stated the claim is false: see the counterexample theorem. -/
theorem C5_no_runtime_failure {K : ℕ} (P : ConvKernel K) (src : RgbImage)
    (hodd : K % 2 = 1) (hK : 3 ≤ K)
    (hw : 2 * (K / 2) ≤ src.width) (hh : K / 2 ≤ src.height)
    (hlen : src.content.length = src.height * src.width * C) :
    ∀ S ∈ allStrategies K, ∃ out, S P src = some out := by
  intro S hS
  have hK1 : 1 ≤ K := by omega
  have hw1 : K / 2 ≤ src.width := by omega
  simp only [allStrategies, List.mem_cons, List.not_mem_nil, or_false] at hS
  rcases hS with rfl | rfl | rfl | rfl | rfl
  · exact ⟨specImage P src, naive1_spec P src hw1 hh hlen⟩
  · exact ⟨specImage P src, naive2_spec P src hw1 hh hlen⟩
  · exact ⟨specImage P src, simd1_spec P src hK1 hw hh hlen⟩
  · exact ⟨specImage P src, simd2_spec P src hK1 hw hh hlen⟩
  · exact ⟨spec3Image P src, simd3_spec P src hodd hw hh hlen⟩

/-- C5 counterexample: on the well-formed 1-pixel image the three simd
strategies fail with the smallest valid kernel (the `w - 2*half`
subtraction underflows), and even the reference strategies fail with a 5x5
kernel (`w - half` underflows), so strategy calls can fail at runtime on
images smaller than the kernel. -/
theorem C5_small_image_panics :
    simd1 box3 img1 = none ∧ simd2 box3 img1 = none ∧
    simd3 box3 img1 = none ∧ naive1 kern5 img1 = none ∧
    naive2 kern5 img1 = none :=
  ⟨rfl, rfl, rfl, rfl, rfl⟩

/-- C5 witness: the amended statement on the minimal `2*half+1`-wide image
(one computable interior pixel). -/
theorem C5_no_runtime_failure_witness :
    ∃ out, naive1 box3 img3 = some out :=
  C5_no_runtime_failure box3 img3 (by decide) (by decide) (by decide)
    (by decide) (by decide) naive1 (by simp [allStrategies])

/-- C9: for every strategy the returned image keeps the source's height and
width and its freshly built raw content has length `height * width * 3`. -/
theorem C9_output_shape {K : ℕ} (P : ConvKernel K) (src : RgbImage)
    (hodd : K % 2 = 1) (hK : 3 ≤ K)
    (hw : 2 * (K / 2) ≤ src.width) (hh : K / 2 ≤ src.height)
    (hlen : src.content.length = src.height * src.width * C) :
    ∀ S ∈ allStrategies K, ∃ out, S P src = some out ∧
      out.height = src.height ∧ out.width = src.width ∧
      out.content.length = src.height * src.width * C := by
  intro S hS
  have hK1 : 1 ≤ K := by omega
  have hw1 : K / 2 ≤ src.width := by omega
  have hshape : (specImage P src).height = src.height ∧
      (specImage P src).width = src.width ∧
      (specImage P src).content.length = src.height * src.width * C := by
    refine ⟨rfl, rfl, ?_⟩
    show ((List.range _).map _).length = _
    rw [List.length_map, List.length_range]
  have hshape3 : (spec3Image P src).height = src.height ∧
      (spec3Image P src).width = src.width ∧
      (spec3Image P src).content.length = src.height * src.width * C := by
    refine ⟨rfl, rfl, ?_⟩
    show ((List.range _).map _).length = _
    rw [List.length_map, List.length_range]
  simp only [allStrategies, List.mem_cons, List.not_mem_nil, or_false] at hS
  rcases hS with rfl | rfl | rfl | rfl | rfl
  · exact ⟨specImage P src, naive1_spec P src hw1 hh hlen, hshape⟩
  · exact ⟨specImage P src, naive2_spec P src hw1 hh hlen, hshape⟩
  · exact ⟨specImage P src, simd1_spec P src hK1 hw hh hlen, hshape⟩
  · exact ⟨specImage P src, simd2_spec P src hK1 hw hh hlen, hshape⟩
  · exact ⟨spec3Image P src, simd3_spec P src hodd hw hh hlen, hshape3⟩

/-- C9 witness: `simd2` with the 3x3 box kernel on the 4x4 image. -/
theorem C9_output_shape_witness :
    ∃ out, simd2 box3 img4 = some out ∧
      out.height = img4.height ∧ out.width = img4.width ∧
      out.content.length = img4.height * img4.width * C :=
  C9_output_shape box3 img4 (by decide) (by decide) (by decide) (by decide)
    (by decide) simd2 (by simp [allStrategies])

theorem getD_map_mul (c : ℚ) (l : List ℚ) (n : ℕ) :
    (l.map (fun w => c * w)).getD n 0 = c * l.getD n 0 := by
  rcases Nat.lt_or_ge n l.length with h | h
  · rw [List.getD_eq_getElem?_getD, List.getElem?_map,
      List.getElem?_eq_getElem h, List.getD_eq_getElem?_getD,
      List.getElem?_eq_getElem h]
    rfl
  · rw [List.getD_eq_getElem?_getD, List.getElem?_map,
      List.getElem?_eq_none h, List.getD_eq_getElem?_getD,
      List.getElem?_eq_none h]
    simp

theorem kAt_scale {K : ℕ} (ws : List ℚ) (N c : ℚ) (i j : ℕ) :
    (⟨ws.map (fun w => c * w), some (c * N)⟩ : ConvKernel K).kAt i j =
      c * (⟨ws, some N⟩ : ConvKernel K).kAt i j := by
  unfold ConvKernel.kAt
  exact getD_map_mul c ws _

theorem accRowUpTo_scale {K : ℕ} (ws : List ℚ) (N c : ℚ) (src : RgbImage)
    (x y cc i m : ℕ) :
    accRowUpTo (⟨ws.map (fun w => c * w), some (c * N)⟩ : ConvKernel K) src
        x y cc i m =
      c * accRowUpTo (⟨ws, some N⟩ : ConvKernel K) src x y cc i m := by
  induction m with
  | zero =>
    show (0 : ℚ) = c * 0
    rw [mul_zero]
  | succ m ih =>
    rw [accRowUpTo_succ, accRowUpTo_succ, ih, kAt_scale]
    ring

theorem accUpTo_scale {K : ℕ} (ws : List ℚ) (N c : ℚ) (src : RgbImage)
    (x y cc m : ℕ) :
    accUpTo (⟨ws.map (fun w => c * w), some (c * N)⟩ : ConvKernel K) src
        x y cc m =
      c * accUpTo (⟨ws, some N⟩ : ConvKernel K) src x y cc m := by
  induction m with
  | zero =>
    show (0 : ℚ) = c * 0
    rw [mul_zero]
  | succ m ih =>
    rw [accUpTo_succ, accUpTo_succ, ih, accRowUpTo_scale]
    ring

theorem specPix_scale {K : ℕ} (ws : List ℚ) (N c : ℚ) (hc : c ≠ 0)
    (src : RgbImage) (x y cc : ℕ) :
    specPix (⟨ws.map (fun w => c * w), some (c * N)⟩ : ConvKernel K) src
        x y cc =
      specPix (⟨ws, some N⟩ : ConvKernel K) src x y cc := by
  unfold specPix
  rw [accPix_eq_upTo, accPix_eq_upTo, accUpTo_scale]
  show f32u8 ((c * accUpTo (⟨ws, some N⟩ : ConvKernel K) src x y cc K) /
    (c * N)) = f32u8 (accUpTo (⟨ws, some N⟩ : ConvKernel K) src x y cc K / N)
  rw [mul_div_mul_left _ _ hc]

theorem specAt_scale {K : ℕ} (ws : List ℚ) (N c : ℚ) (hc : c ≠ 0)
    (src : RgbImage) (idx : ℕ) :
    specAt (⟨ws.map (fun w => c * w), some (c * N)⟩ : ConvKernel K) src idx =
      specAt (⟨ws, some N⟩ : ConvKernel K) src idx := by
  simp only [specAt]
  by_cases hin : K / 2 ≤ idx / (src.width * C) ∧
      idx / (src.width * C) + K / 2 < src.height ∧
      K / 2 ≤ idx % (src.width * C) / C ∧
      idx % (src.width * C) / C + K / 2 < src.width
  · rw [if_pos hin, if_pos hin, specPix_scale ws N c hc]
  · rw [if_neg hin, if_neg hin]

theorem foldR_tap_scale (g k : ℕ → ℚ) (c : ℚ) (m : ℕ) :
    foldR (fun j t => t + g j * (c * k j)) 0 m 0 =
      c * foldR (fun j t => t + g j * k j) 0 m 0 := by
  induction m with
  | zero =>
    show (0 : ℚ) = c * 0
    rw [mul_zero]
  | succ m ih =>
    rw [foldR_succ_right, foldR_succ_right, ih]
    ring

theorem acc3Row_scale {K : ℕ} (ws : List ℚ) (N c : ℚ) (src : RgbImage)
    (gx y e cc i : ℕ) :
    acc3Row (⟨ws.map (fun w => c * w), some (c * N)⟩ : ConvKernel K) src
        gx y e cc i =
      c * acc3Row (⟨ws, some N⟩ : ConvKernel K) src gx y e cc i := by
  unfold acc3Row
  rw [foldR_congr (g := fun j t => t +
      srcQ src ((y - K / 2 + i) * src.width * C +
        (gx - K / 2 + lane3Pix (K / 2 * 2 + 16) (K / 2 * 2 + 16) 0 (e + j))
          * C + cc) *
      (c * (⟨ws, some N⟩ : ConvKernel K).kAt i j))
    (fun j t _ _ => by rw [kAt_scale]), foldR_tap_scale]

theorem acc3UpTo_scale {K : ℕ} (ws : List ℚ) (N c : ℚ) (src : RgbImage)
    (gx y e cc m : ℕ) :
    acc3UpTo (⟨ws.map (fun w => c * w), some (c * N)⟩ : ConvKernel K) src
        gx y e cc m =
      c * acc3UpTo (⟨ws, some N⟩ : ConvKernel K) src gx y e cc m := by
  induction m with
  | zero =>
    show (0 : ℚ) = c * 0
    rw [mul_zero]
  | succ m ih =>
    rw [acc3UpTo_succ, acc3UpTo_succ, ih, acc3Row_scale]
    ring

theorem pix3_scale {K : ℕ} (ws : List ℚ) (N c : ℚ) (hc : c ≠ 0)
    (src : RgbImage) (gx y e cc : ℕ) :
    pix3 (⟨ws.map (fun w => c * w), some (c * N)⟩ : ConvKernel K) src
        gx y e cc =
      pix3 (⟨ws, some N⟩ : ConvKernel K) src gx y e cc := by
  unfold pix3
  rw [acc3_eq_upTo, acc3_eq_upTo, acc3UpTo_scale]
  show satPack ((c * acc3UpTo (⟨ws, some N⟩ : ConvKernel K) src gx y e cc K) /
    (c * N)) = satPack (acc3UpTo (⟨ws, some N⟩ : ConvKernel K) src gx y e cc K / N)
  rw [mul_div_mul_left _ _ hc]

theorem spec3At_scale {K : ℕ} (ws : List ℚ) (N c : ℚ) (hc : c ≠ 0)
    (src : RgbImage) (idx : ℕ) :
    spec3At (⟨ws.map (fun w => c * w), some (c * N)⟩ : ConvKernel K) src idx =
      spec3At (⟨ws, some N⟩ : ConvKernel K) src idx := by
  simp only [spec3At]
  by_cases hin : K / 2 ≤ idx / (src.width * C) ∧
      idx / (src.width * C) + K / 2 < src.height ∧
      K / 2 ≤ idx % (src.width * C) / C ∧
      idx % (src.width * C) / C + K / 2 < src.width
  · rw [if_pos hin, if_pos hin]
    by_cases hend : idx % (src.width * C) / C < simd3End K src.width
    · rw [if_pos hend, if_pos hend, pix3_scale ws N c hc]
    · rw [if_neg hend, if_neg hend, specPix_scale ws N c hc]
  · rw [if_neg hin, if_neg hin]

/-- C6 (amended): in exact arithmetic, scaling every weight of an averaging
kernel by a nonzero constant `c` (the normalizer scaling along with the
weight sum) leaves every strategy's output unchanged: accumulation and
division both scale by `c` and cancel.  As stated the claim is false of the
program, whose f32 accumulation and whose stored normalizer (the rounded
f32 sum of the scaled weights, not exactly `c * N`) round differently: see
the f32 counterexample theorem. -/
theorem C6_scaling {K : ℕ} (ws : List ℚ) (N c : ℚ) (hc : c ≠ 0) (hN : N ≠ 0)
    (src : RgbImage) (hodd : K % 2 = 1) (hK : 3 ≤ K)
    (hw : 2 * (K / 2) ≤ src.width) (hh : K / 2 ≤ src.height)
    (hlen : src.content.length = src.height * src.width * C) :
    ∀ S ∈ allStrategies K,
      S (⟨ws.map (fun w => c * w), some (c * N)⟩ : ConvKernel K) src =
        S (⟨ws, some N⟩ : ConvKernel K) src := by
  intro S hS
  have hK1 : 1 ≤ K := by omega
  have hw1 : K / 2 ≤ src.width := by omega
  have hspec : specImage
      (⟨ws.map (fun w => c * w), some (c * N)⟩ : ConvKernel K) src =
      specImage (⟨ws, some N⟩ : ConvKernel K) src := by
    unfold specImage
    congr 1
    apply List.map_congr_left
    intro idx _
    exact specAt_scale ws N c hc src idx
  have hspec3 : spec3Image
      (⟨ws.map (fun w => c * w), some (c * N)⟩ : ConvKernel K) src =
      spec3Image (⟨ws, some N⟩ : ConvKernel K) src := by
    unfold spec3Image
    congr 1
    apply List.map_congr_left
    intro idx _
    exact spec3At_scale ws N c hc src idx
  simp only [allStrategies, List.mem_cons, List.not_mem_nil, or_false] at hS
  rcases hS with rfl | rfl | rfl | rfl | rfl
  · rw [naive1_spec _ src hw1 hh hlen, naive1_spec _ src hw1 hh hlen, hspec]
  · rw [naive2_spec _ src hw1 hh hlen, naive2_spec _ src hw1 hh hlen, hspec]
  · rw [simd1_spec _ src hK1 hw hh hlen, simd1_spec _ src hK1 hw hh hlen,
      hspec]
  · rw [simd2_spec _ src hK1 hw hh hlen, simd2_spec _ src hK1 hw hh hlen,
      hspec]
  · rw [simd3_spec _ src hodd hw hh hlen, simd3_spec _ src hodd hw hh hlen,
      hspec3]

/-- C6 witness: doubling the 3x3 averaging box kernel (normalizer 18) gives
the same `naive1` output on the 4x4 image as the original (normalizer 9). -/
theorem C6_scaling_witness :
    naive1 (⟨(List.replicate 9 (1 : ℚ)).map (fun w => 2 * w),
      some (2 * 9)⟩ : ConvKernel 3) img4 =
    naive1 (⟨List.replicate 9 (1 : ℚ), some 9⟩ : ConvKernel 3) img4 :=
  C6_scaling (List.replicate 9 (1 : ℚ)) 9 2 (by norm_num) (by norm_num)
    img4 (by decide) (by decide) (by decide) (by decide) (by decide)
    naive1 (by simp [allStrategies])

/-- C6 counterexample (f32 rounding): scaling is NOT byte-exact in the
program's f32 arithmetic.  Scaling the valid 3x3 all-ones averaging kernel
by `c = 0.1f32` gives nine `0.1f` weights (each the exact f32 product
`0.1f * 1.0`), and the constructed kernel stores as its normalizer their
f32 sum `0.90000010` (`120795968 * 2^-27`), which is not the exact scale
`9 * 0.1f = 120795957 * 2^-27` of the original normalizer.  On the
well-formed uniform 3x3 image of value 10 the original kernel computes
`90 / 9 = 10` exactly, while the scaled kernel accumulates exactly 9
(each tap `10 * 0.1f` rounds to `1.0`) and divides by `0.90000010`, which
rounds to `9.9999990...` (`10485759 * 2^-20`) and truncates to byte 9
instead of 10 at every interior channel. -/
theorem C6_f32_rounding :
    box3s.inner = box3.inner.map (fun wt => fmul c01 wt) ∧
    box3s.div = some (fsumL box3s.inner) ∧
    fsumL box3s.inner = 120795968 / 2 ^ 27 ∧
    (9 : ℚ) * c01 = 120795957 / 2 ^ 27 ∧
    fdiv 9 (fsumL (List.replicate 9 c01)) = 10485759 / 2 ^ 20 ∧
    naive1F box3 (constImage 10 3 3) = some
      ⟨[0, 0, 0, 0, 0, 0, 0, 0, 0, 0, 0, 0, 10, 10, 10,
        0, 0, 0, 0, 0, 0, 0, 0, 0, 0, 0, 0], 3, 3⟩ ∧
    naive1F box3s (constImage 10 3 3) = some
      ⟨[0, 0, 0, 0, 0, 0, 0, 0, 0, 0, 0, 0, 9, 9, 9,
        0, 0, 0, 0, 0, 0, 0, 0, 0, 0, 0, 0], 3, 3⟩ :=
  ⟨by with_unfolding_all rfl, rfl, by with_unfolding_all rfl,
   by with_unfolding_all rfl, by with_unfolding_all rfl,
   by with_unfolding_all rfl, by with_unfolding_all rfl⟩

theorem getD_replicate {α : Type} (n : ℕ) (v d : α) (i : ℕ) :
    (List.replicate n v).getD i d = if i < n then v else d := by
  rcases Nat.lt_or_ge i n with h | h
  · rw [if_pos h, List.getD_eq_getElem?_getD, List.getElem?_replicate,
      if_pos h]
    rfl
  · rw [if_neg (by omega), List.getD_eq_getElem?_getD,
      List.getElem?_eq_none (by simpa using h)]
    rfl

theorem srcQ_const (v h w : ℕ) (idx : ℕ) :
    srcQ (constImage v h w) idx =
      if idx < h * w * C then (v : ℚ) else 0 := by
  unfold srcQ constImage
  rw [show (RgbImage.mk (List.replicate (h * w * C) v) h w).content =
    List.replicate (h * w * C) v from rfl, getD_replicate]
  split_ifs <;> simp

/- Every lane's source pixel sits at or left of the lane itself. -/
theorem lane3Pix_le : ∀ fuel remains b m, 4 * b ≤ m →
    lane3Pix fuel remains b m ≤ m := by
  intro fuel
  induction fuel with
  | zero => intro remains b m hm; exact le_rfl
  | succ fuel ih =>
    intro remains b m hm
    rw [lane3Pix]
    by_cases h0 : remains = 0
    · rw [if_pos h0]
    · rw [if_neg h0]
      by_cases h16 : 16 ≤ remains
      · rw [if_pos h16]
        by_cases hm16 : m < 4 * b + 16
        · rw [if_pos hm16]
          omega
        · rw [if_neg hm16]
          by_cases hbr : remains - 16 < 2
          · rw [if_pos hbr]
          · rw [if_neg hbr]
            exact ih (remains - 16) (b + 4) m (by omega)
      · rw [if_neg h16]
        by_cases h8 : 8 ≤ remains
        · rw [if_pos h8]
          by_cases hm8 : m < 4 * b + 8
          · rw [if_pos hm8]
            omega
          · rw [if_neg hm8]
            by_cases hbr : remains - 8 < 2
            · rw [if_pos hbr]
            · rw [if_neg hbr]
              exact ih (remains - 8) (b + 2) m (by omega)
        · rw [if_neg h8]
          by_cases h4 : 4 ≤ remains
          · rw [if_pos h4]
            by_cases hm4 : m < 4 * b + 4
            · rw [if_pos hm4]
            · rw [if_neg hm4]
              by_cases hbr : remains - 4 < 2
              · rw [if_pos hbr]
              · rw [if_neg hbr]
                exact ih (remains - 4) (b + 1) m (by omega)
          · rw [if_neg h4]
            by_cases h2 : 2 ≤ remains
            · rw [if_pos h2]
              by_cases hm2 : m < 4 * b + 2
              · rw [if_pos hm2]
              · rw [if_neg hm2]
                by_cases hbr : remains - 2 < 2
                · rw [if_pos hbr]
                · rw [if_neg hbr]
                  exact ih (remains - 2) b m (by omega)
            · rw [if_neg h2]

theorem applyDiv_zero (d : Option ℚ) : applyDiv d 0 = 0 := by
  match d with
  | none => rfl
  | some dv =>
    show (0 : ℚ) / dv = 0
    rw [zero_div]

theorem f32u8_zero : f32u8 0 = 0 := by with_unfolding_all rfl

theorem satPack_zero : satPack 0 = 0 := by with_unfolding_all rfl

/- On a flat image the accumulator is the constant times the tap sum. -/
theorem accPix_const {K : ℕ} (P : ConvKernel K) (v h w x y cc : ℕ)
    (hx1 : K / 2 ≤ x) (hx2 : x + K / 2 < w) (hy1 : K / 2 ≤ y)
    (hy2 : y + K / 2 < h) (hc : cc < 3) :
    accPix P (constImage v h w) x y cc = v * kSum P := by
  have hK2 : K ≤ 2 * (K / 2) + 1 := by omega
  have hconv : accPix P (constImage v h w) x y cc =
      foldR (fun i t => foldR (fun j t => t + (v : ℚ) * P.kAt i j) 0 K t)
        0 K 0 := by
    unfold accPix
    apply foldR_congr
    intro i t hi1 hi2
    apply foldR_congr
    intro j t2 hj1 hj2
    dsimp only
    rw [show (constImage v h w).width = w from rfl, srcQ_const, if_pos ?_]
    exact idx_lt_total (by omega) (by omega) (show cc < C from hc)
  have h2 : (v : ℚ) * kSum P =
      foldR (fun i t => foldR (fun j t => t + (v : ℚ) * P.kAt i j) 0 K t)
        0 K 0 := by
    unfold kSum
    rw [foldR_hom (fun t => (v : ℚ) * t) _
      (fun i t => foldR (fun j t => t + (v : ℚ) * P.kAt i j) 0 K t)
      0 K 0 ?hp1, mul_zero]
    case hp1 =>
      intro i t _ _
      dsimp only
      rw [foldR_hom (fun t => (v : ℚ) * t) _
        (fun j t => t + (v : ℚ) * P.kAt i j) 0 K t ?hp2]
      case hp2 =>
        intro j t2 _ _
        dsimp only
        ring
  rw [hconv, ← h2]

theorem acc3_const {K : ℕ} (P : ConvKernel K) (v h w gx y e cc : ℕ)
    (hodd : K % 2 = 1)
    (hgx1 : K / 2 ≤ gx) (hgx2 : gx + K / 2 + 15 < w) (hy1 : K / 2 ≤ y)
    (hy2 : y + K / 2 < h) (hc : cc < 3) (he : e < 16) :
    acc3 P (constImage v h w) gx y e cc = v * kSum P := by
  have hK2 : K ≤ 2 * (K / 2) + 1 := by omega
  have hconv : acc3 P (constImage v h w) gx y e cc =
      foldR (fun i t => foldR (fun j t => t + (v : ℚ) * P.kAt i j) 0 K t)
        0 K 0 := by
    unfold acc3
    apply foldR_congr
    intro i t hi1 hi2
    apply foldR_congr
    intro j t2 hj1 hj2
    dsimp only
    have hpix := lane3Pix_le (K / 2 * 2 + 16) (K / 2 * 2 + 16) 0 (e + j)
      (by omega)
    rw [show (constImage v h w).width = w from rfl, srcQ_const, if_pos ?_]
    exact idx_lt_total (by omega) (by omega) (show cc < C from hc)
  have h2 : (v : ℚ) * kSum P =
      foldR (fun i t => foldR (fun j t => t + (v : ℚ) * P.kAt i j) 0 K t)
        0 K 0 := by
    unfold kSum
    rw [foldR_hom (fun t => (v : ℚ) * t) _
      (fun i t => foldR (fun j t => t + (v : ℚ) * P.kAt i j) 0 K t)
      0 K 0 ?hp1, mul_zero]
    case hp1 =>
      intro i t _ _
      dsimp only
      rw [foldR_hom (fun t => (v : ℚ) * t) _
        (fun j t => t + (v : ℚ) * P.kAt i j) 0 K t ?hp2]
      case hp2 =>
        intro j t2 _ _
        dsimp only
        ring
  rw [hconv, ← h2]

theorem specAt_const_zero {K : ℕ} (P : ConvKernel K) (v h w : ℕ)
    (hsum : kSum P = 0) (idx : ℕ) :
    specAt P (constImage v h w) idx = 0 := by
  simp only [specAt]
  by_cases hin : K / 2 ≤ idx / ((constImage v h w).width * C) ∧
      idx / ((constImage v h w).width * C) + K / 2 < (constImage v h w).height ∧
      K / 2 ≤ idx % ((constImage v h w).width * C) / C ∧
      idx % ((constImage v h w).width * C) / C + K / 2 < (constImage v h w).width
  · rw [if_pos hin]
    obtain ⟨h1, h2, h3, h4⟩ := hin
    show f32u8 (applyDiv P.div (accPix P (constImage v h w) _ _ _)) = 0
    rw [accPix_const P v h w _ _ _ h3 h4 h1 h2 ?_, hsum, mul_zero,
      applyDiv_zero, f32u8_zero]
    have hCC : (C : ℕ) = 3 := rfl
    have := Nat.mod_lt (idx % ((constImage v h w).width * C))
      (show 0 < (C : ℕ) by decide)
    omega
  · rw [if_neg hin]

theorem spec3At_const_zero {K : ℕ} (P : ConvKernel K) (v h w : ℕ)
    (hodd : K % 2 = 1) (hsum : kSum P = 0) (idx : ℕ) :
    spec3At P (constImage v h w) idx = 0 := by
  simp only [spec3At]
  by_cases hin : K / 2 ≤ idx / ((constImage v h w).width * C) ∧
      idx / ((constImage v h w).width * C) + K / 2 < (constImage v h w).height ∧
      K / 2 ≤ idx % ((constImage v h w).width * C) / C ∧
      idx % ((constImage v h w).width * C) / C + K / 2 < (constImage v h w).width
  · rw [if_pos hin]
    obtain ⟨h1, h2, h3, h4⟩ := hin
    have hcc : idx % ((constImage v h w).width * C) % C < C :=
      Nat.mod_lt _ (by decide)
    by_cases hend : idx % ((constImage v h w).width * C) / C <
        simd3End K (constImage v h w).width
    · rw [if_pos hend]
      show satPack (applyDiv P.div (acc3 P (constImage v h w) _ _ _ _)) = 0
      have hse : simd3End K (constImage v h w).width =
          (constImage v h w).width - K / 2 -
            ((constImage v h w).width - 2 * (K / 2)) % 16 := rfl
      have hwc : (constImage v h w).width = w := rfl
      rw [hse] at hend
      have hmle : ((constImage v h w).width - 2 * (K / 2)) % 16 ≤
          (constImage v h w).width - 2 * (K / 2) := Nat.mod_le _ _
      have hCC : (C : ℕ) = 3 := rfl
      rw [acc3_const P v h w _ _ _ _ hodd
        (Nat.le_add_right (K / 2) _) ?_ h1 h2 (by omega)
        (Nat.mod_lt _ (by decide)), hsum, mul_zero,
        applyDiv_zero, satPack_zero]
      have hd16 : (idx % ((constImage v h w).width * C) / C - K / 2) / 16 * 16
          ≤ idx % ((constImage v h w).width * C) / C - K / 2 :=
        Nat.div_mul_le_self _ _
      omega
    · rw [if_neg hend]
      show f32u8 (applyDiv P.div (accPix P (constImage v h w) _ _ _)) = 0
      rw [accPix_const P v h w _ _ _ h3 h4 h1 h2
        (by have hCC : (C : ℕ) = 3 := rfl; omega), hsum, mul_zero,
        applyDiv_zero, f32u8_zero]
  · rw [if_neg hin]

/-- C8: a kernel whose taps sum to zero, applied without normalization to a
flat uniform image, produces an all-zero output (in particular every
interior pixel is zero) for every strategy and every kernel size. -/
theorem C8_zero_sum_flat {K : ℕ} (P : ConvKernel K) (v h w : ℕ)
    (hodd : K % 2 = 1) (hK : 3 ≤ K)
    (hw2 : 2 * (K / 2) ≤ w) (hh : K / 2 ≤ h) (hsum : kSum P = 0) :
    ∀ S ∈ allStrategies K, ∃ out, S P (constImage v h w) = some out ∧
      ∀ idx, out.content.getD idx 0 = 0 := by
  intro S hS
  have hK1 : 1 ≤ K := by omega
  have hw1 : K / 2 ≤ w := by omega
  have hlen : (constImage v h w).content.length =
      (constImage v h w).height * (constImage v h w).width * C :=
    List.length_replicate _ _
  have hz : ∀ idx,
      (specImage P (constImage v h w)).content.getD idx 0 = 0 := by
    intro idx
    rcases Nat.lt_or_ge idx (h * w * C) with hi | hi
    · show ((List.range (h * w * C)).map
        (specAt P (constImage v h w))).getD idx 0 = 0
      rw [range_map_getD _ _ _ hi]
      exact specAt_const_zero P v h w hsum idx
    · refine getD_oob _ idx ?_
      show ((List.range (h * w * C)).map _).length ≤ idx
      rw [List.length_map, List.length_range]
      exact hi
  have hz3 : ∀ idx,
      (spec3Image P (constImage v h w)).content.getD idx 0 = 0 := by
    intro idx
    rcases Nat.lt_or_ge idx (h * w * C) with hi | hi
    · show ((List.range (h * w * C)).map
        (spec3At P (constImage v h w))).getD idx 0 = 0
      rw [range_map_getD _ _ _ hi]
      exact spec3At_const_zero P v h w hodd hsum idx
    · refine getD_oob _ idx ?_
      show ((List.range (h * w * C)).map _).length ≤ idx
      rw [List.length_map, List.length_range]
      exact hi
  simp only [allStrategies, List.mem_cons, List.not_mem_nil, or_false] at hS
  rcases hS with rfl | rfl | rfl | rfl | rfl
  · exact ⟨_, naive1_spec P _ hw1 hh hlen, hz⟩
  · exact ⟨_, naive2_spec P _ hw1 hh hlen, hz⟩
  · exact ⟨_, simd1_spec P _ hK1 hw2 hh hlen, hz⟩
  · exact ⟨_, simd2_spec P _ hK1 hw2 hh hlen, hz⟩
  · exact ⟨_, simd3_spec P _ hodd hw2 hh hlen, hz3⟩

/-- C8 witness: the 3x3 Sobel kernel on a flat 4x4 image of value 9 gives
the all-zero output under `naive1`. -/
theorem C8_zero_sum_flat_witness :
    ∃ out, naive1 sobel3 (constImage 9 4 4) = some out ∧
      ∀ idx, out.content.getD idx 0 = 0 :=
  C8_zero_sum_flat sobel3 9 4 4 (by decide) (by decide) (by decide)
    (by decide) (by with_unfolding_all rfl) naive1 (by simp [allStrategies])

/- ------------------------------------------------------------------ -/
/- Closed-form evaluation lemmas for the concrete scenario images, so the
scenario claims need no bulk computation. -/

theorem srcQ_mk (f : ℕ → ℕ) (n h w idx : ℕ) :
    srcQ ⟨(List.range n).map f, h, w⟩ idx =
      if idx < n then (f idx : ℚ) else 0 := by
  unfold srcQ
  show ((((List.range n).map f).getD idx 0 : ℕ) : ℚ) = _
  rcases Nat.lt_or_ge idx n with hi | hi
  · rw [range_map_getD n f idx hi, if_pos hi]
  · have hlen : ((List.range n).map f).length ≤ idx := by
      rw [List.length_map, List.length_range]
      omega
    rw [getD_oob _ idx hlen, if_neg (by omega)]
    exact Nat.cast_zero

theorem srcQ_img10 (idx : ℕ) :
    srcQ img10 idx =
      if idx < 300 then (([200, 100, 50].getD (idx % 3) 0 : ℕ) : ℚ) else 0 :=
  srcQ_mk (fun i => [200, 100, 50].getD (i % 3) 0) 300 10 10 idx

theorem srcQ_imgC1 (idx : ℕ) :
    srcQ imgC1 idx = if idx < 648 ∧ 12 ≤ idx / 3 % 24 then 1 else 0 := by
  have h : srcQ imgC1 idx =
      if idx < 648 then ((if 12 ≤ idx / 3 % 24 then 1 else 0 : ℕ) : ℚ) else 0 :=
    srcQ_mk (fun i => if 12 ≤ i / 3 % 24 then 1 else 0) 648 9 24 idx
  rw [h]
  by_cases h1 : idx < 648
  · rw [if_pos h1]
    by_cases h2 : 12 ≤ idx / 3 % 24
    · rw [if_pos h2, if_pos ⟨h1, h2⟩]
      exact Nat.cast_one
    · rw [if_neg h2, if_neg (by tauto)]
      exact Nat.cast_zero
  · rw [if_neg h1, if_neg (by tauto)]

/- Clamp-and-truncate is the identity on byte-ranged naturals. -/
theorem f32u8_natCast (v : ℕ) (hv : v ≤ 255) : f32u8 (v : ℚ) = v := by
  unfold f32u8
  rw [min_eq_left (show (v : ℚ) ≤ 255 by exact_mod_cast hv),
    max_eq_right (Nat.cast_nonneg v), Int.floor_natCast, Int.toNat_natCast]

theorem satPack_natCast (v : ℕ) (hv : v ≤ 255) : satPack (v : ℚ) = v := by
  unfold satPack cvtU32
  rw [if_neg (not_lt.2 (Nat.cast_nonneg v)), Int.floor_natCast,
    Int.toNat_natCast,
    min_eq_left (le_trans hv (show 255 ≤ 2 ^ 32 - 1 by norm_num)),
    min_eq_left (le_trans hv (show 255 ≤ 2 ^ 16 - 1 by norm_num)),
    min_eq_left (le_trans hv (show 255 ≤ 2 ^ 8 - 1 by norm_num))]

theorem foldR_add_const (c : ℚ) (a n : ℕ) (t0 : ℚ) :
    foldR (fun _ t => t + c) a n t0 = t0 + n * c := by
  induction n generalizing a t0 with
  | zero =>
    show t0 = t0 + ((0 : ℕ) : ℚ) * c
    push_cast
    ring
  | succ n ih =>
    rw [foldR_succ_right, ih]
    show t0 + (n : ℚ) * c + c = t0 + ((n + 1 : ℕ) : ℚ) * c
    push_cast
    ring

/- The tap sum of an all-ones KxK kernel is K*K. -/
theorem kSum_ones {K : ℕ} (d : Option ℚ) :
    kSum (⟨List.replicate (K * K) (1 : ℚ), d⟩ : ConvKernel K) = (K : ℚ) * K := by
  have hconv : kSum (⟨List.replicate (K * K) (1 : ℚ), d⟩ : ConvKernel K) =
      foldR (fun _ t => foldR (fun _ t => t + (1 : ℚ)) 0 K t) 0 K 0 := by
    unfold kSum
    apply foldR_congr
    intro i t hi1 hi2
    apply foldR_congr
    intro j t2 hj1 hj2
    dsimp only
    congr 1
    rw [show (⟨List.replicate (K * K) (1 : ℚ), d⟩ : ConvKernel K).kAt i j =
      (List.replicate (K * K) (1 : ℚ)).getD (i * K + j) 0 from rfl,
      getD_replicate, if_pos ?_]
    have h1 : (i + 1) * K ≤ K * K := Nat.mul_le_mul (by omega) (le_refl K)
    have h2 : (i + 1) * K = i * K + K := by ring
    omega
  have hout : foldR (fun _ t => foldR (fun _ t => t + (1 : ℚ)) 0 K t) 0 K 0 =
      foldR (fun _ t => t + (K : ℚ) * 1) 0 K 0 := by
    apply foldR_congr
    intro i t _ _
    dsimp only
    rw [foldR_add_const]
  rw [hconv, hout, foldR_add_const]
  push_cast
  ring

theorem kSum_box3 : kSum box3 = 9 := by
  have h := @kSum_ones 3 (some 9)
  rw [show box3 = (⟨List.replicate (3 * 3) (1 : ℚ), some 9⟩ : ConvKernel 3)
    from rfl, h]
  norm_num

/- When every tap reads the same source value the accumulator is that value
times the tap sum (same argument as `accPix_const`, but for any image whose
reads in the window are constant). -/
theorem accPix_tapval {K : ℕ} (P : ConvKernel K) (src : RgbImage)
    (x y cc : ℕ) (v : ℚ)
    (hval : ∀ i j, i < K → j < K →
      srcQ src ((y - K / 2 + i) * src.width * C + (x - K / 2 + j) * C + cc)
        = v) :
    accPix P src x y cc = v * kSum P := by
  have hconv : accPix P src x y cc =
      foldR (fun i t => foldR (fun j t => t + v * P.kAt i j) 0 K t) 0 K 0 := by
    unfold accPix
    apply foldR_congr
    intro i t hi1 hi2
    apply foldR_congr
    intro j t2 hj1 hj2
    dsimp only
    rw [hval i j (by omega) (by omega)]
  have h2 : v * kSum P =
      foldR (fun i t => foldR (fun j t => t + v * P.kAt i j) 0 K t) 0 K 0 := by
    unfold kSum
    rw [foldR_hom (fun t => v * t) _
      (fun i t => foldR (fun j t => t + v * P.kAt i j) 0 K t) 0 K 0 ?hp1,
      mul_zero]
    case hp1 =>
      intro i t _ _
      dsimp only
      rw [foldR_hom (fun t => v * t) _
        (fun j t => t + v * P.kAt i j) 0 K t ?hp2]
      case hp2 =>
        intro j t2 _ _
        dsimp only
        ring
  rw [hconv, ← h2]

theorem img10_len : img10.content.length = img10.height * img10.width * C := by
  show ((List.range 300).map (fun i => [200, 100, 50].getD (i % 3) 0)).length =
    img10.height * img10.width * C
  rw [List.length_map, List.length_range]
  rfl

theorem imgC1_len : imgC1.content.length = imgC1.height * imgC1.width * C := by
  show ((List.range 648).map
      (fun i => if 12 ≤ i / 3 % 24 then 1 else 0)).length =
    imgC1.height * imgC1.width * C
  rw [List.length_map, List.length_range]
  rfl

/- An interior pixel of the box filter on `img10` reproduces the source
color: every tap reads the channel constant, the nine taps sum to 9 times
it, and the averaging divides the 9 back out. -/
theorem specPix_img10 (x y cc : ℕ) (hx1 : 1 ≤ x) (hx2 : x ≤ 8)
    (hy1 : 1 ≤ y) (hy2 : y ≤ 8) (hcc : cc < 3) :
    specPix box3 img10 x y cc = [200, 100, 50].getD cc 0 := by
  show f32u8 (applyDiv box3.div (accPix box3 img10 x y cc)) = _
  have hval : ∀ i j, i < 3 → j < 3 →
      srcQ img10 ((y - 3 / 2 + i) * img10.width * C + (x - 3 / 2 + j) * C + cc)
        = (([200, 100, 50].getD cc 0 : ℕ) : ℚ) := by
    intro i j hi hj
    rw [show img10.width = 10 from rfl, show (C : ℕ) = 3 from rfl, srcQ_img10,
      if_pos (by omega),
      show ((y - 3 / 2 + i) * 10 * 3 + (x - 3 / 2 + j) * 3 + cc) % 3 = cc
        from by omega]
  rw [accPix_tapval box3 img10 x y cc (([200, 100, 50].getD cc 0 : ℕ) : ℚ)
    hval, kSum_box3]
  show f32u8 ((([200, 100, 50].getD cc 0 : ℕ) : ℚ) * 9 / 9) = _
  rw [mul_div_cancel_right₀ _ (show (9 : ℚ) ≠ 0 from by norm_num)]
  refine f32u8_natCast _ ?_
  have h3 : cc = 0 ∨ cc = 1 ∨ cc = 2 := by omega
  rcases h3 with rfl | rfl | rfl <;> decide

/- The full per-byte description of the box filter on `img10`. -/
theorem specAt_img10 (idx : ℕ) (hidx : idx < 300) :
    specAt box3 img10 idx =
      if idx / 30 = 0 ∨ idx / 30 = 9 ∨ idx % 30 / 3 = 0 ∨ idx % 30 / 3 = 9
      then 0 else [200, 100, 50].getD (idx % 3) 0 := by
  simp only [specAt]
  rw [show img10.width * C = 30 from rfl, show img10.height = 10 from rfl,
    show img10.width = 10 from rfl, show (C : ℕ) = 3 from rfl]
  by_cases hb : idx / 30 = 0 ∨ idx / 30 = 9 ∨ idx % 30 / 3 = 0 ∨
      idx % 30 / 3 = 9
  · rw [if_neg (by omega), if_pos hb]
  · rw [if_pos (by omega), if_neg hb,
      show idx % 30 % 3 = idx % 3 from by omega]
    exact specPix_img10 (idx % 30 / 3) (idx / 30) (idx % 3) (by omega)
      (by omega) (by omega) (by omega) (by omega)

/- `simd3`'s description agrees on `img10`: its 16-wide region is empty
(`simd3End 3 10 = 1`), so every interior column is a peel column. -/
theorem spec3At_img10 (idx : ℕ) (hidx : idx < 300) :
    spec3At box3 img10 idx =
      if idx / 30 = 0 ∨ idx / 30 = 9 ∨ idx % 30 / 3 = 0 ∨ idx % 30 / 3 = 9
      then 0 else [200, 100, 50].getD (idx % 3) 0 := by
  simp only [spec3At]
  rw [show img10.width * C = 30 from rfl, show img10.height = 10 from rfl,
    show img10.width = 10 from rfl, show (C : ℕ) = 3 from rfl]
  by_cases hb : idx / 30 = 0 ∨ idx / 30 = 9 ∨ idx % 30 / 3 = 0 ∨
      idx % 30 / 3 = 9
  · rw [if_neg (by omega), if_pos hb]
  · rw [if_pos (by omega), show simd3End 3 10 = 1 from by decide,
      if_neg (by omega), if_neg hb,
      show idx % 30 % 3 = idx % 3 from by omega]
    exact specPix_img10 (idx % 30 / 3) (idx / 30) (idx % 3) (by omega)
      (by omega) (by omega) (by omega) (by omega)

theorem specImage_img10 : specImage box3 img10 = expected10 := by
  unfold specImage expected10
  have hc : (List.range (img10.height * img10.width * C)).map
        (specAt box3 img10) =
      (List.range 300).map (fun idx =>
        if idx / 30 = 0 ∨ idx / 30 = 9 ∨ idx % 30 / 3 = 0 ∨ idx % 30 / 3 = 9
        then 0 else [200, 100, 50].getD (idx % 3) 0) := by
    rw [show img10.height * img10.width * C = 300 from rfl]
    refine List.map_congr_left ?_
    intro idx hidx
    exact specAt_img10 idx (List.mem_range.mp hidx)
  rw [hc]
  rfl

theorem spec3Image_img10 : spec3Image box3 img10 = expected10 := by
  unfold spec3Image expected10
  have hc : (List.range (img10.height * img10.width * C)).map
        (spec3At box3 img10) =
      (List.range 300).map (fun idx =>
        if idx / 30 = 0 ∨ idx / 30 = 9 ∨ idx % 30 / 3 = 0 ∨ idx % 30 / 3 = 9
        then 0 else [200, 100, 50].getD (idx % 3) 0) := by
    rw [show img10.height * img10.width * C = 300 from rfl]
    refine List.map_congr_left ?_
    intro idx hidx
    exact spec3At_img10 idx (List.mem_range.mp hidx)
  rw [hc]
  rfl

/- The reference byte at flat index 336 of the C1 scenario: row 4, column
16, channel 0; all 81 taps of the 9x9 window read source value 1. -/
theorem specAt_imgC1_336 : specAt kern9 imgC1 336 = 81 := by
  simp only [specAt]
  rw [show imgC1.width * C = 72 from rfl, show imgC1.height = 9 from rfl,
    show imgC1.width = 24 from rfl, show (C : ℕ) = 3 from rfl,
    if_pos (by omega),
    show (336 : ℕ) % 72 / 3 = 16 from rfl,
    show (336 : ℕ) % 72 % 3 = 0 from rfl,
    show (336 : ℕ) / 72 = 4 from rfl]
  show f32u8 (applyDiv kern9.div (accPix kern9 imgC1 16 4 0)) = 81
  have hconv : accPix kern9 imgC1 16 4 0 =
      foldR (fun i t => foldR (fun j t => t + (1 : ℚ)) 0 9 t) 0 9 0 := by
    unfold accPix
    apply foldR_congr
    intro i t hi1 hi2
    apply foldR_congr
    intro j t2 hj1 hj2
    dsimp only
    congr 1
    have hk : kern9.kAt i j = 1 := by
      rw [show kern9.kAt i j = (List.replicate 81 (1 : ℚ)).getD (i * 9 + j) 0
        from rfl, getD_replicate, if_pos (by omega)]
    rw [hk, mul_one, show imgC1.width = 24 from rfl,
      show (C : ℕ) = 3 from rfl, srcQ_imgC1, if_pos (by omega)]
  have hsum : foldR (fun i t => foldR (fun j t => t + (1 : ℚ)) 0 9 t) 0 9 0 =
      (81 : ℚ) := by with_unfolding_all rfl
  rw [hconv, hsum]
  show f32u8 (81 : ℚ) = 81
  rw [show (81 : ℚ) = ((81 : ℕ) : ℚ) from by norm_num]
  exact f32u8_natCast 81 (by norm_num)

/- The `simd3` byte at the same flat index 336: its window uses the buggy
lane pixels `lane3Pix 24 24 0 (12 + j)`, which fall inside the 1-region
only for `j < 4`, so each of the 9 kernel rows contributes 4 instead of
9. -/
theorem spec3At_imgC1_336 : spec3At kern9 imgC1 336 = 36 := by
  simp only [spec3At]
  rw [show imgC1.width * C = 72 from rfl, show imgC1.height = 9 from rfl,
    show imgC1.width = 24 from rfl, show (C : ℕ) = 3 from rfl,
    if_pos (by omega),
    show (336 : ℕ) % 72 / 3 = 16 from rfl,
    show (336 : ℕ) % 72 % 3 = 0 from rfl,
    show (336 : ℕ) / 72 = 4 from rfl,
    show simd3End 9 24 = 20 from by decide, if_pos (by omega),
    show 9 / 2 + (16 - 9 / 2) / 16 * 16 = 4 from rfl,
    show (16 - 9 / 2) % 16 = 12 from rfl]
  show satPack (applyDiv kern9.div (acc3 kern9 imgC1 4 4 12 0)) = 36
  have hconv : acc3 kern9 imgC1 4 4 12 0 =
      foldR (fun i t =>
        foldR (fun j t => t + (if j < 4 then (1 : ℚ) else 0)) 0 9 t) 0 9 0 := by
    unfold acc3
    apply foldR_congr
    intro i t hi1 hi2
    apply foldR_congr
    intro j t2 hj1 hj2
    dsimp only
    congr 1
    have hk : kern9.kAt i j = 1 := by
      rw [show kern9.kAt i j = (List.replicate 81 (1 : ℚ)).getD (i * 9 + j) 0
        from rfl, getD_replicate, if_pos (by omega)]
    rw [hk, mul_one, show imgC1.width = 24 from rfl,
      show (C : ℕ) = 3 from rfl, srcQ_imgC1]
    have hj9 : j = 0 ∨ j = 1 ∨ j = 2 ∨ j = 3 ∨ j = 4 ∨ j = 5 ∨ j = 6 ∨
        j = 7 ∨ j = 8 := by omega
    rcases hj9 with rfl | rfl | rfl | rfl | rfl | rfl | rfl | rfl | rfl
    · rw [show lane3Pix (9 / 2 * 2 + 16) (9 / 2 * 2 + 16) 0 (12 + 0) = 12
        from by decide, if_pos (by omega)]
      norm_num
    · rw [show lane3Pix (9 / 2 * 2 + 16) (9 / 2 * 2 + 16) 0 (12 + 1) = 13
        from by decide, if_pos (by omega)]
      norm_num
    · rw [show lane3Pix (9 / 2 * 2 + 16) (9 / 2 * 2 + 16) 0 (12 + 2) = 14
        from by decide, if_pos (by omega)]
      norm_num
    · rw [show lane3Pix (9 / 2 * 2 + 16) (9 / 2 * 2 + 16) 0 (12 + 3) = 15
        from by decide, if_pos (by omega)]
      norm_num
    · rw [show lane3Pix (9 / 2 * 2 + 16) (9 / 2 * 2 + 16) 0 (12 + 4) = 4
        from by decide, if_neg (by omega)]
      norm_num
    · rw [show lane3Pix (9 / 2 * 2 + 16) (9 / 2 * 2 + 16) 0 (12 + 5) = 5
        from by decide, if_neg (by omega)]
      norm_num
    · rw [show lane3Pix (9 / 2 * 2 + 16) (9 / 2 * 2 + 16) 0 (12 + 6) = 6
        from by decide, if_neg (by omega)]
      norm_num
    · rw [show lane3Pix (9 / 2 * 2 + 16) (9 / 2 * 2 + 16) 0 (12 + 7) = 7
        from by decide, if_neg (by omega)]
      norm_num
    · rw [show lane3Pix (9 / 2 * 2 + 16) (9 / 2 * 2 + 16) 0 (12 + 8) = 8
        from by decide, if_neg (by omega)]
      norm_num
  have hsum : foldR (fun i t =>
      foldR (fun j t => t + (if j < 4 then (1 : ℚ) else 0)) 0 9 t) 0 9 0 =
      (36 : ℚ) := by with_unfolding_all rfl
  rw [hconv, hsum]
  show satPack (36 : ℚ) = 36
  rw [show (36 : ℚ) = ((36 : ℕ) : ℚ) from by norm_num]
  exact satPack_natCast 36 (by norm_num)

/-- C1: the claim that all five strategies produce byte-identical output is
a code bug.  On the validly constructed 9x9 all-ones kernel and a well-formed
9x24 image, `naive1` and `simd3` both run to completion but disagree at flat
byte 336 (row 4, column 16, channel 0): the reference computes 81, `simd3`
computes 36, because `load16`/`load8` advance their read base by `b` pixels
instead of `4*b` pixels for register index `b`.  `naive2`, `simd1` and
`simd2` do match the reference (see the C3/C5/C9 theorems built on
`naive2_spec`, `simd1_spec`, `simd2_spec`), so the equivalence fails
precisely at `simd3`. -/
theorem C1_simd3_diverges :
    ConvKernelF.new 9 (List.replicate 81 (FP32.num 1)) false =
      Except.ok ⟨List.replicate 81 (FP32.num 1), none⟩ ∧
    naive1 kern9 imgC1 = some (specImage kern9 imgC1) ∧
    simd3 kern9 imgC1 = some (spec3Image kern9 imgC1) ∧
    (specImage kern9 imgC1).content.getD 336 0 = 81 ∧
    (spec3Image kern9 imgC1).content.getD 336 0 = 36 := by
  refine ⟨rfl, naive1_spec kern9 imgC1 (by decide) (by decide) imgC1_len,
    simd3_spec kern9 imgC1 (by decide) (by decide) (by decide) imgC1_len,
    ?_, ?_⟩
  · show ((List.range (imgC1.height * imgC1.width * C)).map
        (specAt kern9 imgC1)).getD 336 0 = 81
    rw [show imgC1.height * imgC1.width * C = 648 from rfl,
      range_map_getD 648 _ 336 (by norm_num)]
    exact specAt_imgC1_336
  · show ((List.range (imgC1.height * imgC1.width * C)).map
        (spec3At kern9 imgC1)).getD 336 0 = 36
    rw [show imgC1.height * imgC1.width * C = 648 from rfl,
      range_map_getD 648 _ 336 (by norm_num)]
    exact spec3At_imgC1_336

/-- C7: a 3x3 all-ones kernel with averaging on the uniform 10x10 image of
color (200, 100, 50) yields exactly that color on every interior pixel and a
1-pixel zero border, for every strategy; the kernel construction itself
succeeds with normalizer 9. -/
theorem C7_box_average_10x10 :
    naive1 box3 img10 = some expected10 ∧
    naive2 box3 img10 = some expected10 ∧
    simd1 box3 img10 = some expected10 ∧
    simd2 box3 img10 = some expected10 ∧
    simd3 box3 img10 = some expected10 ∧
    ConvKernelF.new 3 (List.replicate 9 (FP32.num 1)) true =
      Except.ok ⟨List.replicate 9 (FP32.num 1), some (FP32.num 9)⟩ := by
  refine ⟨?_, ?_, ?_, ?_, ?_, ?_⟩
  · rw [naive1_spec box3 img10 (by decide) (by decide) img10_len,
      specImage_img10]
  · rw [naive2_spec box3 img10 (by decide) (by decide) img10_len,
      specImage_img10]
  · rw [simd1_spec box3 img10 (by decide) (by decide) (by decide) img10_len,
      specImage_img10]
  · rw [simd2_spec box3 img10 (by decide) (by decide) (by decide) img10_len,
      specImage_img10]
  · rw [simd3_spec box3 img10 (by decide) (by decide) (by decide) img10_len,
      spec3Image_img10]
  · with_unfolding_all rfl

end SimdPlayground

